import Mathlib

/-!
Verification development for the wmpy collection module
(`src/wmpy/_collection.py`): a watchable (observable) list and a
bidirectional many-to-many relation engine with four container variants
(list, checked list, set, counter).

Conventions of the embedding:
* Python lists of values are `List Nat` (relation keys) or `List Int`
  (watchable-list contents); Python `dict`s are association lists kept in
  insertion order; Python `set`s are duplicate-free lists in insertion
  order; `collections.Counter` is an association list from key to `Int`
  count, keys unique, in insertion order.
* Fallible operations return `Except (Err × State) State`; the state
  carried by an error is the state *at the moment the exception is
  raised* (Python mutates in place, so an exception does not roll back).
* Listener notification (`_notify`) is modelled as appending an event to
  a trace; each event records which side and key was notified together
  with a snapshot of the whole relation state at that moment, which is
  exactly what a (non-mutating) listener callback can observe.
-/

namespace Wmpy

/-! ### Python slice semantics

`PySlice` is a Python `slice(start, stop, step)` object (each component
possibly `None`).  `sliceIndices` is the standard `slice.indices(length)`
clamping algorithm; it fails (returns `none`) exactly when `step == 0`.
`sliceWalk` enumerates `range(start, stop, step)`; the fuel argument is
the list length, which is an upper bound on the number of in-bounds
indices a valid slice can select. -/

structure PySlice where
  start? : Option Int
  stop? : Option Int
  step? : Option Int
  deriving Repr, DecidableEq

def clampIdx (s L lower upper : Int) : Int :=
  if s < 0 then max (s + L) lower else min s upper

def sliceIndices (sl : PySlice) (length : Nat) : Option (Int × Int × Int) :=
  let L : Int := (length : Int)
  let step := sl.step?.getD 1
  if step = 0 then none else
  let lower : Int := if step < 0 then -1 else 0
  let upper : Int := if step < 0 then L - 1 else L
  let start := match sl.start? with
    | none => if step < 0 then upper else lower
    | some s => clampIdx s L lower upper
  let stop := match sl.stop? with
    | none => if step < 0 then lower else upper
    | some s => clampIdx s L lower upper
  some (start, stop, step)

def sliceWalk (stop step : Int) : Nat → Int → List Int
  | 0, _ => []
  | n+1, cur =>
    if (0 < step ∧ cur < stop) ∨ (step < 0 ∧ stop < cur) then
      cur :: sliceWalk stop step n (cur + step)
    else []

/-- The list of positions selected by a slice on a list of the given
length (`none` iff the slice step is zero). -/
def sliceSel (sl : PySlice) (length : Nat) : Option (List Nat) :=
  (sliceIndices sl length).map (fun t => (sliceWalk t.2.1 t.2.2 length t.1).map Int.toNat)

/-- Python `l[idxs[0]], l[idxs[1]], ...`: extraction by positions. -/
def pyGetIdxs [Inhabited α] (l : List α) (idxs : List Nat) : List α :=
  idxs.map (fun i => l.getD i default)

/-- Contiguous slice assignment `l[start:stop] = v` (step 1), with
`0 ≤ start ≤ length` and `stop ≤ length` as produced by `sliceIndices`. -/
def pySetContig (l : List α) (start stop : Int) (v : List α) : List α :=
  l.take start.toNat ++ v ++ l.drop (max start stop).toNat

/-- Extended slice assignment with matching lengths: position `idxs[j]`
receives `v[j]`; other positions are unchanged. -/
def pySetExt (l : List α) (idxs : List Nat) (v : List α) : List α :=
  l.enum.map (fun p => match idxs.findIdx? (fun i => i = p.1) with
    | some j => v.getD j p.2
    | none => p.2)

/-- Python `del l[sl]`: drop the selected positions. -/
def pyDelIdxs (l : List α) (idxs : List Nat) : List α :=
  l.enum.filterMap (fun p => if idxs.contains p.1 then none else some p.2)

/-- Python list index normalization: negative indices count from the
end; out-of-range yields `none` (IndexError). -/
def pyNorm (length : Nat) (i : Int) : Option Nat :=
  let j := if i < 0 then i + length else i
  if 0 ≤ j ∧ j < (length : Int) then some j.toNat else none

/-! ### WatchableList

`watchable.Mixin` is imported by the source from a sibling module that is
not part of the sources given here.  Modelled from the spec: `_event`
is a scoped emission that, on normal exit of its body, publishes the
event (kind plus metadata) to the observers of the sequence; on abnormal
exit it publishes nothing and re-raises.  An event is therefore recorded
in the trace exactly when the mutation it wraps succeeded. -/

inductive WEvent
  | updateAt (idx : Int) (newValue : Int)
  | updateSlice (idx : PySlice) (newValue : List Int)
  | insert (idx : Int) (values : List Int)
  | delAt (idx : Int)
  | delSlice (idx : PySlice)
  deriving Repr, DecidableEq

structure WL where
  contents : List Int
  events : List WEvent
  deriving Repr, DecidableEq

abbrev WRes := Except (String × WL) WL

/-- `WatchableList.__setitem__` with an integer index. -/
def wlSetInt (w : WL) (i : Int) (v : Int) : WRes :=
  match pyNorm w.contents.length i with
  | some j => .ok { contents := w.contents.set j v, events := w.events ++ [.updateAt i v] }
  | none => .error ("list assignment index out of range", w)

/-- `WatchableList.__delitem__` with an integer index. -/
def wlDelInt (w : WL) (i : Int) : WRes :=
  match pyNorm w.contents.length i with
  | some j => .ok { contents := w.contents.eraseIdx j, events := w.events ++ [.delAt i] }
  | none => .error ("list assignment index out of range", w)

/-- `WatchableList.__delitem__` with a slice index. -/
def wlDelSlice (w : WL) (sl : PySlice) : WRes :=
  match sliceSel sl w.contents.length with
  | none => .error ("slice step cannot be zero", w)
  | some idxs => .ok { contents := pyDelIdxs w.contents idxs, events := w.events ++ [.delSlice sl] }

/-- The `len(indices) == len(value)` branch of
`WatchableList.__setitem__`: `self._contents[idx] = value` under an
`update` event.  For a step-1 slice this is a contiguous replacement,
otherwise a positional overwrite (lengths are known to match). -/
def wlSetSliceEq (w : WL) (sl : PySlice) (v : List Int) : WRes :=
  match sliceIndices sl w.contents.length with
  | none => .error ("slice step cannot be zero", w)
  | some (start, stop, step) =>
    let idxs := (sliceWalk stop step w.contents.length start).map Int.toNat
    let newContents := if step = 1 then pySetContig w.contents start stop v else pySetExt w.contents idxs v
    .ok { contents := newContents, events := w.events ++ [.updateSlice sl v] }

/-- `WatchableList.__setitem__` with a slice index.  Equal lengths:
direct update.  Shrink: `self[start:start+len(value)] = value` (which
hits the equal-length branch) followed by
`del self[start+len(value):stop]`.  Grow:
`self[start:insertPoint] = value[:len(indices)]` followed by an `insert`
of the remaining values at `insertPoint`.  Shrinking or growing an
extended slice (step ≠ 1) raises before any mutation. -/
def wlSetSlice (w : WL) (sl : PySlice) (v : List Int) : WRes :=
  match sliceIndices sl w.contents.length with
  | none => .error ("slice step cannot be zero", w)
  | some (start, stop, step) =>
    let idxs := (sliceWalk stop step w.contents.length start).map Int.toNat
    if idxs.length = v.length then
      wlSetSliceEq w sl v
    else if v.length < idxs.length then
      if step ≠ 1 then .error ("shrinking extended slices unsupported", w)
      else
        match wlSetSliceEq w ⟨some start, some (start + v.length), none⟩ v with
        | .error e => .error e
        | .ok w1 => wlDelSlice w1 ⟨some (start + v.length), some stop, none⟩
    else
      if step ≠ 1 then .error ("growing extended slices unsupported", w)
      else
        let ip : Int := start + idxs.length
        match wlSetSliceEq w ⟨some start, some ip, none⟩ (v.take idxs.length) with
        | .error e => .error e
        | .ok w1 =>
          let newVals := v.drop idxs.length
          .ok { contents := w1.contents.take ip.toNat ++ newVals ++ w1.contents.drop ip.toNat,
                events := w1.events ++ [.insert ip newVals] }

/-- `WatchableList.append`. -/
def wlAppend (w : WL) (v : Int) : WL :=
  { contents := w.contents ++ [v],
    events := w.events ++ [.insert (w.contents.length : Int) [v]] }

/-- `WatchableList.extend`. -/
def wlExtend (w : WL) (vs : List Int) : WL :=
  { contents := w.contents ++ vs,
    events := w.events ++ [.insert (w.contents.length : Int) vs] }

/-- `WatchableList.remove`: delete the first equal element via
`del self[idx]`, or raise `ValueError` if absent. -/
def wlRemove (w : WL) (v : Int) : WRes :=
  match w.contents.findIdx? (fun x => x = v) with
  | some i => wlDelInt w (i : Int)
  | none => .error ("value not in list", w)

/-! ### Insertion-ordered dictionaries

Python `dict`s (the key-to-side indices, and `collections.Counter`) are
association lists in insertion order. -/

/-- Python `dict` lookup on an insertion-ordered association list. -/
def alook : List (Nat × α) → Nat → Option α
  | [], _ => none
  | p :: xs, k => if p.1 = k then some p.2 else alook xs k

/-- Python `dict` assignment: replace in place, or append a new entry. -/
def aset : List (Nat × α) → Nat → α → List (Nat × α)
  | [], k, v => [(k, v)]
  | p :: xs, k, v => if p.1 = k then (k, v) :: xs else p :: aset xs k v

def aerase : List (Nat × α) → Nat → List (Nat × α)
  | [], _ => []
  | p :: xs, k => if p.1 = k then xs else p :: aerase xs k

/-- `dict.pop`: the removed value and the remaining entries. -/
def apop (xs : List (Nat × α)) (k : Nat) : Option (α × List (Nat × α)) :=
  match alook xs k with
  | some v => some (v, aerase xs k)
  | none => none

/-! ### Containers of the many-to-many engine

Python `set` is a duplicate-free list in insertion order, `Counter` an
association list from key to `Int` count (keys unique, insertion
order). -/

def setAdd (l : List Nat) (a : Nat) : List Nat := if a ∈ l then l else l ++ [a]

def setFromList (xs : List Nat) : List Nat := xs.foldl setAdd []

def setUpdate (l xs : List Nat) : List Nat := xs.foldl setAdd l

def cHas (l : List (Nat × Int)) (a : Nat) : Bool := (alook l a).isSome

/-- `Counter.__getitem__`: stored count, zero for a missing key. -/
def cLook (l : List (Nat × Int)) (a : Nat) : Int := (alook l a).getD 0

def cAdd (l : List (Nat × Int)) (a : Nat) (d : Int) : List (Nat × Int) :=
  aset l a (cLook l a + d)

def cFromList (xs : List Nat) : List (Nat × Int) := xs.foldl (fun l a => cAdd l a 1) []

def cUpdate (l : List (Nat × Int)) (xs : List Nat) : List (Nat × Int) :=
  xs.foldl (fun l a => cAdd l a 1) l

/-- `Counter.elements()`: each key with positive count, repeated. -/
def cElements (l : List (Nat × Int)) : List Nat :=
  (l.map (fun p => List.replicate p.2.toNat p.1)).flatten

/-- `Counter.__sub__`: keep positive differences (keys of the left
operand first, then right-only keys with negative counts). -/
def cSub (l r : List (Nat × Int)) : List (Nat × Int) :=
  (l.filterMap (fun p => let d := p.2 - cLook r p.1; if 0 < d then some (p.1, d) else none))
  ++ (r.filterMap (fun p => if cHas l p.1 then none else (if p.2 < 0 then some (p.1, -p.2) else none)))

/-- `Counter.__add__`: keep positive sums. -/
def cAddOp (l r : List (Nat × Int)) : List (Nat × Int) :=
  (l.filterMap (fun p => let d := p.2 + cLook r p.1; if 0 < d then some (p.1, d) else none))
  ++ (r.filterMap (fun p => if cHas l p.1 then none else (if 0 < p.2 then some p else none)))

/-- `Counter.__and__`: positive minima over the left operand's keys. -/
def cAndOp (l r : List (Nat × Int)) : List (Nat × Int) :=
  l.filterMap (fun p => let d := min p.2 (cLook r p.1); if 0 < d then some (p.1, d) else none)

/-- `Counter.__or__`: positive maxima. -/
def cOrOp (l r : List (Nat × Int)) : List (Nat × Int) :=
  (l.filterMap (fun p => let d := max p.2 (cLook r p.1); if 0 < d then some (p.1, d) else none))
  ++ (r.filterMap (fun p => if cHas l p.1 then none else (if 0 < p.2 then some p else none)))

/-- `list.remove`: drop the first occurrence, `none` if absent. -/
def listRemove : List Nat → Nat → Option (List Nat)
  | [], _ => none
  | x :: xs, a => if x = a then some xs else (listRemove xs a).map (fun l => x :: l)

/-- Distinct values in first-occurrence order (`Counter` key order). -/
def firstDistinct (l : List Nat) : List Nat :=
  l.foldl (fun acc x => if x ∈ acc then acc else acc ++ [x]) []

/-- Keys of `Counter(l) - Counter(set(l))`: the values occurring more
than once, in first-occurrence order. -/
def dupKeys (l : List Nat) : List Nat :=
  (firstDistinct l).filter (fun v => decide (1 < l.count v))

/-- `list((Counter(l) - Counter(set(l))).elements())`: each duplicated
value repeated (count − 1) times, as enumerated by `_check`'s error. -/
def dupElems (l : List Nat) : List Nat :=
  ((dupKeys l).map (fun v => List.replicate (l.count v - 1) v)).flatten

/-! ### The four `RelationSide` variants -/

inductive MMKind
  | list
  | checkedList
  | set
  | counter
  deriving Repr, DecidableEq

/-- The container representation of each variant. -/
abbrev ItemsOf : MMKind → Type
  | .counter => List (Nat × Int)
  | _ => List Nat

instance instDecEqItemsOf : (κ : MMKind) → DecidableEq (ItemsOf κ)
  | .list => inferInstanceAs (DecidableEq (List Nat))
  | .checkedList => inferInstanceAs (DecidableEq (List Nat))
  | .set => inferInstanceAs (DecidableEq (List Nat))
  | .counter => inferInstanceAs (DecidableEq (List (Nat × Int)))

inductive MMErr
  | notFound (v : Nat)
  | dupes (whenOp : String) (vals : List Nat)
  | keyErr (k : Nat)
  | idxErr
  | typeErr
  | valueErr (msg : String)
  deriving Repr, DecidableEq

def kindEmpty : (κ : MMKind) → ItemsOf κ
  | .list => []
  | .checkedList => []
  | .set => []
  | .counter => []

/-- Iteration (`__iter__`) of a container: the related keys, with
multiplicity; a counter iterates `elements()`. -/
def membersK : (κ : MMKind) → ItemsOf κ → List Nat
  | .list, l => l
  | .checkedList, l => l
  | .set, l => l
  | .counter, l => cElements l

/-- `list(self._items)`: how Python iterates the *raw* container — with
multiplicity for the list variants, once per element for a set, and once
per key (keys of zero or negative count included) for a `Counter`, since
iterating a `collections.Counter` yields its keys, not its elements. -/
def iterK : (κ : MMKind) → ItemsOf κ → List Nat
  | .list, l => l
  | .checkedList, l => l
  | .set, l => l
  | .counter, l => l.map Prod.fst

/-- Multiplicity of a related key in a container, as an integer: exact
occurrence count for the list variants, an indicator for sets, the
stored (possibly negative) count for counters. -/
def cntK : (κ : MMKind) → ItemsOf κ → Nat → Int
  | .list, l, a => (l.count a : Int)
  | .checkedList, l, a => (l.count a : Int)
  | .set, l, a => if a ∈ l then 1 else 0
  | .counter, l, a => cLook l a

/-- `_append` of each variant; for the checked list the `_setup` wrapper
runs `_check('after _append')` after the structural push, so the error
carries the already-mutated container. -/
def appendPrim : (κ : MMKind) → ItemsOf κ → Nat → Except (MMErr × ItemsOf κ) (ItemsOf κ)
  | .list, l, a => .ok (l ++ [a])
  | .checkedList, l, a =>
    let l2 := l ++ [a]
    if (dupKeys l2).length > 0 then .error (.dupes ("after _append") (dupElems l2), l2) else .ok l2
  | .set, l, a => .ok (setAdd l a)
  | .counter, l, a => .ok (cAdd l a 1)

/-- `_extend` of each variant (checked: wrapped with
`_check('after _extend')`). -/
def extendPrim : (κ : MMKind) → ItemsOf κ → List Nat → Except (MMErr × ItemsOf κ) (ItemsOf κ)
  | .list, l, xs => .ok (l ++ xs)
  | .checkedList, l, xs =>
    let l2 := l ++ xs
    if (dupKeys l2).length > 0 then .error (.dupes ("after _extend") (dupElems l2), l2) else .ok l2
  | .set, l, xs => .ok (setUpdate l xs)
  | .counter, l, xs => .ok (cUpdate l xs)

/-- `_remove` of each variant: `list.remove` (first occurrence,
`ValueError` if absent), `set.remove` (`KeyError` if absent), or
`Counter.subtract` (never fails, counts may go negative).  `_remove` is
*not* wrapped by the checked list's `_setup` (it is inherited from the
base class), so no duplicate check runs here. -/
def removePrim : (κ : MMKind) → ItemsOf κ → Nat → Except (MMErr × ItemsOf κ) (ItemsOf κ)
  | .list, l, a =>
    match listRemove l a with
    | some l2 => .ok l2
    | none => .error (.notFound a, l)
  | .checkedList, l, a =>
    match listRemove l a with
    | some l2 => .ok l2
    | none => .error (.notFound a, l)
  | .set, l, a => if a ∈ l then .ok (l.erase a) else .error (.notFound a, l)
  | .counter, l, a => .ok (cAdd l a (-1))

/-- `__getitem__` with an integer index: defined for the list variants
only; the checked list's wrapper runs `_check('after __getitem__')`
after the read (and the read's IndexError preempts the check). -/
def getPrim : (κ : MMKind) → ItemsOf κ → Int → Except MMErr Nat
  | .list, l, i =>
    match pyNorm l.length i with
    | some j => .ok (l.getD j 0)
    | none => .error .idxErr
  | .checkedList, l, i =>
    match pyNorm l.length i with
    | some j =>
      if (dupKeys l).length > 0 then .error (.dupes ("after __getitem__") (dupElems l))
      else .ok (l.getD j 0)
    | none => .error .idxErr
  | .set, _, _ => .error .typeErr
  | .counter, _, _ => .error .typeErr

/-- Read of `self._items[idx]` for an integer index on a list variant:
the normalized position and the value there (`none`: IndexError, or no
`__getitem__` at all for set/counter). -/
def idxLocK : (κ : MMKind) → ItemsOf κ → Int → Option (Nat × Nat)
  | .list, l, i => (pyNorm l.length i).map (fun j => (j, l.getD j 0))
  | .checkedList, l, i => (pyNorm l.length i).map (fun j => (j, l.getD j 0))
  | .set, _, _ => none
  | .counter, _, _ => none

/-- `self._items[idx] = new_item` at a normalized position. -/
def writeIdxK : (κ : MMKind) → ItemsOf κ → Nat → Nat → ItemsOf κ
  | .list, l, j, a => l.set j a
  | .checkedList, l, j, a => l.set j a
  | .set, l, _, _ => l
  | .counter, l, _, _ => l

/-- `del self._items[idx]` at a normalized position. -/
def delIdxK : (κ : MMKind) → ItemsOf κ → Nat → ItemsOf κ
  | .list, l, j => l.eraseIdx j
  | .checkedList, l, j => l.eraseIdx j
  | .set, l, _ => l
  | .counter, l, _ => l

/-- `self._items[sl]` for a slice (list variants; `none` iff step 0). -/
def getSliceK : (κ : MMKind) → ItemsOf κ → PySlice → Option (List Nat)
  | .list, l, sl => (sliceSel sl l.length).map (pyGetIdxs l)
  | .checkedList, l, sl => (sliceSel sl l.length).map (pyGetIdxs l)
  | .set, _, _ => none
  | .counter, _, _ => none

/-- `self._items[sl] = v`: contiguous for step 1 (any lengths), else
positional and only for matching lengths (`ValueError` otherwise). -/
def writeSliceK : (κ : MMKind) → ItemsOf κ → PySlice → List Nat → Except MMErr (ItemsOf κ)
  | .list, l, sl, v =>
    match sliceIndices sl l.length with
    | none => .error (.valueErr ("slice step cannot be zero"))
    | some (start, stop, step) =>
      let idxs := (sliceWalk stop step l.length start).map Int.toNat
      if step = 1 then .ok (pySetContig l start stop v)
      else if idxs.length = v.length then .ok (pySetExt l idxs v)
      else .error (.valueErr ("attempt to assign sequence to extended slice of different size"))
  | .checkedList, l, sl, v =>
    match sliceIndices sl l.length with
    | none => .error (.valueErr ("slice step cannot be zero"))
    | some (start, stop, step) =>
      let idxs := (sliceWalk stop step l.length start).map Int.toNat
      if step = 1 then .ok (pySetContig l start stop v)
      else if idxs.length = v.length then .ok (pySetExt l idxs v)
      else .error (.valueErr ("attempt to assign sequence to extended slice of different size"))
  | .set, _, _, _ => .error .typeErr
  | .counter, _, _, _ => .error .typeErr

/-- `del self._items[sl]` (any step). -/
def delSliceK : (κ : MMKind) → ItemsOf κ → PySlice → ItemsOf κ
  | .list, l, sl =>
    match sliceSel sl l.length with
    | some idxs => pyDelIdxs l idxs
    | none => l
  | .checkedList, l, sl =>
    match sliceSel sl l.length with
    | some idxs => pyDelIdxs l idxs
    | none => l
  | .set, l, _ => l
  | .counter, l, _ => l

/-- `self._kind.inner(items)`: conversion of a plain iterable into the
variant's container. -/
def listPayload : (κ : MMKind) → List Nat → ItemsOf κ
  | .list, xs => xs
  | .checkedList, xs => xs
  | .set, xs => setFromList xs
  | .counter, xs => cFromList xs

/-- A counter-typed payload for `_MMCounter._replace`. -/
def ctrPayload : (κ : MMKind) → List (Nat × Int) → ItemsOf κ
  | .counter, c => c
  | .list, c => cElements c
  | .checkedList, c => cElements c
  | .set, c => cElements c

/-- The counter view of a container (identity on counters; unused for
the other variants). -/
def ctrView : (κ : MMKind) → ItemsOf κ → List (Nat × Int)
  | .counter, l => l
  | .list, l => cFromList l
  | .checkedList, l => cFromList l
  | .set, l => cFromList l

/-! ### The relation state

A `ManyToMany` is a pair of `_ManyToManySide` indices (`left`, `right`),
each an insertion-ordered mapping from key to container.  The side
selector `b : Bool` is `true` for left.  Mutating operations act on the
`RelationSide` of key `k` on side `b`; `!b` is the opposite side. -/

/-- The container kind of side `b` (`true` = left).  Defined by a
match so that it reduces for literal sides. -/
abbrev sideKind : Bool → MMKind → MMKind → MMKind
  | true, kl, _ => kl
  | false, _, kr => kr

theorem sideKind_true (kl kr : MMKind) : sideKind true kl kr = kl := rfl

theorem sideKind_false (kl kr : MMKind) : sideKind false kl kr = kr := rfl

structure M2M (kl kr : MMKind) where
  left : List (Nat × ItemsOf kl)
  right : List (Nat × ItemsOf kr)
  deriving DecidableEq

variable {kl kr : MMKind}

def getSide (m : M2M kl kr) : (b : Bool) → List (Nat × ItemsOf (sideKind b kl kr))
  | true => m.left
  | false => m.right

def setSide (m : M2M kl kr) : (b : Bool) → List (Nat × ItemsOf (sideKind b kl kr)) → M2M kl kr
  | true, v => { m with left := v }
  | false, v => { m with right := v }

/-- The container of key `k` on side `b` (empty if the key has not been
addressed yet). -/
def sitems (m : M2M kl kr) (b : Bool) (k : Nat) : ItemsOf (sideKind b kl kr) :=
  (alook (getSide m b) k).getD (kindEmpty _)

/-- `_ManyToManySide.__getitem__`'s get-or-create: addressing a key
inserts an empty `RelationSide` for it if absent. -/
def touch (m : M2M kl kr) (b : Bool) (k : Nat) : M2M kl kr :=
  if (alook (getSide m b) k).isSome then m
  else setSide m b (getSide m b ++ [(k, kindEmpty _)])

def setItems (m : M2M kl kr) (b : Bool) (k : Nat) (its : ItemsOf (sideKind b kl kr)) : M2M kl kr :=
  setSide m b (aset (getSide m b) k its)

/-- The related keys (with multiplicity) of `side b`'s key `k`. -/
def mview (m : M2M kl kr) (b : Bool) (k : Nat) : List Nat :=
  membersK (sideKind b kl kr) (sitems m b k)

/-- Signed multiplicity of related key `a` in `side b`'s key `k`. -/
def cnt (m : M2M kl kr) (b : Bool) (k a : Nat) : Int :=
  cntK (sideKind b kl kr) (sitems m b k) a

/-- The unlink batch `list(self._items)` taken by `clear` for `side b`'s
key `k` (raw-container iteration, not the elements view). -/
def iview (m : M2M kl kr) (b : Bool) (k : Nat) : List Nat :=
  iterK (sideKind b kl kr) (sitems m b k)

/-- A listener notification: `_notify` on the `RelationSide` of `key` on
`side`, carrying the snapshot of the relation a callback observes. -/
structure Notif (kl kr : MMKind) where
  side : Bool
  key : Nat
  snap : M2M kl kr
  deriving DecidableEq

structure St (kl kr : MMKind) where
  m : M2M kl kr
  tr : List (Notif kl kr)
  deriving DecidableEq

abbrev Res (kl kr : MMKind) := Except (MMErr × St kl kr) (St kl kr)

def notifSt (s : St kl kr) (b : Bool) (k : Nat) : St kl kr :=
  { s with tr := s.tr ++ [⟨b, k, s.m⟩] }

def touchSt (s : St kl kr) (b : Bool) (k : Nat) : St kl kr :=
  { s with m := touch s.m b k }

/-! ### Operations of `_ManyToManyCollection` and its variants -/

/-- `self._append(item)` on `(b, k)`. -/
def mmAppendPrim (b : Bool) (k a : Nat) (s : St kl kr) : Res kl kr :=
  match appendPrim (sideKind b kl kr) (sitems s.m b k) a with
  | .ok its => .ok { s with m := setItems s.m b k its }
  | .error (e, its) => .error (e, { s with m := setItems s.m b k its })

/-- `self._extend(items)` on `(b, k)`. -/
def mmExtendPrim (b : Bool) (k : Nat) (xs : List Nat) (s : St kl kr) : Res kl kr :=
  match extendPrim (sideKind b kl kr) (sitems s.m b k) xs with
  | .ok its => .ok { s with m := setItems s.m b k its }
  | .error (e, its) => .error (e, { s with m := setItems s.m b k its })

/-- `self._remove(item)` on `(b, k)`. -/
def mmRemovePrim (b : Bool) (k a : Nat) (s : St kl kr) : Res kl kr :=
  match removePrim (sideKind b kl kr) (sitems s.m b k) a with
  | .ok its => .ok { s with m := setItems s.m b k its }
  | .error (e, its) => .error (e, { s with m := setItems s.m b k its })

/-- `_link`: `self._other_side[item]._append(self._my_idx)` (get-or-create
on the opposite index), then optionally `self._other_side[item]._notify()`. -/
def mmLink (b : Bool) (k a : Nat) (nfy : Bool) (s : St kl kr) : Res kl kr :=
  match mmAppendPrim (!b) a k (touchSt s (!b) a) with
  | .ok s1 => .ok (if nfy then notifSt (touchSt s1 (!b) a) (!b) a else s1)
  | .error e => .error e

/-- `_unlink`: `self._other_side[item]._remove(self._my_idx)`, then
optionally notify the opposite side. -/
def mmUnlink (b : Bool) (k a : Nat) (nfy : Bool) (s : St kl kr) : Res kl kr :=
  match mmRemovePrim (!b) a k (touchSt s (!b) a) with
  | .ok s1 => .ok (if nfy then notifSt (touchSt s1 (!b) a) (!b) a else s1)
  | .error e => .error e

def mmLinkPass1 (b : Bool) (k : Nat) (xs : List Nat) (s : St kl kr) : Res kl kr :=
  xs.foldlM (fun s a => mmLink b k a false s) s

def mmUnlinkPass1 (b : Bool) (k : Nat) (xs : List Nat) (s : St kl kr) : Res kl kr :=
  xs.foldlM (fun s a => mmUnlink b k a false s) s

/-- The second pass of `_link_all`/`_unlink_all`:
`self._other_side[item]._notify()` for each item of the batch, after all
structural updates of pass 1. -/
def mmNotifyPass (b : Bool) (xs : List Nat) (s : St kl kr) : St kl kr :=
  xs.foldl (fun s a => notifSt (touchSt s (!b) a) (!b) a) s

/-- `_link_all(items)`: link everything without notifying (pass 1), then
notify every opposite side (pass 2). -/
def mmLinkAll (b : Bool) (k : Nat) (xs : List Nat) (s : St kl kr) : Res kl kr := do
  let s1 ← mmLinkPass1 b k xs s
  return mmNotifyPass b xs s1

/-- `_unlink_all(items)`. -/
def mmUnlinkAll (b : Bool) (k : Nat) (xs : List Nat) (s : St kl kr) : Res kl kr := do
  let s1 ← mmUnlinkPass1 b k xs s
  return mmNotifyPass b xs s1

/-- `clear(notify)`: `_unlink_all(self._items)`, swap in a fresh empty
container, then (optionally) notify the cleared side itself.
`_unlink_all` starts with `items = list(items)`, so the batch is the raw
container's iteration (`iview`): for a `Counter` side each key appears
once, whatever its count. -/
def mmClearCore (b : Bool) (k : Nat) (nfy : Bool) (s : St kl kr) : Res kl kr := do
  let s1 ← mmUnlinkAll b k (iview s.m b k) s
  let s2 := { s1 with m := setItems s1.m b k (kindEmpty (sideKind b kl kr)) }
  return if nfy then notifSt s2 b k else s2

/-- The checked list's `_setup` wrapper around `__setitem__`,
`__delitem__`: run the body, then `_check('after <op>')`.  The error is
raised after the body completed, including its notifications. -/
def checkWrap (b : Bool) (k : Nat) (whenOp : String) (r : Res kl kr) : Res kl kr :=
  if sideKind b kl kr = .checkedList then
    match r with
    | .ok s =>
      let l := mview s.m b k
      if (dupKeys l).length > 0 then .error (.dupes whenOp (dupElems l), s) else .ok s
    | .error e => .error e
  else r

/-- `append(item)`: `_append`, `_link(item)` (notifying the opposite
side), then notify this side.  The set variant first returns silently if
the item is already present. -/
def opAppend (b : Bool) (k a : Nat) (s : St kl kr) : Res kl kr :=
  let s := touchSt s b k
  if sideKind b kl kr = .set ∧ a ∈ mview s.m b k then .ok s
  else do
    let s1 ← mmAppendPrim b k a s
    let s2 ← mmLink b k a true s1
    return notifSt s2 b k

/-- `extend(items)`: `_extend`, `_link_all`, notify this side.  The set
variant first drops already-present items (`set(items) - self._items`). -/
def opExtend (b : Bool) (k : Nat) (xs : List Nat) (s : St kl kr) : Res kl kr :=
  let s := touchSt s b k
  let ys := if sideKind b kl kr = .set
    then (setFromList xs).filter (fun a => !((mview s.m b k).contains a))
    else xs
  do
    let s1 ← mmExtendPrim b k ys s
    let s2 ← mmLinkAll b k ys s1
    return notifSt s2 b k

/-- `remove(item)`: `_remove` (which raises if absent, before any
unlink), `_unlink(item)`, notify this side. -/
def opRemove (b : Bool) (k a : Nat) (s : St kl kr) : Res kl kr :=
  let s := touchSt s b k
  do
    let s1 ← mmRemovePrim b k a s
    let s2 ← mmUnlink b k a true s1
    return notifSt s2 b k

/-- Public `clear()`. -/
def opClear (b : Bool) (k : Nat) (s : St kl kr) : Res kl kr :=
  mmClearCore b k true (touchSt s b k)

/-- `__setitem__` with an integer index (list variants only): unlink the
overwritten item (with notification), assign, link the new item (with
notification), notify this side; the checked list re-checks afterwards. -/
def opSetIdx (b : Bool) (k : Nat) (i : Int) (a : Nat) (s : St kl kr) : Res kl kr :=
  let s := touchSt s b k
  if sideKind b kl kr = .set ∨ sideKind b kl kr = .counter then .error (.typeErr, s)
  else checkWrap b k ("after __setitem__") (
    match idxLocK (sideKind b kl kr) (sitems s.m b k) i with
    | none => .error (.idxErr, s)
    | some (j, old) => do
      let s1 ← mmUnlink b k old true s
      let s2 := { s1 with m := setItems s1.m b k (writeIdxK (sideKind b kl kr) (sitems s1.m b k) j a) }
      let s3 ← mmLink b k a true s2
      return notifSt s3 b k)

/-- `__setitem__` with a slice (list variants only):
`_unlink_all(self._items[idx])`, assign the slice, `_link_all(new_item)`,
notify this side; checked re-checks afterwards. -/
def opSetSlice (b : Bool) (k : Nat) (sl : PySlice) (xs : List Nat) (s : St kl kr) : Res kl kr :=
  let s := touchSt s b k
  if sideKind b kl kr = .set ∨ sideKind b kl kr = .counter then .error (.typeErr, s)
  else checkWrap b k ("after __setitem__") (
    match getSliceK (sideKind b kl kr) (sitems s.m b k) sl with
    | none => .error (.valueErr ("slice step cannot be zero"), s)
    | some seg => do
      let s1 ← mmUnlinkAll b k seg s
      match writeSliceK (sideKind b kl kr) (sitems s1.m b k) sl xs with
      | .error e => .error (e, s1)
      | .ok its2 => do
        let s2 := { s1 with m := setItems s1.m b k its2 }
        let s3 ← mmLinkAll b k xs s2
        return notifSt s3 b k)

/-- `__delitem__` with an integer index (list variants only). -/
def opDelIdx (b : Bool) (k : Nat) (i : Int) (s : St kl kr) : Res kl kr :=
  let s := touchSt s b k
  if sideKind b kl kr = .set ∨ sideKind b kl kr = .counter then .error (.typeErr, s)
  else checkWrap b k ("after __delitem__") (
    match idxLocK (sideKind b kl kr) (sitems s.m b k) i with
    | none => .error (.idxErr, s)
    | some (j, old) => do
      let s1 ← mmUnlink b k old true s
      let s2 := { s1 with m := setItems s1.m b k (delIdxK (sideKind b kl kr) (sitems s1.m b k) j) }
      return notifSt s2 b k)

/-- `__delitem__` with a slice (list variants only). -/
def opDelSlice (b : Bool) (k : Nat) (sl : PySlice) (s : St kl kr) : Res kl kr :=
  let s := touchSt s b k
  if sideKind b kl kr = .set ∨ sideKind b kl kr = .counter then .error (.typeErr, s)
  else checkWrap b k ("after __delitem__") (
    match getSliceK (sideKind b kl kr) (sitems s.m b k) sl with
    | none => .error (.valueErr ("slice step cannot be zero"), s)
    | some seg => do
      let s1 ← mmUnlinkAll b k seg s
      let s2 := { s1 with m := setItems s1.m b k (delSliceK (sideKind b kl kr) (sitems s1.m b k) sl) }
      return notifSt s2 b k)

/-- `__getitem__` with an integer index (C9): the checked list's wrapper
checks for duplicates even on this read-only access. -/
def opGetIdx (b : Bool) (k : Nat) (i : Int) (s : St kl kr) : Except (MMErr × St kl kr) (Nat × St kl kr) :=
  let s := touchSt s b k
  match getPrim (sideKind b kl kr) (sitems s.m b k) i with
  | .ok v => .ok (v, s)
  | .error e => .error (e, s)

/-- Base `_replace(newitems)` (list/checked list): `clear(notify=False)`
then `extend(newitems)`. -/
def mmReplaceBase (b : Bool) (k : Nat) (xs : List Nat) (s : St kl kr) : Res kl kr := do
  let s1 ← mmClearCore b k false s
  let s2 ← mmExtendPrim b k xs s1
  let s3 ← mmLinkAll b k xs s2
  return notifSt s3 b k

/-- `_MMSet._replace(newitems)`: unlink `self._items - newitems`, link
`newitems - self._items`, swap in the new set, notify this side. -/
def mmReplaceSet (b : Bool) (k : Nat) (new : List Nat) (s : St kl kr) : Res kl kr := do
  let old := mview s.m b k
  let s1 ← mmUnlinkAll b k (old.filter (fun a => !(new.contains a))) s
  let s2 ← mmLinkAll b k (new.filter (fun a => !(old.contains a))) s1
  let s3 := { s2 with m := setItems s2.m b k (listPayload (sideKind b kl kr) new) }
  return notifSt s3 b k

/-- `_MMCounter._replace(newitems)`: unlink
`(self._items - newitems).elements()`, link
`(newitems - self._items).elements()`, swap, notify this side. -/
def mmReplaceCtr (b : Bool) (k : Nat) (new : List (Nat × Int)) (s : St kl kr) : Res kl kr := do
  let old := ctrView (sideKind b kl kr) (sitems s.m b k)
  let s1 ← mmUnlinkAll b k (cElements (cSub old new)) s
  let s2 ← mmLinkAll b k (cElements (cSub new old)) s1
  let s3 := { s2 with m := setItems s2.m b k (ctrPayload (sideKind b kl kr) new) }
  return notifSt s3 b k

/-- `_ManyToManySide.__setitem__`: get-or-create the side, convert the
assigned iterable with the variant's `inner`, and run the variant's
`_replace`.  (The `self[idx] is items` fast path can never trigger for a
plain iterable argument and is not modelled.) -/
def opSideSet (b : Bool) (k : Nat) (xs : List Nat) (s : St kl kr) : Res kl kr :=
  let s := touchSt s b k
  if sideKind b kl kr = .set then mmReplaceSet b k (setFromList xs) s
  else if sideKind b kl kr = .counter then mmReplaceCtr b k (cFromList xs) s
  else mmReplaceBase b k xs s

/-- `_ManyToManySide.__delitem__`: `self._contents.pop(idx).clear()` —
the entry is popped from the index *first*, then the popped side is
cleared (unlink batch — the raw container's iteration, once per key for
a counter — then its notifications, then the popped side's own
notification). -/
def opSideDel (b : Bool) (k : Nat) (s : St kl kr) : Res kl kr :=
  match apop (getSide s.m b) k with
  | none => .error (.keyErr k, s)
  | some (its, rest) =>
    let s0 : St kl kr := { s with m := setSide s.m b rest }
    do
      let s1 ← mmUnlinkAll b k (iterK (sideKind b kl kr) its) s0
      return notifSt s1 b k

/-- `__iadd__`: `self._replace(self._items + other)`; defined for list
variants with a list argument and for counters with a `Counter`
argument; `TypeError` otherwise. -/
def opIAdd (b : Bool) (k : Nat) (xs : List Nat) (s : St kl kr) : Res kl kr :=
  let s := touchSt s b k
  if sideKind b kl kr = .set then .error (.typeErr, s)
  else if sideKind b kl kr = .counter then
    mmReplaceCtr b k (cAddOp (ctrView (sideKind b kl kr) (sitems s.m b k)) (cFromList xs)) s
  else mmReplaceBase b k (mview s.m b k ++ xs) s

/-- `__ior__` (set union / counter maximum). -/
def opIOr (b : Bool) (k : Nat) (xs : List Nat) (s : St kl kr) : Res kl kr :=
  let s := touchSt s b k
  if sideKind b kl kr = .set then
    let old := mview s.m b k
    let arg := setFromList xs
    mmReplaceSet b k (old ++ arg.filter (fun a => !(old.contains a))) s
  else if sideKind b kl kr = .counter then
    mmReplaceCtr b k (cOrOp (ctrView (sideKind b kl kr) (sitems s.m b k)) (cFromList xs)) s
  else .error (.typeErr, s)

/-- `__iand__` (set intersection / counter minimum). -/
def opIAnd (b : Bool) (k : Nat) (xs : List Nat) (s : St kl kr) : Res kl kr :=
  let s := touchSt s b k
  if sideKind b kl kr = .set then
    let arg := setFromList xs
    mmReplaceSet b k ((mview s.m b k).filter (fun a => arg.contains a)) s
  else if sideKind b kl kr = .counter then
    mmReplaceCtr b k (cAndOp (ctrView (sideKind b kl kr) (sitems s.m b k)) (cFromList xs)) s
  else .error (.typeErr, s)

/-- `__ixor__` (set symmetric difference; `TypeError` for the others,
`Counter` included). -/
def opIXor (b : Bool) (k : Nat) (xs : List Nat) (s : St kl kr) : Res kl kr :=
  let s := touchSt s b k
  if sideKind b kl kr = .set then
    let old := mview s.m b k
    let arg := setFromList xs
    mmReplaceSet b k (old.filter (fun a => !(arg.contains a)) ++ arg.filter (fun a => !(old.contains a))) s
  else .error (.typeErr, s)

/-! ### The public mutating operations, as one alphabet -/

inductive MOp
  | append (b : Bool) (k a : Nat)
  | extend (b : Bool) (k : Nat) (xs : List Nat)
  | remove (b : Bool) (k a : Nat)
  | clear (b : Bool) (k : Nat)
  | setIdx (b : Bool) (k : Nat) (i : Int) (a : Nat)
  | setSl (b : Bool) (k : Nat) (sl : PySlice) (xs : List Nat)
  | delIdx (b : Bool) (k : Nat) (i : Int)
  | delSl (b : Bool) (k : Nat) (sl : PySlice)
  | iadd (b : Bool) (k : Nat) (xs : List Nat)
  | ior (b : Bool) (k : Nat) (xs : List Nat)
  | iand (b : Bool) (k : Nat) (xs : List Nat)
  | ixor (b : Bool) (k : Nat) (xs : List Nat)
  | sideSet (b : Bool) (k : Nat) (xs : List Nat)
  | sideDel (b : Bool) (k : Nat)

def runOp : MOp → St kl kr → Res kl kr
  | .append b k a, s => opAppend b k a s
  | .extend b k xs, s => opExtend b k xs s
  | .remove b k a, s => opRemove b k a s
  | .clear b k, s => opClear b k s
  | .setIdx b k i a, s => opSetIdx b k i a s
  | .setSl b k sl xs, s => opSetSlice b k sl xs s
  | .delIdx b k i, s => opDelIdx b k i s
  | .delSl b k sl, s => opDelSlice b k sl s
  | .iadd b k xs, s => opIAdd b k xs s
  | .ior b k xs, s => opIOr b k xs s
  | .iand b k xs, s => opIAnd b k xs s
  | .ixor b k xs, s => opIXor b k xs s
  | .sideSet b k xs, s => opSideSet b k xs s
  | .sideDel b k, s => opSideDel b k s

def runSeq (ops : List MOp) (s : St kl kr) : Res kl kr :=
  ops.foldlM (fun s op => runOp op s) s

/-- A fresh `ManyToMany(left_kind, right_kind)`. -/
def initSt (kl kr : MMKind) : St kl kr := ⟨⟨[], []⟩, []⟩

/-- The symmetry invariant, counted: the multiplicity of `a` in
`left[k]` equals the multiplicity of `k` in `right[a]`. -/
def Sym (m : M2M kl kr) : Prop := ∀ k a, cnt m true k a = cnt m false a k

/-- Structural well-formedness of a container: a set holds no
duplicates, a counter has one entry per key; these hold by construction
for every container the code ever builds. -/
def WFits : (κ : MMKind) → ItemsOf κ → Prop
  | .set, l => l.Nodup
  | .counter, l => (l.map Prod.fst).Nodup
  | .list, _ => True
  | .checkedList, _ => True

/-- Well-formedness of the relation state: index keys are unique on both
sides and every container is well-formed. -/
def WF (m : M2M kl kr) : Prop :=
  (m.left.map Prod.fst).Nodup ∧ (m.right.map Prod.fst).Nodup ∧
    ∀ b k, WFits (sideKind b kl kr) (sitems m b k)

/-- The kind combinations that pair a multiplicity-tracking variant
(`list` or `counter`) with a `set` on the other side; these are exactly
the combinations on which symmetry can break. -/
def mixedKinds (kl kr : MMKind) : Prop :=
  (kl = .set ∧ (kr = .list ∨ kr = .counter)) ∨ (kr = .set ∧ (kl = .list ∨ kl = .counter))

/-- The notifications added by an operation that took `s` to `s'`. -/
def newTr (s s' : St kl kr) : List (Notif kl kr) := s'.tr.drop s.tr.length

/-- Modelled from the spec: `del side[key]` — "unlink everything for
that key (via `clear`) then drop the `RelationSide`", i.e. the clear
runs while the key is still in the index, and the entry is removed only
afterwards.  (The code under `src` instead pops the entry first; this
definition exists to compare the two orders.) -/
def opSideDelSpec (b : Bool) (k : Nat) (s : St kl kr) : Res kl kr :=
  match alook (getSide s.m b) k with
  | none => .error (.keyErr k, s)
  | some _ => do
    let s1 ← mmClearCore b k true s
    return { s1 with m := setSide s1.m b ((getSide s1.m b).filter (fun p => p.1 != k)) }

/-! ### Concrete states used by the witnesses -/

/-- A checked-list-backed left side whose container already holds a
duplicated key (the state a failed duplicate-assignment leaves behind). -/
def dupSt : St .checkedList .set := ⟨⟨[(1, [7, 7])], [⟨5, []⟩]⟩, []⟩

/-- A small list–list relation with one link. -/
def listSt : St .list .list := ⟨⟨[(1, [5])], [(5, [1])]⟩, []⟩

/-- The result of `extend` with one fresh item on a fresh set–set
relation. -/
def extSetM : M2M .set .set := ⟨[(1, [5])], [(5, [1])]⟩

def extSetSt : St .set .set :=
  ⟨extSetM, [⟨false, 5, extSetM⟩, ⟨true, 1, extSetM⟩]⟩

/-- The result of deleting key 1 from the left index of `extSetSt`. -/
def delSetM : M2M .set .set := ⟨[], [(5, [])]⟩

def delSetSt : St .set .set :=
  ⟨delSetM, extSetSt.tr ++ [⟨false, 5, delSetM⟩, ⟨true, 1, delSetM⟩]⟩

/-! ## Theorems -/

/-- C7: for `s` built from `[1,2,3,4]`, the slice assignment
`s[1:3] = [10]` leaves the contents `[1,10,4]`, and the observer trace
is exactly one `update` event (for the overlapping prefix `s[1:2]`)
followed by exactly one `del` event (for the remainder `s[2:3]`). -/
theorem c7_slice_shrink_decomposition :
    wlSetSlice { contents := [1, 2, 3, 4], events := [] } ⟨some 1, some 3, none⟩ [10] =
      .ok { contents := [1, 10, 4],
            events := [.updateSlice ⟨some 1, some 2, none⟩ [10],
                       .delSlice ⟨some 2, some 3, none⟩] } := rfl

/-- C10: on a counter–counter relation, `remove` of an absent item does
not raise: the counter records a `-1` count for the item, the unlink is
still performed on the (created) opposite side, which also ends at `-1`,
and both sides' listeners are notified exactly as for a successful
removal (opposite side first, then the mutated side). -/
theorem c10_counter_remove_absent :
    runOp (.remove true 1 5) (initSt .counter .counter) =
      .ok { m := ⟨[(1, [(5, -1)])], [(5, [(1, -1)])]⟩,
            tr := [⟨false, 5, ⟨[(1, [(5, -1)])], [(5, [(1, -1)])]⟩⟩,
                   ⟨true, 1, ⟨[(1, [(5, -1)])], [(5, [(1, -1)])]⟩⟩] } := rfl

/-- C1 fails as stated, in two independent ways.  On
`ManyToMany('list', 'set')`, the completed sequence
`left[1].append(5); left[1].append(5); left[1].remove(5)` leaves
`5 ∈ left[1].items` but `right[5].items` empty — the list side still
holds one duplicate occurrence while the set side removed its only
entry.  And on `ManyToMany('list', 'counter')`, the completed sequence
`left[1].append(5); left[1].append(5); right[5].clear()` also leaves
`5 ∈ left[1].items` with `right[5].items` empty — `clear` unlinks
`list(self._items)`, which for a `Counter` holds each key once, so only
one of the two reciprocal occurrences is removed from `left[1]`. -/
theorem c1_counterexample :
    ((runSeq
        [.append true 1 5, .append true 1 5, .remove true 1 5]
        (initSt .list .set)).toOption.map
      (fun s => (mview s.m true 1, mview s.m false 5)) = some ([5], [])) ∧
    ((runSeq
        [.append true 1 5, .append true 1 5, .clear false 5]
        (initSt .list .counter)).toOption.map
      (fun s => (mview s.m true 1, mview s.m false 5)) = some ([5], [])) := ⟨rfl, rfl⟩

/-- C2 fails as stated for bulk replace: on `ManyToMany('list','list')`,
after `left[1] = [5]`, the bulk replace `left[1] = [6]` fires the
unlink-batch listener of `right[5]` at a snapshot where the batch's link
of key 6 is not yet applied (`right[6]` is empty, and `left[1]` still
holds `[5]`), while the final state has `right[6] = [1]`. -/
theorem c2_counterexample :
    (runSeq
        [.sideSet true 1 [5], .sideSet true 1 [6]] (initSt .list .list)).toOption.map
      (fun s => ((s.tr.drop 2).map (fun n => (n.side, n.key, mview n.snap false 6, mview n.snap true 1)),
                 mview s.m false 6)) =
      some ([(false, 5, [], [5]), (false, 6, [1], [6]), (true, 1, [1], [6])], [1]) := rfl

/-- C5 fails as stated: `del side[key]` pops the entry from the index
*before* clearing it, so every listener notified during the deletion
observes key 1 already absent from the left index, whereas under the
spec's order (clear first, then drop) the key would still be present at
those callbacks. -/
theorem c5_counterexample :
    ((runOp (.append true 1 5) (initSt .set .set)).toOption.bind
        (fun s1 => (opSideDel true 1 s1).toOption.map
          (fun s => (newTr s1 s).map (fun n => (n.side, n.key, (alook (getSide n.snap true) 1).isSome)))) =
      some [(false, 5, false), (true, 1, false)]) ∧
    ((runOp (.append true 1 5) (initSt .set .set)).toOption.bind
        (fun s1 => (opSideDelSpec true 1 s1).toOption.map
          (fun s => (newTr s1 s).map (fun n => (n.side, n.key, (alook (getSide n.snap true) 1).isSome)))) =
      some [(false, 5, true), (true, 1, true)]) := ⟨rfl, rfl⟩

/-! ### Association-list and state-accessor lemmas -/

theorem alook_append_self (xs : List (Nat × α)) (k : Nat) (v : α) :
    alook (xs ++ [(k, v)]) k = some ((alook xs k).getD v) := by
  induction xs with
  | nil => simp [alook]
  | cons p xs ih =>
    by_cases hp : p.1 = k
    · simp [alook, hp]
    · simp [alook, hp, ih]

theorem alook_append_ne (xs : List (Nat × α)) (k k' : Nat) (v : α) (h : k' ≠ k) :
    alook (xs ++ [(k, v)]) k' = alook xs k' := by
  induction xs with
  | nil => simp [alook, Ne.symm h]
  | cons p xs ih =>
    by_cases hp : p.1 = k'
    · simp [alook, hp]
    · simp [alook, hp, ih]

theorem alook_aset_self (xs : List (Nat × α)) (k : Nat) (v : α) :
    alook (aset xs k v) k = some v := by
  induction xs with
  | nil => simp [aset, alook]
  | cons p xs ih =>
    by_cases hp : p.1 = k
    · simp [aset, alook, hp]
    · simp [aset, alook, hp, ih]

theorem alook_aset_ne (xs : List (Nat × α)) (k k' : Nat) (v : α) (h : k' ≠ k) :
    alook (aset xs k v) k' = alook xs k' := by
  induction xs with
  | nil => simp [aset, alook, Ne.symm h]
  | cons p xs ih =>
    by_cases hp : p.1 = k
    · subst hp
      simp [aset, alook, Ne.symm h]
    · by_cases hp' : p.1 = k'
      · simp [aset, alook, hp, hp', h]
      · simp [aset, alook, hp, hp', ih]

theorem alook_append_getD (xs : List (Nat × α)) (k k' : Nat) (v : α) (h : alook xs k = none) :
    (alook (xs ++ [(k, v)]) k').getD v = (alook xs k').getD v := by
  by_cases hk : k' = k
  · subst hk
    rw [alook_append_self, h]
    simp
  · rw [alook_append_ne _ _ _ _ hk]

variable {kl kr : MMKind}

theorem getSide_setSide_self (m : M2M kl kr) (b : Bool) (v : List (Nat × ItemsOf (sideKind b kl kr))) :
    getSide (setSide m b v) b = v := by cases b <;> rfl

theorem getSide_setSide_neg (m : M2M kl kr) (b : Bool) (v : List (Nat × ItemsOf (sideKind b kl kr))) :
    getSide (setSide m b v) (!b) = getSide m (!b) := by cases b <;> rfl

theorem sitems_touch (m : M2M kl kr) (b : Bool) (k : Nat) (b' : Bool) (k' : Nat) :
    sitems (touch m b k) b' k' = sitems m b' k' := by
  unfold touch
  by_cases hp : (alook (getSide m b) k).isSome
  · simp [hp]
  · rw [if_neg hp]
    rw [Option.not_isSome_iff_eq_none] at hp
    cases b <;> cases b' <;> simp only [sitems, getSide, setSide] <;>
      first
        | rfl
        | exact alook_append_getD _ _ _ _ hp

theorem mview_touch (m : M2M kl kr) (b : Bool) (k : Nat) (b' : Bool) (k' : Nat) :
    mview (touch m b k) b' k' = mview m b' k' := by
  unfold mview; rw [sitems_touch]

theorem cnt_touch (m : M2M kl kr) (b : Bool) (k : Nat) (b' : Bool) (k' a : Nat) :
    cnt (touch m b k) b' k' a = cnt m b' k' a := by
  unfold cnt; rw [sitems_touch]

theorem sitems_setItems_self (m : M2M kl kr) (b : Bool) (k : Nat) (its : ItemsOf (sideKind b kl kr)) :
    sitems (setItems m b k its) b k = its := by
  unfold sitems setItems
  rw [getSide_setSide_self, alook_aset_self]
  rfl

theorem sitems_setItems_ne (m : M2M kl kr) (b : Bool) (k : Nat) (its : ItemsOf (sideKind b kl kr))
    (k' : Nat) (h : k' ≠ k) :
    sitems (setItems m b k its) b k' = sitems m b k' := by
  unfold sitems setItems
  rw [getSide_setSide_self, alook_aset_ne _ _ _ _ h]

theorem sitems_setItems_neg (m : M2M kl kr) (b : Bool) (k : Nat) (its : ItemsOf (sideKind b kl kr))
    (k' : Nat) :
    sitems (setItems m b k its) (!b) k' = sitems m (!b) k' := by
  unfold sitems setItems
  rw [getSide_setSide_neg]

theorem cnt_setItems_self (m : M2M kl kr) (b : Bool) (k : Nat) (its : ItemsOf (sideKind b kl kr))
    (a : Nat) :
    cnt (setItems m b k its) b k a = cntK (sideKind b kl kr) its a := by
  unfold cnt; rw [sitems_setItems_self]

theorem cnt_setItems_ne (m : M2M kl kr) (b : Bool) (k : Nat) (its : ItemsOf (sideKind b kl kr))
    (k' : Nat) (h : k' ≠ k) (a : Nat) :
    cnt (setItems m b k its) b k' a = cnt m b k' a := by
  unfold cnt; rw [sitems_setItems_ne _ _ _ _ _ h]

theorem cnt_setItems_neg (m : M2M kl kr) (b : Bool) (k : Nat) (its : ItemsOf (sideKind b kl kr))
    (k' a : Nat) :
    cnt (setItems m b k its) (!b) k' a = cnt m (!b) k' a := by
  unfold cnt; rw [sitems_setItems_neg]

theorem exceptBind_ok {ε α β : Type u} {x : Except ε α} {f : α → Except ε β} {v : β}
    (h : (x >>= f) = .ok v) : ∃ a, x = .ok a ∧ f a = .ok v := by
  cases x with
  | ok a => exact ⟨a, rfl, h⟩
  | error e => simp [Bind.bind, Except.bind] at h

theorem exceptOk_bind {ε α β : Type u} (a : α) (f : α → Except ε β) :
    ((.ok a : Except ε α) >>= f) = f a := rfl

/-! ### C9 -/

/-- C9: the checked list's uniqueness wrapper covers `__getitem__` as
well, so a mere element read `side[key][i]` from a checked-list-backed
side whose container already holds a duplicated key raises the
duplicates consistency error, mutating nothing. -/
theorem c9_checked_getitem_raises (b : Bool) (k : Nat) (i : Int) (s : St kl kr)
    (hκ : sideKind b kl kr = .checkedList)
    (hdup : 0 < (dupKeys (mview s.m b k)).length)
    (hidx : (pyNorm (mview s.m b k).length i).isSome) :
    opGetIdx b k i s =
      .error (.dupes ("after __getitem__") (dupElems (mview s.m b k)), touchSt s b k) := by
  cases b
  all_goals
    simp only [sideKind_false, sideKind_true] at hκ
    subst hκ
    obtain ⟨j, hj⟩ := Option.isSome_iff_exists.mp hidx
    simp only [mview, membersK, sideKind_false, sideKind_true] at hdup hj ⊢
    simp only [opGetIdx, touchSt, getPrim, sitems_touch, sideKind_false, sideKind_true]
    rw [hj]
    simp [hdup]

/-- Witness for C9 at a concrete duplicated state. -/
theorem c9_checked_getitem_raises_witness :
    (sideKind true MMKind.checkedList MMKind.set = .checkedList) ∧
    (0 < (dupKeys (mview dupSt.m true 1)).length) ∧
    ((pyNorm (mview dupSt.m true 1).length 0).isSome) ∧
    opGetIdx true 1 0 dupSt =
      .error (.dupes ("after __getitem__") (dupElems (mview dupSt.m true 1)), touchSt dupSt true 1) :=
  ⟨rfl, by decide, by decide,
    c9_checked_getitem_raises true 1 0 dupSt rfl (by decide) (by decide)⟩

/-! ### C8 -/

/-- C8: a slice assignment whose value length differs from the number of
selected indices while the step is not 1 raises an "unsupported" error
and the sequence is unchanged (the error carries the untouched state);
if the lengths match, the assignment succeeds for any step, publishing a
single `update` event. -/
theorem c8_extended_slice_rejection (w : WL) (sl : PySlice) (v : List Int) (start stop step : Int)
    (hidx : sliceIndices sl w.contents.length = some (start, stop, step)) :
    (step ≠ 1 → (sliceWalk stop step w.contents.length start).length ≠ v.length →
      (wlSetSlice w sl v = .error ("shrinking extended slices unsupported", w) ∨
       wlSetSlice w sl v = .error ("growing extended slices unsupported", w))) ∧
    ((sliceWalk stop step w.contents.length start).length = v.length →
      ∃ l2, wlSetSlice w sl v = .ok { contents := l2, events := w.events ++ [.updateSlice sl v] }) := by
  constructor
  · intro hstep hne
    simp only [wlSetSlice, hidx, List.length_map]
    rw [if_neg hne]
    by_cases hlt : v.length < (sliceWalk stop step w.contents.length start).length
    · rw [if_pos hlt, if_pos hstep]
      left; rfl
    · rw [if_neg hlt, if_pos hstep]
      right; rfl
  · intro heq
    simp only [wlSetSlice, hidx, List.length_map]
    rw [if_pos heq]
    simp only [wlSetSliceEq, hidx]
    exact ⟨_, rfl⟩

/-- Witness for C8: `s = [1,2,3]`, slice `[::2]` (two selected
positions): assigning one value raises with the state unchanged,
assigning two succeeds. -/
theorem c8_extended_slice_rejection_witness :
    (sliceIndices ⟨none, none, some 2⟩ (3 : Nat) = some (0, 3, 2)) ∧
    (wlSetSlice ⟨[1, 2, 3], []⟩ ⟨none, none, some 2⟩ [5] =
        .error ("shrinking extended slices unsupported", ⟨[1, 2, 3], []⟩) ∨
     wlSetSlice ⟨[1, 2, 3], []⟩ ⟨none, none, some 2⟩ [5] =
        .error ("growing extended slices unsupported", ⟨[1, 2, 3], []⟩)) ∧
    (∃ l2, wlSetSlice ⟨[1, 2, 3], []⟩ ⟨none, none, some 2⟩ [5, 6] =
        .ok { contents := l2, events := [.updateSlice ⟨none, none, some 2⟩ [5, 6]] }) :=
  ⟨rfl,
    (c8_extended_slice_rejection ⟨[1, 2, 3], []⟩ ⟨none, none, some 2⟩ [5] 0 3 2 rfl).1
      (by decide) (by decide),
    (c8_extended_slice_rejection ⟨[1, 2, 3], []⟩ ⟨none, none, some 2⟩ [5, 6] 0 3 2 rfl).2
      (by decide)⟩

/-! ### Set-variant helper lemmas and C3 -/

theorem membersK_kindEmpty (κ : MMKind) : membersK κ (kindEmpty κ) = [] := by
  cases κ <;> rfl

theorem alook_isSome_of_mview_mem (m : M2M kl kr) (b : Bool) (k a : Nat)
    (h : a ∈ mview m b k) : (alook (getSide m b) k).isSome := by
  by_contra hs
  rw [Option.not_isSome_iff_eq_none] at hs
  unfold mview sitems at h
  rw [hs] at h
  simp [membersK_kindEmpty] at h

theorem aset_self (xs : List (Nat × α)) (k : Nat) (v : α) (h : alook xs k = some v) :
    aset xs k v = xs := by
  induction xs with
  | nil => simp [alook] at h
  | cons p xs ih =>
    by_cases hp : p.1 = k
    · have h2 : p.2 = v := by
        simp [alook, hp] at h
        exact h
      have : aset (p :: xs) k v = (k, v) :: xs := by simp [aset, hp]
      rw [this, ← hp, ← h2, Prod.mk.eta]
    · have h' : alook xs k = some v := by simpa [alook, hp] using h
      simp [aset, hp, ih h']

theorem setSide_getSide (m : M2M kl kr) (b : Bool) : setSide m b (getSide m b) = m := by
  cases b <;> rfl

theorem touchSt_of_present (s : St kl kr) (b : Bool) (k : Nat)
    (h : (alook (getSide s.m b) k).isSome) : touchSt s b k = s := by
  unfold touchSt touch
  rw [if_pos h]

theorem mem_setAdd (l : List Nat) (x a : Nat) : a ∈ setAdd l x ↔ a ∈ l ∨ a = x := by
  unfold setAdd
  by_cases hx : x ∈ l
  · rw [if_pos hx]
    constructor
    · exact Or.inl
    · rintro (h | rfl)
      · exact h
      · exact hx
  · rw [if_neg hx]
    simp

theorem mem_foldl_setAdd (xs : List Nat) (acc : List Nat) (a : Nat) :
    a ∈ xs.foldl setAdd acc ↔ a ∈ acc ∨ a ∈ xs := by
  induction xs generalizing acc with
  | nil => simp
  | cons x xs ih =>
    simp only [List.foldl_cons, ih, mem_setAdd, List.mem_cons]
    tauto

theorem mem_setFromList (xs : List Nat) (a : Nat) : a ∈ setFromList xs ↔ a ∈ xs := by
  unfold setFromList
  rw [mem_foldl_setAdd]
  simp

theorem sitems_eq_of_alook (m : M2M kl kr) (b : Bool) (k : Nat)
    (v : ItemsOf (sideKind b kl kr)) (h : alook (getSide m b) k = some v) :
    sitems m b k = v := by
  unfold sitems
  rw [h]
  rfl

theorem setItems_self (m : M2M kl kr) (b : Bool) (k : Nat)
    (h : (alook (getSide m b) k).isSome) :
    setItems m b k (sitems m b k) = m := by
  obtain ⟨v, hv⟩ := Option.isSome_iff_exists.mp h
  rw [sitems_eq_of_alook m b k v hv]
  unfold setItems
  rw [aset_self _ _ _ hv, setSide_getSide]

/-- C3: on a set-backed side, `append` of an already-present item is a
complete no-op — no structural change, no notification to any listener
on either side; `extend` with only already-present items changes neither
side's container and notifies no opposite side (only the mutated side's
own closing notification fires). -/
theorem c3_set_idempotent (b : Bool) (k : Nat) (s : St kl kr) (hκ : sideKind b kl kr = .set) :
    (∀ a, a ∈ mview s.m b k → opAppend b k a s = .ok s) ∧
    (∀ xs, xs ≠ [] → (∀ x ∈ xs, x ∈ mview s.m b k) →
      opExtend b k xs s = .ok { m := s.m, tr := s.tr ++ [⟨b, k, s.m⟩] }) := by
  constructor
  · intro a ha
    have hpres := alook_isSome_of_mview_mem s.m b k a ha
    have ht : touchSt s b k = s := touchSt_of_present s b k hpres
    simp only [opAppend, ht]
    rw [if_pos ⟨hκ, ha⟩]
  · intro xs hne hall
    obtain ⟨x0, hx0⟩ := List.exists_mem_of_ne_nil xs hne
    have hpres := alook_isSome_of_mview_mem s.m b k x0 (hall x0 hx0)
    have ht : touchSt s b k = s := touchSt_of_present s b k hpres
    have hfil : (setFromList xs).filter (fun a => !((mview s.m b k).contains a)) = [] := by
      rw [List.filter_eq_nil_iff]
      intro a ha
      have hm : a ∈ mview s.m b k := hall a ((mem_setFromList xs a).mp ha)
      simp [hm]
    have hext : mmExtendPrim b k ([] : List Nat) s = .ok s := by
      cases b
      all_goals
        simp only [sideKind_false, sideKind_true] at hκ hpres
        subst hκ
        simp only [mmExtendPrim, extendPrim, sideKind_false, sideKind_true, setUpdate,
          List.foldl_nil]
        rw [setItems_self s.m _ k hpres]
    have hlnk : mmLinkAll b k ([] : List Nat) s = .ok s := rfl
    simp only [opExtend, ht]
    rw [if_pos hκ, hfil, hext, exceptOk_bind, hlnk, exceptOk_bind]
    rfl

/-- Witness for C3 on a one-link set–set relation. -/
theorem c3_set_idempotent_witness :
    (sideKind true MMKind.set MMKind.set = .set) ∧
    (5 ∈ mview extSetSt.m true 1) ∧
    opAppend true 1 5 extSetSt = .ok extSetSt ∧
    opExtend true 1 [5] extSetSt =
      .ok { m := extSetSt.m, tr := extSetSt.tr ++ [⟨true, 1, extSetSt.m⟩] } :=
  ⟨rfl, by decide, (c3_set_idempotent true 1 extSetSt rfl).1 5 (by decide),
    (c3_set_idempotent true 1 extSetSt rfl).2 [5] (by decide) (by decide)⟩

/-! ### Removal-effect lemmas and C6 -/

theorem exceptErr_bind {ε α β : Type u} (e : ε) (f : α → Except ε β) :
    ((.error e : Except ε α) >>= f) = .error e := rfl

theorem listRemove_none_iff (l : List Nat) (a : Nat) : listRemove l a = none ↔ a ∉ l := by
  induction l with
  | nil => simp [listRemove]
  | cons x xs ih =>
    by_cases hx : x = a
    · simp [listRemove, hx]
    · simp [listRemove, hx, Option.map_eq_none', ih, Ne.symm hx]

theorem listRemove_some (l l2 : List Nat) (a : Nat) (h : listRemove l a = some l2) :
    a ∈ l ∧ l2.count a + 1 = l.count a ∧ ∀ x, x ≠ a → l2.count x = l.count x := by
  induction l generalizing l2 with
  | nil => simp [listRemove] at h
  | cons y ys ih =>
    by_cases hy : y = a
    · subst hy
      simp only [listRemove, if_pos, Option.some.injEq] at h
      subst h
      refine ⟨List.mem_cons_self _ _, by simp [List.count_cons_self], ?_⟩
      intro x hx
      simp [List.count_cons, hx]
    · simp only [listRemove, if_neg hy] at h
      cases hr : listRemove ys a with
      | none => rw [hr] at h; simp at h
      | some l3 =>
        rw [hr] at h
        simp only [Option.map_some', Option.some.injEq] at h
        subst h
        obtain ⟨hmem, hcnt, hoth⟩ := ih l3 hr
        refine ⟨List.mem_cons_of_mem _ hmem, ?_, ?_⟩
        · simp [List.count_cons, Ne.symm hy, hcnt]
        · intro x hx
          simp [List.count_cons, hoth x hx]

theorem cLook_cAdd_self (l : List (Nat × Int)) (a : Nat) (d : Int) :
    cLook (cAdd l a d) a = cLook l a + d := by
  unfold cAdd cLook
  rw [alook_aset_self]
  rfl

theorem cLook_cAdd_ne (l : List (Nat × Int)) (a : Nat) (d : Int) (x : Nat) (h : x ≠ a) :
    cLook (cAdd l a d) x = cLook l x := by
  unfold cAdd cLook
  rw [alook_aset_ne _ _ _ _ h]

/-- Effect of a successful `_remove` on the counts: one occurrence of
the removed key disappears (for a well-formed container), all other
counts are unchanged.  Holds for all four variants. -/
theorem removePrim_ok_cnt (κ : MMKind) (l l2 : ItemsOf κ) (a : Nat)
    (h : removePrim κ l a = .ok l2) (hwf : WFits κ l) :
    cntK κ l2 a = cntK κ l a - 1 ∧ ∀ x, x ≠ a → cntK κ l2 x = cntK κ l x := by
  cases κ
  case list | checkedList =>
    simp only [removePrim] at h
    cases hr : listRemove l a with
    | none => rw [hr] at h; exact absurd h (by simp)
    | some l3 =>
      rw [hr] at h
      simp only [Except.ok.injEq] at h
      obtain ⟨hmem, hcnt, hoth⟩ := listRemove_some l l3 a hr
      subst h
      constructor
      · simp only [cntK]
        omega
      · intro x hx
        simp only [cntK, hoth x hx]
  case set =>
    simp only [removePrim] at h
    by_cases hm : a ∈ l
    · rw [if_pos hm] at h
      simp only [Except.ok.injEq] at h
      subst h
      have hnd : l.Nodup := hwf
      constructor
      · simp only [cntK, hm, if_pos]
        rw [if_neg (hnd.not_mem_erase)]
        rfl
      · intro x hx
        simp only [cntK, List.mem_erase_of_ne hx]
    · rw [if_neg hm] at h
      exact absurd h (by simp)
  case counter =>
    simp only [removePrim, Except.ok.injEq] at h
    subst h
    exact ⟨cLook_cAdd_self l a (-1), fun x hx => cLook_cAdd_ne l a (-1) x hx⟩

/-- `_remove` of an absent item raises `NotFoundError` without mutating,
for the list, checked-list and set variants. -/
theorem removePrim_absent (κ : MMKind) (l : ItemsOf κ) (a : Nat)
    (hκ : κ ≠ .counter) (h : cntK κ l a = 0) :
    removePrim κ l a = .error (.notFound a, l) := by
  cases κ
  case counter => exact absurd rfl hκ
  case list | checkedList =>
    simp only [cntK, Int.natCast_eq_zero] at h
    rw [List.count_eq_zero] at h
    simp [removePrim, (listRemove_none_iff l a).mpr h]
  case set =>
    simp only [cntK] at h
    by_cases hm : a ∈ l
    · rw [if_pos hm] at h
      exact absurd h (by decide)
    · simp [removePrim, hm]

theorem alook_touch_self (m : M2M kl kr) (b : Bool) (k : Nat) :
    (alook (getSide (touch m b k) b) k).isSome := by
  unfold touch
  by_cases hp : (alook (getSide m b) k).isSome
  · rwa [if_pos hp]
  · rw [if_neg hp, getSide_setSide_self]
    rw [Option.not_isSome_iff_eq_none] at hp
    rw [alook_append_self]
    rfl

theorem cnt_setItems_negb (m : M2M kl kr) (b : Bool) (k : Nat)
    (its : ItemsOf (sideKind (!b) kl kr)) (k' a : Nat) :
    cnt (setItems m (!b) k its) b k' a = cnt m b k' a := by
  have := cnt_setItems_neg m (!b) k its k' a
  rwa [Bool.not_not] at this

theorem sitems_setItems_negb (m : M2M kl kr) (b : Bool) (k : Nat)
    (its : ItemsOf (sideKind (!b) kl kr)) (k' : Nat) :
    sitems (setItems m (!b) k its) b k' = sitems m b k' := by
  have := sitems_setItems_neg m (!b) k its k'
  rwa [Bool.not_not] at this

theorem alook_setItems_self (m : M2M kl kr) (b : Bool) (k : Nat) (its : ItemsOf (sideKind b kl kr)) :
    alook (getSide (setItems m b k its) b) k = some its := by
  unfold setItems
  rw [getSide_setSide_self, alook_aset_self]

/-! ### Inversion lemmas for the micro-operations -/

theorem mmRemovePrim_ok (b : Bool) (k a : Nat) (s s1 : St kl kr)
    (h : mmRemovePrim b k a s = .ok s1) :
    ∃ l2, removePrim (sideKind b kl kr) (sitems s.m b k) a = .ok l2 ∧
      s1 = { s with m := setItems s.m b k l2 } := by
  unfold mmRemovePrim at h
  cases hr : removePrim (sideKind b kl kr) (sitems s.m b k) a with
  | ok l2 =>
    rw [hr] at h
    simp only [Except.ok.injEq] at h
    exact ⟨l2, rfl, h.symm⟩
  | error e =>
    rw [hr] at h
    rcases e with ⟨e1, its⟩
    simp at h

theorem mmRemovePrim_err (b : Bool) (k a : Nat) (s : St kl kr) (e : MMErr)
    (its : ItemsOf (sideKind b kl kr))
    (h : removePrim (sideKind b kl kr) (sitems s.m b k) a = .error (e, its)) :
    mmRemovePrim b k a s = .error (e, { s with m := setItems s.m b k its }) := by
  unfold mmRemovePrim
  rw [h]

theorem mmAppendPrim_ok (b : Bool) (k a : Nat) (s s1 : St kl kr)
    (h : mmAppendPrim b k a s = .ok s1) :
    ∃ l2, appendPrim (sideKind b kl kr) (sitems s.m b k) a = .ok l2 ∧
      s1 = { s with m := setItems s.m b k l2 } := by
  unfold mmAppendPrim at h
  cases hr : appendPrim (sideKind b kl kr) (sitems s.m b k) a with
  | ok l2 =>
    rw [hr] at h
    simp only [Except.ok.injEq] at h
    exact ⟨l2, rfl, h.symm⟩
  | error e =>
    rw [hr] at h
    rcases e with ⟨e1, its⟩
    simp at h

theorem mmExtendPrim_ok (b : Bool) (k : Nat) (xs : List Nat) (s s1 : St kl kr)
    (h : mmExtendPrim b k xs s = .ok s1) :
    ∃ l2, extendPrim (sideKind b kl kr) (sitems s.m b k) xs = .ok l2 ∧
      s1 = { s with m := setItems s.m b k l2 } := by
  unfold mmExtendPrim at h
  cases hr : extendPrim (sideKind b kl kr) (sitems s.m b k) xs with
  | ok l2 =>
    rw [hr] at h
    simp only [Except.ok.injEq] at h
    exact ⟨l2, rfl, h.symm⟩
  | error e =>
    rw [hr] at h
    rcases e with ⟨e1, its⟩
    simp at h

/-- Successful `_unlink`: the opposite container loses an occurrence of
the own key; the optional notification carries the settled state. -/
theorem mmUnlink_ok (b : Bool) (k a : Nat) (nfy : Bool) (s s2 : St kl kr)
    (h : mmUnlink b k a nfy s = .ok s2) :
    ∃ l2, removePrim (sideKind (!b) kl kr) (sitems s.m (!b) a) k = .ok l2 ∧
      s2.m = setItems (touch s.m (!b) a) (!b) a l2 ∧
      s2.tr = s.tr ++ (if nfy then [⟨!b, a, s2.m⟩] else []) := by
  unfold mmUnlink at h
  cases hr : mmRemovePrim (!b) a k (touchSt s (!b) a) with
  | error e =>
    rw [hr] at h
    simp at h
  | ok s1 =>
    rw [hr] at h
    simp only [Except.ok.injEq] at h
    obtain ⟨l2, hprim, hs1⟩ := mmRemovePrim_ok _ _ _ _ _ hr
    simp only [touchSt] at hprim hs1
    rw [sitems_touch] at hprim
    refine ⟨l2, hprim, ?_⟩
    subst hs1
    have hpres : (alook (getSide (setItems (touch s.m (!b) a) (!b) a l2) (!b)) a).isSome := by
      rw [alook_setItems_self]
      rfl
    have htch :
        touchSt ({ m := setItems (touch s.m (!b) a) (!b) a l2, tr := s.tr } : St kl kr) (!b) a =
          { m := setItems (touch s.m (!b) a) (!b) a l2, tr := s.tr } :=
      touchSt_of_present _ _ _ hpres
    cases nfy
    · subst h
      exact ⟨rfl, by simp [touchSt]⟩
    · simp only [if_pos] at h
      subst h
      rw [htch]
      exact ⟨rfl, by simp [notifSt, touchSt]⟩

/-- Successful `_link`: the opposite container gains an occurrence of
the own key. -/
theorem mmLink_ok (b : Bool) (k a : Nat) (nfy : Bool) (s s2 : St kl kr)
    (h : mmLink b k a nfy s = .ok s2) :
    ∃ l2, appendPrim (sideKind (!b) kl kr) (sitems s.m (!b) a) k = .ok l2 ∧
      s2.m = setItems (touch s.m (!b) a) (!b) a l2 ∧
      s2.tr = s.tr ++ (if nfy then [⟨!b, a, s2.m⟩] else []) := by
  unfold mmLink at h
  cases hr : mmAppendPrim (!b) a k (touchSt s (!b) a) with
  | error e =>
    rw [hr] at h
    simp at h
  | ok s1 =>
    rw [hr] at h
    simp only [Except.ok.injEq] at h
    obtain ⟨l2, hprim, hs1⟩ := mmAppendPrim_ok _ _ _ _ _ hr
    simp only [touchSt] at hprim hs1
    rw [sitems_touch] at hprim
    refine ⟨l2, hprim, ?_⟩
    subst hs1
    have hpres : (alook (getSide (setItems (touch s.m (!b) a) (!b) a l2) (!b)) a).isSome := by
      rw [alook_setItems_self]
      rfl
    have htch :
        touchSt ({ m := setItems (touch s.m (!b) a) (!b) a l2, tr := s.tr } : St kl kr) (!b) a =
          { m := setItems (touch s.m (!b) a) (!b) a l2, tr := s.tr } :=
      touchSt_of_present _ _ _ hpres
    cases nfy
    · subst h
      exact ⟨rfl, by simp [touchSt]⟩
    · simp only [if_pos] at h
      subst h
      rw [htch]
      exact ⟨rfl, by simp [notifSt, touchSt]⟩

/-! ### Totality of the unlink pass under symmetry (used by C4) -/

theorem sym_flip (m : M2M kl kr) (h : Sym m) (b : Bool) (k a : Nat) :
    cnt m b k a = cnt m (!b) a k := by
  cases b
  · exact (h a k).symm
  · exact h k a

theorem alook_none_not_mem_fst (xs : List (Nat × α)) (k : Nat) (h : alook xs k = none) :
    k ∉ xs.map Prod.fst := by
  induction xs with
  | nil => simp
  | cons p xs ih =>
    by_cases hp : p.1 = k
    · simp [alook, hp] at h
    · simp only [alook, if_neg hp] at h
      simp [Ne.symm hp, ih h]

theorem aset_map_fst_of_isSome (xs : List (Nat × α)) (k : Nat) (v : α)
    (h : (alook xs k).isSome) : (aset xs k v).map Prod.fst = xs.map Prod.fst := by
  induction xs with
  | nil => simp [alook] at h
  | cons p xs ih =>
    by_cases hp : p.1 = k
    · simp [aset, hp]
    · simp only [alook, if_neg hp] at h
      simp [aset, hp, ih h]

theorem aset_map_fst_of_none (xs : List (Nat × α)) (k : Nat) (v : α)
    (h : alook xs k = none) : (aset xs k v).map Prod.fst = xs.map Prod.fst ++ [k] := by
  induction xs with
  | nil => simp [aset]
  | cons p xs ih =>
    by_cases hp : p.1 = k
    · simp [alook, hp] at h
    · simp only [alook, if_neg hp] at h
      simp [aset, hp, ih h]

theorem WFits_cAdd (l : List (Nat × Int)) (a : Nat) (d : Int)
    (h : (l.map Prod.fst).Nodup) : ((cAdd l a d).map Prod.fst).Nodup := by
  unfold cAdd
  cases hs : alook l a with
  | some v =>
    rw [aset_map_fst_of_isSome _ _ _ (by rw [hs]; rfl)]
    exact h
  | none =>
    rw [aset_map_fst_of_none _ _ _ hs]
    simp only [List.nodup_append, List.nodup_cons, List.nodup_nil]
    exact ⟨h, by simp, by simpa using alook_none_not_mem_fst l a hs⟩

/-- A successful `_remove` preserves container well-formedness. -/
theorem removePrim_ok_WFits (κ : MMKind) (l l2 : ItemsOf κ) (kk : Nat)
    (h : removePrim κ l kk = .ok l2) (hwf : WFits κ l) : WFits κ l2 := by
  cases κ
  case list | checkedList => trivial
  case set =>
    simp only [removePrim] at h
    by_cases hm : kk ∈ l
    · rw [if_pos hm] at h
      simp only [Except.ok.injEq] at h
      subst h
      exact List.Nodup.erase kk hwf
    · rw [if_neg hm] at h
      simp at h
  case counter =>
    simp only [removePrim, Except.ok.injEq] at h
    subst h
    exact WFits_cAdd l kk (-1) hwf

/-- `_remove` succeeds whenever the key has multiplicity at least one. -/
theorem removePrim_total (κ : MMKind) (l : ItemsOf κ) (kk : Nat)
    (h : 1 ≤ cntK κ l kk) : ∃ l2, removePrim κ l kk = .ok l2 := by
  cases κ
  case list | checkedList =>
    simp only [cntK] at h
    have hmem : kk ∈ l := by
      rw [← List.count_pos_iff]
      omega
    cases hr : listRemove l kk with
    | none => exact absurd ((listRemove_none_iff l kk).mp hr) (by simpa using hmem)
    | some l2 => exact ⟨l2, by simp [removePrim, hr]⟩
  case set =>
    simp only [cntK] at h
    by_cases hm : kk ∈ l
    · exact ⟨l.erase kk, by simp [removePrim, hm]⟩
    · rw [if_neg hm] at h
      exact absurd h (by decide)
  case counter => exact ⟨cAdd l kk (-1), rfl⟩

/-- `_unlink(item, notify=False)` forward evaluation. -/
theorem mmUnlink_false_of_prim (b : Bool) (k a : Nat) (s : St kl kr)
    (l2 : ItemsOf (sideKind (!b) kl kr))
    (h : removePrim (sideKind (!b) kl kr) (sitems s.m (!b) a) k = .ok l2) :
    mmUnlink b k a false s = .ok { m := setItems (touch s.m (!b) a) (!b) a l2, tr := s.tr } := by
  unfold mmUnlink mmRemovePrim
  simp only [touchSt]
  rw [sitems_touch, h]
  rfl

/-- Pass 1 of `_unlink_all` completes whenever every item of the batch
has, on the opposite side, at least as many reciprocal occurrences as
its multiplicity in the batch. -/
theorem mmUnlinkPass1_total (b : Bool) (k : Nat) (ms : List Nat) (s : St kl kr)
    (hwf : ∀ k', WFits (sideKind (!b) kl kr) (sitems s.m (!b) k'))
    (havail : ∀ a, (ms.count a : Int) ≤ cnt s.m (!b) a k) :
    ∃ s1, mmUnlinkPass1 b k ms s = .ok s1 := by
  induction ms generalizing s with
  | nil => exact ⟨s, rfl⟩
  | cons a ms ih =>
    have h1 : (1 : Int) ≤ cnt s.m (!b) a k := by
      have := havail a
      rw [List.count_cons_self] at this
      have hnn : (0 : Int) ≤ (ms.count a : Int) := by positivity
      omega
    obtain ⟨l2, hl2⟩ := removePrim_total _ _ _ h1
    have hstep := mmUnlink_false_of_prim b k a s l2 hl2
    obtain ⟨heq, hoth⟩ := removePrim_ok_cnt _ _ _ _ hl2 (hwf a)
    have hwf2 := removePrim_ok_WFits _ _ _ _ hl2 (hwf a)
    obtain ⟨s1, hs1⟩ := ih ({ m := setItems (touch s.m (!b) a) (!b) a l2, tr := s.tr } : St kl kr)
      (by
        intro k'
        by_cases hk : k' = a
        · subst hk
          simp only [sitems_setItems_self]
          exact hwf2
        · simp only [sitems_setItems_ne _ _ _ _ _ hk, sitems_touch]
          exact hwf k')
      (by
        intro x
        by_cases hx : x = a
        · subst hx
          simp only [cnt_setItems_self]
          have hav := havail x
          rw [List.count_cons_self] at hav
          have hdef : cnt s.m (!b) x k = cntK (sideKind (!b) kl kr) (sitems s.m (!b) x) k := rfl
          push_cast at hav ⊢
          omega
        · simp only [cnt_setItems_ne _ _ _ _ _ hx, cnt_touch]
          have hav := havail x
          rwa [List.count_cons_of_ne hx] at hav)
    refine ⟨s1, ?_⟩
    unfold mmUnlinkPass1 at hs1 ⊢
    rw [List.foldlM_cons, hstep, exceptOk_bind]
    exact hs1

/-! ### Duplicate detection helpers and C4 -/

theorem mem_firstDistinct_aux (l : List Nat) (acc : List Nat) (a : Nat) :
    a ∈ l.foldl (fun acc x => if x ∈ acc then acc else acc ++ [x]) acc ↔ a ∈ acc ∨ a ∈ l := by
  induction l generalizing acc with
  | nil => simp
  | cons x xs ih =>
    simp only [List.foldl_cons]
    by_cases hx : x ∈ acc
    · rw [if_pos hx, ih]
      constructor
      · rintro (h | h)
        · exact Or.inl h
        · exact Or.inr (List.mem_cons_of_mem _ h)
      · rintro (h | h)
        · exact Or.inl h
        · rcases List.mem_cons.mp h with rfl | h
          · exact Or.inl hx
          · exact Or.inr h
    · rw [if_neg hx, ih]
      simp only [List.mem_append, List.mem_singleton, List.mem_cons]
      tauto

theorem mem_firstDistinct (l : List Nat) (a : Nat) : a ∈ firstDistinct l ↔ a ∈ l := by
  unfold firstDistinct
  rw [mem_firstDistinct_aux]
  simp

theorem dupKeys_pos (xs : List Nat) (h : ∃ v, 1 < xs.count v) : 0 < (dupKeys xs).length := by
  obtain ⟨v, hv⟩ := h
  have hmem : v ∈ xs := by
    rw [← List.count_pos_iff]
    omega
  have : v ∈ dupKeys xs := by
    unfold dupKeys
    rw [List.mem_filter]
    exact ⟨(mem_firstDistinct xs v).mpr hmem, by simpa using hv⟩
  exact List.length_pos.mpr (List.ne_nil_of_mem this)

theorem cnt_eq_count_of_checked (b : Bool) (hκ : sideKind b kl kr = .checkedList)
    (m : M2M kl kr) (k a : Nat) :
    cnt m b k a = ((mview m b k).count a : Int) := by
  cases b <;>
    · simp only [sideKind_false, sideKind_true] at hκ
      subst hκ
      rfl

theorem mmExtendPrim_checked_dup (b : Bool) (k : Nat) (hκ : sideKind b kl kr = .checkedList)
    (s : St kl kr) (xs : List Nat)
    (hempty : mview s.m b k = []) (hd : 0 < (dupKeys xs).length) :
    mmExtendPrim b k xs s =
      .error (.dupes ("after _extend") (dupElems xs),
        { s with m := setItems s.m b k (listPayload (sideKind b kl kr) xs) }) := by
  cases b
  case false =>
    simp only [sideKind_false] at hκ
    subst hκ
    simp only [mview, membersK, sideKind_false] at hempty
    simp only [mmExtendPrim, extendPrim, sideKind_false]
    rw [show (sitems s.m false k ++ xs : List Nat) = xs from by rw [hempty]; exact List.nil_append xs]
    rw [if_pos hd]
    rfl
  case true =>
    simp only [sideKind_true] at hκ
    subst hκ
    simp only [mview, membersK, sideKind_true] at hempty
    simp only [mmExtendPrim, extendPrim, sideKind_true]
    rw [show (sitems s.m true k ++ xs : List Nat) = xs from by rw [hempty]; exact List.nil_append xs]
    rw [if_pos hd]
    rfl

theorem mview_setItems_payload_checked (b : Bool) (k : Nat) (hκ : sideKind b kl kr = .checkedList)
    (m : M2M kl kr) (xs : List Nat) :
    mview (setItems m b k (listPayload (sideKind b kl kr) xs)) b k = xs := by
  cases b <;>
    · simp only [sideKind_false, sideKind_true] at hκ
      subst hκ
      unfold mview
      rw [sitems_setItems_self]
      rfl

theorem iterK_eq_membersK (κ : MMKind) (hκ : κ ≠ .counter) (l : ItemsOf κ) :
    iterK κ l = membersK κ l := by
  cases κ
  case counter => exact absurd rfl hκ
  case list => rfl
  case checkedList => rfl
  case set => rfl

theorem iview_eq_mview (m : M2M kl kr) (b : Bool) (k : Nat)
    (hκ : sideKind b kl kr ≠ .counter) : iview m b k = mview m b k :=
  iterK_eq_membersK _ hκ _

/-- Forward evaluation of `clear` once pass 1 of its unlink batch is
known to succeed. -/
theorem mmClearCore_of_pass1_false (b : Bool) (k : Nat) (s s1 : St kl kr)
    (h : mmUnlinkPass1 b k (iview s.m b k) s = .ok s1) :
    mmClearCore b k false s =
      .ok { m := setItems (mmNotifyPass b (iview s.m b k) s1).m b k (kindEmpty (sideKind b kl kr)),
            tr := (mmNotifyPass b (iview s.m b k) s1).tr } := by
  unfold mmClearCore mmUnlinkAll
  rw [h]
  rfl

theorem mmClearCore_of_pass1_true (b : Bool) (k : Nat) (s s1 : St kl kr)
    (h : mmUnlinkPass1 b k (iview s.m b k) s = .ok s1) :
    mmClearCore b k true s =
      .ok (notifSt { m := setItems (mmNotifyPass b (iview s.m b k) s1).m b k
                            (kindEmpty (sideKind b kl kr)),
                     tr := (mmNotifyPass b (iview s.m b k) s1).tr } b k) := by
  unfold mmClearCore mmUnlinkAll
  rw [h]
  rfl

/-- C4: assigning a collection containing a repeated key to a
checked-list-backed side raises the consistency error that names the
operation (`after _extend`) and enumerates the duplicated values, and
does so only after the structural mutation: the error state's container
already equals the assigned (duplicated) list. -/
theorem c4_checked_duplicate_assignment (b : Bool) (k : Nat) (xs : List Nat) (s : St kl kr)
    (hκ : sideKind b kl kr = .checkedList)
    (hsym : Sym s.m)
    (hwf : ∀ b' k', WFits (sideKind b' kl kr) (sitems s.m b' k'))
    (hdup : ∃ v, 1 < xs.count v) :
    ∃ serr, opSideSet b k xs s = .error (.dupes ("after _extend") (dupElems xs), serr) ∧
      mview serr.m b k = xs := by
  have hκc : sideKind b kl kr ≠ .counter := by
    rw [hκ]
    decide
  have havail : ∀ a, (((iview (touchSt s b k).m b k).count a : Int)) ≤
      cnt (touchSt s b k).m (!b) a k := by
    intro a
    rw [iview_eq_mview _ _ _ hκc]
    simp only [touchSt]
    rw [mview_touch, cnt_touch, ← cnt_eq_count_of_checked b hκ s.m k a, sym_flip s.m hsym b k a]
  obtain ⟨s1, hs1⟩ := mmUnlinkPass1_total b k (iview (touchSt s b k).m b k) (touchSt s b k)
    (by
      intro k'
      simp only [touchSt]
      rw [sitems_touch]
      exact hwf (!b) k')
    havail
  have hclear := mmClearCore_of_pass1_false b k (touchSt s b k) s1 hs1
  set s2 : St kl kr := { m := setItems (mmNotifyPass b (iview (touchSt s b k).m b k) s1).m b k
                                (kindEmpty (sideKind b kl kr)),
                         tr := (mmNotifyPass b (iview (touchSt s b k).m b k) s1).tr } with hs2
  have hempty : mview s2.m b k = [] := by
    rw [hs2]
    unfold mview
    simp only
    rw [sitems_setItems_self, membersK_kindEmpty]
  have hd : 0 < (dupKeys xs).length := dupKeys_pos xs hdup
  have hext := mmExtendPrim_checked_dup b k hκ s2 xs hempty hd
  have hns : ¬(sideKind b kl kr = .set) := by rw [hκ]; decide
  have hnc : ¬(sideKind b kl kr = .counter) := by rw [hκ]; decide
  refine ⟨{ s2 with m := setItems s2.m b k (listPayload (sideKind b kl kr) xs) }, ?_, ?_⟩
  · simp only [opSideSet]
    rw [if_neg hns, if_neg hnc]
    simp only [mmReplaceBase]
    rw [hclear, exceptOk_bind, hext, exceptErr_bind]
  · exact mview_setItems_payload_checked b k hκ s2.m xs

/-- Witness for C4: a fresh `ManyToMany('checked_list', 'set')` with
`left[1] = [7, 7]`. -/
theorem c4_checked_duplicate_assignment_witness :
    (sideKind true MMKind.checkedList MMKind.set = .checkedList) ∧
    (∃ v, 1 < ([7, 7] : List Nat).count v) ∧
    (∃ serr, opSideSet true 1 [7, 7] (initSt .checkedList .set) =
        .error (.dupes ("after _extend") (dupElems [7, 7]), serr) ∧
      mview serr.m true 1 = [7, 7]) :=
  ⟨rfl, ⟨7, by decide⟩,
    c4_checked_duplicate_assignment true 1 [7, 7] (initSt .checkedList .set) rfl
      (fun k a => rfl)
      (by
        intro b' k'
        cases b'
        · exact List.nodup_nil
        · trivial)
      ⟨7, by decide⟩⟩

/-- C6: `remove(item)` on a list, checked-list, or set side raises a
"not found" error carrying the value when the item is absent, leaving
the relation untouched and firing no listener (the error state is the
input, up to the get-or-create of the addressed side); when `remove`
succeeds, exactly one occurrence of the item disappears from this side,
exactly one reciprocal occurrence of the own key disappears from the
opposite side, and every other multiplicity is unchanged. -/
theorem c6_remove_semantics (b : Bool) (k a : Nat) (s : St kl kr)
    (hκ : sideKind b kl kr ≠ .counter)
    (hwf : ∀ b' k', WFits (sideKind b' kl kr) (sitems s.m b' k')) :
    (cnt s.m b k a = 0 → opRemove b k a s = .error (.notFound a, touchSt s b k)) ∧
    (∀ s', opRemove b k a s = .ok s' →
      cnt s'.m b k a = cnt s.m b k a - 1 ∧
      cnt s'.m (!b) a k = cnt s.m (!b) a k - 1 ∧
      ∀ b' k' x, ¬(b' = b ∧ k' = k ∧ x = a) → ¬(b' = (!b) ∧ k' = a ∧ x = k) →
        cnt s'.m b' k' x = cnt s.m b' k' x) := by
  constructor
  · intro h0
    have hprim : removePrim (sideKind b kl kr) (sitems (touchSt s b k).m b k) a =
        .error (.notFound a, sitems (touchSt s b k).m b k) := by
      simp only [touchSt]
      rw [sitems_touch]
      exact removePrim_absent _ _ _ hκ h0
    have h1 := mmRemovePrim_err b k a (touchSt s b k) _ _ hprim
    simp only [opRemove]
    rw [h1, exceptErr_bind]
    rw [show setItems (touchSt s b k).m b k (sitems (touchSt s b k).m b k) = (touchSt s b k).m from
      setItems_self _ _ _ (by simp only [touchSt]; exact alook_touch_self s.m b k)]
  · intro s' h
    simp only [opRemove] at h
    obtain ⟨s1, h1, h'⟩ := exceptBind_ok h
    obtain ⟨s2, h2, h3⟩ := exceptBind_ok h'
    simp only [pure, Except.pure, Except.ok.injEq] at h3
    obtain ⟨l2, hp1, hs1⟩ := mmRemovePrim_ok _ _ _ _ _ h1
    simp only [touchSt] at hp1 hs1
    rw [sitems_touch] at hp1
    obtain ⟨l2', hp2, hm2, _⟩ := mmUnlink_ok _ _ _ _ _ _ h2
    obtain ⟨heq1, hoth1⟩ := removePrim_ok_cnt _ _ _ _ hp1 (hwf b k)
    subst hs1
    rw [sitems_setItems_neg, sitems_touch] at hp2
    obtain ⟨heq2, hoth2⟩ := removePrim_ok_cnt _ _ _ _ hp2 (hwf (!b) a)
    replace hm2 : s2.m = setItems (touch (setItems (touch s.m b k) b k l2) (!b) a) (!b) a l2' := hm2
    subst h3
    simp only [notifSt]
    refine ⟨?_, ?_, ?_⟩
    · rw [hm2, cnt_setItems_negb, cnt_touch, cnt_setItems_self]
      exact heq1
    · rw [hm2, cnt_setItems_self]
      exact heq2
    · intro b' k' x hn1 hn2
      rw [hm2]
      by_cases hb : b' = b
      · subst hb
        rw [cnt_setItems_negb, cnt_touch]
        by_cases hk : k' = k
        · subst hk
          have hx : x ≠ a := fun hxe => hn1 ⟨rfl, rfl, hxe⟩
          rw [cnt_setItems_self]
          exact hoth1 x hx
        · rw [cnt_setItems_ne _ _ _ _ _ hk, cnt_touch]
      · have hb' : b' = !b := by
          cases b' <;> cases b <;> simp_all
        subst hb'
        by_cases hk : k' = a
        · subst hk
          have hx : x ≠ k := fun hxe => hn2 ⟨rfl, rfl, hxe⟩
          rw [cnt_setItems_self]
          exact hoth2 x hx
        · rw [cnt_setItems_ne _ _ _ _ _ hk, cnt_touch, cnt_setItems_neg, cnt_touch]

/-- Witness for C6 on a one-link list–list relation: removing an absent
item raises; removing the present one unlinks both sides. -/
theorem c6_remove_semantics_witness :
    (sideKind true MMKind.list MMKind.list ≠ .counter) ∧
    (cnt listSt.m true 1 9 = 0) ∧
    opRemove true 1 9 listSt = .error (.notFound 9, touchSt listSt true 1) ∧
    (∀ s', opRemove true 1 5 listSt = .ok s' →
      cnt s'.m true 1 5 = cnt listSt.m true 1 5 - 1 ∧
      cnt s'.m false 5 1 = cnt listSt.m false 5 1 - 1 ∧
      ∀ b' k' x, ¬(b' = true ∧ k' = 1 ∧ x = 5) → ¬(b' = false ∧ k' = 5 ∧ x = 1) →
        cnt s'.m b' k' x = cnt listSt.m b' k' x) :=
  ⟨by decide, by decide,
    (c6_remove_semantics true 1 9 listSt (by decide)
      (by intro b' k'; cases b' <;> trivial)).1 (by decide),
    (c6_remove_semantics true 1 5 listSt (by decide)
      (by intro b' k'; cases b' <;> trivial)).2⟩

/-! ### Frame and presence lemmas for the two-pass batches -/

theorem alook_append_isSome (xs : List (Nat × α)) (k' k : Nat) (v : α)
    (h : (alook xs k').isSome) : (alook (xs ++ [(k, v)]) k').isSome := by
  by_cases hk : k' = k
  · subst hk
    rw [alook_append_self]
    rfl
  · rwa [alook_append_ne _ _ _ _ hk]

theorem alook_aset_isSome (xs : List (Nat × α)) (k' k : Nat) (v : α)
    (h : (alook xs k').isSome) : (alook (aset xs k v) k').isSome := by
  by_cases hk : k' = k
  · subst hk
    rw [alook_aset_self]
    rfl
  · rwa [alook_aset_ne _ _ _ _ hk]

theorem getSide_touch_neg (m : M2M kl kr) (b : Bool) (k : Nat) :
    getSide (touch m b k) (!b) = getSide m (!b) := by
  unfold touch
  by_cases hp : (alook (getSide m b) k).isSome
  · rw [if_pos hp]
  · rw [if_neg hp, getSide_setSide_neg]

theorem getSide_setItems_neg (m : M2M kl kr) (b : Bool) (k : Nat)
    (its : ItemsOf (sideKind b kl kr)) :
    getSide (setItems m b k its) (!b) = getSide m (!b) := by
  unfold setItems
  rw [getSide_setSide_neg]

theorem getSide_touch_negb (m : M2M kl kr) (b : Bool) (k : Nat) :
    getSide (touch m (!b) k) b = getSide m b := by
  have := getSide_touch_neg m (!b) k
  rwa [Bool.not_not] at this

theorem getSide_setItems_negb (m : M2M kl kr) (b : Bool) (k : Nat)
    (its : ItemsOf (sideKind (!b) kl kr)) :
    getSide (setItems m (!b) k its) b = getSide m b := by
  have := getSide_setItems_neg m (!b) k its
  rwa [Bool.not_not] at this

theorem alook_touch_mono (m : M2M kl kr) (b : Bool) (k : Nat) (k' : Nat)
    (h : (alook (getSide m b) k').isSome) :
    (alook (getSide (touch m b k) b) k').isSome := by
  unfold touch
  by_cases hp : (alook (getSide m b) k).isSome
  · rwa [if_pos hp]
  · rw [if_neg hp, getSide_setSide_self]
    exact alook_append_isSome _ _ _ _ h

theorem alook_setItems_mono (m : M2M kl kr) (b : Bool) (k : Nat)
    (its : ItemsOf (sideKind b kl kr)) (k' : Nat)
    (h : (alook (getSide m b) k').isSome) :
    (alook (getSide (setItems m b k its) b) k').isSome := by
  unfold setItems
  rw [getSide_setSide_self]
  exact alook_aset_isSome _ _ _ _ h

/-- Pass 2 of a batch: with every batch key present on the opposite
index, the state is unchanged and one notification per key is appended,
all snapshotting the current (final) state. -/
theorem mmNotifyPass_facts (b : Bool) (xs : List Nat) (s : St kl kr)
    (hpres : ∀ x ∈ xs, (alook (getSide s.m (!b)) x).isSome) :
    (mmNotifyPass b xs s).m = s.m ∧
    (mmNotifyPass b xs s).tr = s.tr ++ xs.map (fun x => Notif.mk (!b) x s.m) := by
  induction xs generalizing s with
  | nil => simp [mmNotifyPass]
  | cons x xs ih =>
    have hx := hpres x (List.mem_cons_self _ _)
    have ht : touchSt s (!b) x = s := touchSt_of_present _ _ _ hx
    unfold mmNotifyPass
    simp only [List.foldl_cons, ht]
    have := ih (notifSt s (!b) x) (by
      intro y hy
      simp only [notifSt]
      exact hpres y (List.mem_cons_of_mem _ hy))
    unfold mmNotifyPass at this
    rw [this.1, this.2]
    simp [notifSt]

/-- Pass 1 of `_link_all`: no notifications, the own side untouched,
every batch key present on the opposite index afterwards, and opposite
presence is monotone. -/
theorem mmLinkPass1_tr (b : Bool) (k : Nat) (xs : List Nat) (s s1 : St kl kr)
    (h : mmLinkPass1 b k xs s = .ok s1) :
    s1.tr = s.tr ∧
    getSide s1.m b = getSide s.m b ∧
    (∀ x ∈ xs, (alook (getSide s1.m (!b)) x).isSome) ∧
    (∀ k', (alook (getSide s.m (!b)) k').isSome → (alook (getSide s1.m (!b)) k').isSome) := by
  induction xs generalizing s with
  | nil =>
    simp only [mmLinkPass1, List.foldlM_nil] at h
    simp only [pure, Except.pure, Except.ok.injEq] at h
    subst h
    exact ⟨rfl, rfl, by simp, fun k' h => h⟩
  | cons x xs ih =>
    simp only [mmLinkPass1, List.foldlM_cons] at h
    obtain ⟨sa, hstep, hrest⟩ := exceptBind_ok h
    obtain ⟨l2, hprim, hm, htr⟩ := mmLink_ok _ _ _ _ _ _ hstep
    simp only [if_neg Bool.false_ne_true, List.append_nil] at htr
    obtain ⟨ih1, ih2, ih3, ih4⟩ := ih sa hrest
    have hpx : (alook (getSide sa.m (!b)) x).isSome := by
      rw [hm]
      rw [alook_setItems_self]
      rfl
    refine ⟨by rw [ih1, htr], ?_, ?_, ?_⟩
    · rw [ih2, hm, getSide_setItems_negb, getSide_touch_negb]
    · intro y hy
      rcases List.mem_cons.mp hy with rfl | hy
      · exact ih4 y hpx
      · exact ih3 y hy
    · intro k' hk'
      refine ih4 k' ?_
      rw [hm]
      apply alook_setItems_mono
      apply alook_touch_mono
      exact hk'

/-- Pass 1 of `_unlink_all`: same shape as for `_link_all`. -/
theorem mmUnlinkPass1_tr (b : Bool) (k : Nat) (xs : List Nat) (s s1 : St kl kr)
    (h : mmUnlinkPass1 b k xs s = .ok s1) :
    s1.tr = s.tr ∧
    getSide s1.m b = getSide s.m b ∧
    (∀ x ∈ xs, (alook (getSide s1.m (!b)) x).isSome) ∧
    (∀ k', (alook (getSide s.m (!b)) k').isSome → (alook (getSide s1.m (!b)) k').isSome) := by
  induction xs generalizing s with
  | nil =>
    simp only [mmUnlinkPass1, List.foldlM_nil] at h
    simp only [pure, Except.pure, Except.ok.injEq] at h
    subst h
    exact ⟨rfl, rfl, by simp, fun k' h => h⟩
  | cons x xs ih =>
    simp only [mmUnlinkPass1, List.foldlM_cons] at h
    obtain ⟨sa, hstep, hrest⟩ := exceptBind_ok h
    obtain ⟨l2, hprim, hm, htr⟩ := mmUnlink_ok _ _ _ _ _ _ hstep
    simp only [if_neg Bool.false_ne_true, List.append_nil] at htr
    obtain ⟨ih1, ih2, ih3, ih4⟩ := ih sa hrest
    have hpx : (alook (getSide sa.m (!b)) x).isSome := by
      rw [hm]
      rw [alook_setItems_self]
      rfl
    refine ⟨by rw [ih1, htr], ?_, ?_, ?_⟩
    · rw [ih2, hm, getSide_setItems_negb, getSide_touch_negb]
    · intro y hy
      rcases List.mem_cons.mp hy with rfl | hy
      · exact ih4 y hpx
      · exact ih3 y hy
    · intro k' hk'
      refine ih4 k' ?_
      rw [hm]
      apply alook_setItems_mono
      apply alook_touch_mono
      exact hk'

/-- `_link_all` in full: all structural updates happen first, then one
notification per batch key, every one snapshotting the final state. -/
theorem mmLinkAll_tr (b : Bool) (k : Nat) (xs : List Nat) (s s2 : St kl kr)
    (h : mmLinkAll b k xs s = .ok s2) :
    getSide s2.m b = getSide s.m b ∧
    s2.tr = s.tr ++ xs.map (fun x => Notif.mk (!b) x s2.m) := by
  unfold mmLinkAll at h
  obtain ⟨s1, h1, h2⟩ := exceptBind_ok h
  simp only [pure, Except.pure, Except.ok.injEq] at h2
  obtain ⟨htr, hown, hpres, _⟩ := mmLinkPass1_tr _ _ _ _ _ h1
  obtain ⟨hm, htr2⟩ := mmNotifyPass_facts b xs s1 hpres
  subst h2
  constructor
  · rw [hm, hown]
  · rw [htr2, htr, hm]

/-- C2, amended: for `extend` and for deletion of a key, the structural
updates of all affected opposite sides complete before any listener
callback, and every callback (opposite sides first, then the mutated
side) observes the fully settled final state.  (For `clear` and bulk
`_replace` this fails — see the counterexample — because their unlink
batch notifies before the own container swap and before the link
batch.) -/
theorem c2_two_phase_amended (b : Bool) (k : Nat) (s : St kl kr) :
    (∀ xs s', opExtend b k xs s = .ok s' → ∀ n ∈ newTr s s', n.snap = s'.m) ∧
    (∀ s', opSideDel b k s = .ok s' → ∀ n ∈ newTr s s', n.snap = s'.m) := by
  constructor
  · intro xs s' h
    simp only [opExtend] at h
    obtain ⟨s1, h1, h'⟩ := exceptBind_ok h
    obtain ⟨s2, h2, h3⟩ := exceptBind_ok h'
    simp only [pure, Except.pure, Except.ok.injEq] at h3
    obtain ⟨l2, hprim, hs1⟩ := mmExtendPrim_ok _ _ _ _ _ h1
    obtain ⟨hown, htr⟩ := mmLinkAll_tr _ _ _ _ _ h2
    subst h3
    subst hs1
    intro n hn
    simp only [notifSt, newTr] at hn ⊢
    rw [htr] at hn
    simp only [touchSt, List.append_assoc] at hn
    rw [List.drop_left] at hn
    simp only [List.mem_append, List.mem_map, List.mem_singleton] at hn
    rcases hn with ⟨x, _, rfl⟩ | rfl
    · rfl
    · rfl
  · intro s' h
    simp only [opSideDel] at h
    cases hpop : apop (getSide s.m b) k with
    | none => rw [hpop] at h; simp at h
    | some p =>
      obtain ⟨its, rest⟩ := p
      rw [hpop] at h
      obtain ⟨s1, h1, h2⟩ := exceptBind_ok h
      simp only [pure, Except.pure, Except.ok.injEq] at h2
      simp only [mmUnlinkAll] at h1
      obtain ⟨s1', h1', hnp⟩ := exceptBind_ok h1
      simp only [pure, Except.pure, Except.ok.injEq] at hnp
      obtain ⟨htr, hown, hpres, _⟩ := mmUnlinkPass1_tr _ _ _ _ _ h1'
      obtain ⟨hm, htr2⟩ := mmNotifyPass_facts b (iterK (sideKind b kl kr) its) s1' hpres
      subst h2
      subst hnp
      intro n hn
      simp only [notifSt, newTr] at hn ⊢
      rw [htr2, htr] at hn
      simp only [List.append_assoc] at hn
      rw [List.drop_left] at hn
      simp only [List.mem_append, List.mem_map, List.mem_singleton] at hn
      rcases hn with ⟨x, _, rfl⟩ | rfl
      · simp only [hm]
      · rfl

/-- Witness for C2 on a one-item `extend` over a fresh set–set relation. -/
theorem c2_two_phase_amended_witness :
    (opExtend true 1 [5] (initSt .set .set) = .ok extSetSt) ∧
    (∀ n ∈ newTr (initSt .set .set) extSetSt, n.snap = extSetSt.m) :=
  ⟨rfl, (c2_two_phase_amended true 1 (initSt .set .set)).1 [5] extSetSt rfl⟩

/-! ### Count effects of the unlink pass, and C5 -/

theorem alook_eq_none_of_not_mem_fst (xs : List (Nat × α)) (k : Nat)
    (h : k ∉ xs.map Prod.fst) : alook xs k = none := by
  induction xs with
  | nil => rfl
  | cons p xs ih =>
    simp only [List.map_cons, List.mem_cons] at h
    push_neg at h
    simp only [alook]
    rw [if_neg (fun he => h.1 he.symm)]
    exact ih h.2

theorem alook_aerase_self (xs : List (Nat × α)) (k : Nat)
    (hnd : (xs.map Prod.fst).Nodup) : alook (aerase xs k) k = none := by
  induction xs with
  | nil => rfl
  | cons p xs ih =>
    simp only [List.map_cons, List.nodup_cons] at hnd
    by_cases hp : p.1 = k
    · simp only [aerase, if_pos hp]
      apply alook_eq_none_of_not_mem_fst
      rw [← hp]
      exact hnd.1
    · simp only [aerase, if_neg hp, alook, if_neg hp]
      exact ih hnd.2

theorem apop_some (xs : List (Nat × α)) (k : Nat) (v : α) (rest : List (Nat × α))
    (h : apop xs k = some (v, rest)) :
    alook xs k = some v ∧ rest = aerase xs k := by
  unfold apop at h
  cases ha : alook xs k with
  | none => rw [ha] at h; simp at h
  | some v2 =>
    rw [ha] at h
    simp only [Option.some.injEq, Prod.mk.injEq] at h
    exact ⟨by rw [h.1], h.2.symm⟩

theorem count_cElements_zero (l : List (Nat × Int)) (a : Nat)
    (h : a ∉ l.map Prod.fst) : (cElements l).count a = 0 := by
  induction l with
  | nil => rfl
  | cons p l ih =>
    simp only [List.map_cons, List.mem_cons] at h
    push_neg at h
    simp only [cElements, List.map_cons, List.flatten_cons, List.count_append,
      List.count_replicate, beq_iff_eq]
    rw [if_neg (fun he : p.1 = a => h.1 he.symm)]
    have ht := ih h.2
    unfold cElements at ht
    omega

theorem count_cElements (l : List (Nat × Int)) (a : Nat)
    (hnd : (l.map Prod.fst).Nodup) : (cElements l).count a = (cLook l a).toNat := by
  induction l with
  | nil => rfl
  | cons p l ih =>
    simp only [List.map_cons, List.nodup_cons] at hnd
    simp only [cElements, List.map_cons, List.flatten_cons, List.count_append,
      List.count_replicate, beq_iff_eq]
    by_cases hp : p.1 = a
    · rw [if_pos hp]
      have hz := count_cElements_zero l a (by rw [← hp]; exact hnd.1)
      unfold cElements at hz
      rw [hz]
      simp only [cLook, alook, if_pos hp, Option.getD_some]
      omega
    · rw [if_neg hp]
      have ht := ih hnd.2
      unfold cElements cLook at ht
      simp only [cLook, alook, if_neg hp]
      omega

theorem cntK_le_members_count (κ : MMKind) (l : ItemsOf κ) (a : Nat) (hwf : WFits κ l) :
    cntK κ l a ≤ ((membersK κ l).count a : Int) := by
  cases κ
  case list | checkedList => exact le_of_eq rfl
  case set =>
    simp only [cntK, membersK]
    by_cases hm : a ∈ l
    · rw [if_pos hm]
      have : 0 < l.count a := List.count_pos_iff.mpr hm
      omega
    · rw [if_neg hm]
      positivity
  case counter =>
    simp only [cntK, membersK]
    rw [count_cElements l a hwf]
    exact Int.self_le_toNat _

theorem sitems_setSide_neg (m : M2M kl kr) (b : Bool)
    (v : List (Nat × ItemsOf (sideKind b kl kr))) (k' : Nat) :
    sitems (setSide m b v) (!b) k' = sitems m (!b) k' := by
  unfold sitems
  rw [getSide_setSide_neg]

/-- Count effect of a successful pass 1 of `_unlink_all`: on the
opposite side, the own key loses exactly the batch multiplicity of each
batch item; all other counts are unchanged; well-formedness is kept. -/
theorem mmUnlinkPass1_spec (b : Bool) (k : Nat) (xs : List Nat) (s s1 : St kl kr)
    (h : mmUnlinkPass1 b k xs s = .ok s1)
    (hwf : ∀ k', WFits (sideKind (!b) kl kr) (sitems s.m (!b) k')) :
    (∀ a, cnt s1.m (!b) a k = cnt s.m (!b) a k - (xs.count a : Int)) ∧
    (∀ a x, x ≠ k → cnt s1.m (!b) a x = cnt s.m (!b) a x) ∧
    (∀ k', WFits (sideKind (!b) kl kr) (sitems s1.m (!b) k')) := by
  induction xs generalizing s with
  | nil =>
    simp only [mmUnlinkPass1, List.foldlM_nil] at h
    simp only [pure, Except.pure, Except.ok.injEq] at h
    subst h
    exact ⟨fun a => by simp, fun a x _ => rfl, hwf⟩
  | cons x xs ih =>
    simp only [mmUnlinkPass1, List.foldlM_cons] at h
    obtain ⟨sa, hstep, hrest⟩ := exceptBind_ok h
    obtain ⟨l2, hprim, hm, htr⟩ := mmUnlink_ok _ _ _ _ _ _ hstep
    obtain ⟨heq, hoth⟩ := removePrim_ok_cnt _ _ _ _ hprim (hwf x)
    have hwfl2 := removePrim_ok_WFits _ _ _ _ hprim (hwf x)
    have hwfa : ∀ k', WFits (sideKind (!b) kl kr) (sitems sa.m (!b) k') := by
      intro k'
      rw [hm]
      by_cases hk : k' = x
      · subst hk
        rw [sitems_setItems_self]
        exact hwfl2
      · rw [sitems_setItems_ne _ _ _ _ _ hk, sitems_touch]
        exact hwf k'
    obtain ⟨ih1, ih2, ih3⟩ := ih sa hrest (by exact hwfa)
    have hcnt_a : ∀ a, cnt sa.m (!b) a k =
        cnt s.m (!b) a k - (if a = x then 1 else 0) := by
      intro a
      rw [hm]
      by_cases ha : a = x
      · subst ha
        rw [cnt_setItems_self, if_pos rfl]
        exact heq
      · rw [cnt_setItems_ne _ _ _ _ _ ha, cnt_touch, if_neg ha]
        simp
    have hcnt_o : ∀ a x', x' ≠ k → cnt sa.m (!b) a x' = cnt s.m (!b) a x' := by
      intro a x' hx'
      rw [hm]
      by_cases ha : a = x
      · subst ha
        rw [cnt_setItems_self]
        exact hoth x' hx'
      · rw [cnt_setItems_ne _ _ _ _ _ ha, cnt_touch]
    refine ⟨?_, ?_, ih3⟩
    · intro a
      rw [ih1 a, hcnt_a a]
      by_cases ha : a = x
      · subst ha
        rw [List.count_cons_self, if_pos rfl]
        push_cast
        ring
      · rw [List.count_cons_of_ne ha, if_neg ha]
        ring
    · intro a x' hx'
      rw [ih2 a x' hx', hcnt_o a x' hx']

theorem WF_keys (m : M2M kl kr) (hwf : WF m) (b : Bool) :
    ((getSide m b).map Prod.fst).Nodup := by
  cases b
  · exact hwf.2.1
  · exact hwf.1

/-- C5, amended: `del side[key]` removes the entry from the index
*first* and then unlinks via `clear` — the opposite of the claimed
order.  At every callback fired during the deletion the deleted key is
already absent from its own index (any variant), and when the deleted
side is not a counter no opposite side still lists it (every reciprocal
count is ≤ 0).  For a counter side the unlink batch `list(Counter)`
holds each key only once, so a key stored with count ≥ 2 keeps a
positive reciprocal count at those callbacks and afterwards. -/
theorem c5_sidedel_amended (b : Bool) (k : Nat) (s : St kl kr)
    (hsym : Sym s.m) (hwf : WF s.m) :
    ∀ s', opSideDel b k s = .ok s' →
      ∀ n ∈ newTr s s',
        alook (getSide n.snap b) k = none ∧
        (sideKind b kl kr ≠ .counter → ∀ a, cnt n.snap (!b) a k ≤ 0) := by
  intro s' h
  simp only [opSideDel] at h
  cases hpop : apop (getSide s.m b) k with
  | none => rw [hpop] at h; simp at h
  | some p =>
    obtain ⟨its, rest⟩ := p
    rw [hpop] at h
    obtain ⟨halook, hrest⟩ := apop_some _ _ _ _ hpop
    obtain ⟨s1, h1, h2⟩ := exceptBind_ok h
    simp only [pure, Except.pure, Except.ok.injEq] at h2
    simp only [mmUnlinkAll] at h1
    obtain ⟨s1p, h1p, hnp⟩ := exceptBind_ok h1
    simp only [pure, Except.pure, Except.ok.injEq] at hnp
    obtain ⟨htr, hown, hpres, _⟩ := mmUnlinkPass1_tr _ _ _ _ _ h1p
    have hwf0 : ∀ k', WFits (sideKind (!b) kl kr)
        (sitems ({ s with m := setSide s.m b rest } : St kl kr).m (!b) k') := by
      intro k'
      simp only
      rw [sitems_setSide_neg]
      exact hwf.2.2 (!b) k'
    obtain ⟨hc1, _, _⟩ := mmUnlinkPass1_spec _ _ _ _ _ h1p hwf0
    obtain ⟨hm, htr2⟩ := mmNotifyPass_facts b (iterK (sideKind b kl kr) its) s1p hpres
    subst h2
    subst hnp
    have habs : alook (getSide s1p.m b) k = none := by
      rw [hown]
      simp only
      rw [getSide_setSide_self, hrest]
      exact alook_aerase_self _ _ (WF_keys s.m hwf b)
    have hneg : sideKind b kl kr ≠ .counter → ∀ a, cnt s1p.m (!b) a k ≤ 0 := by
      intro hκc a
      have hb := hc1 a
      rw [iterK_eq_membersK _ hκc its] at hb
      rw [hb]
      simp only
      rw [show cnt (setSide s.m b rest) (!b) a k = cnt s.m (!b) a k from by
        unfold cnt; rw [sitems_setSide_neg]]
      rw [← sym_flip s.m hsym b k a]
      have hsit : sitems s.m b k = its := sitems_eq_of_alook s.m b k its halook
      have hle := cntK_le_members_count (sideKind b kl kr) its a (by
        rw [← hsit]; exact hwf.2.2 b k)
      rw [show cnt s.m b k a = cntK (sideKind b kl kr) its a from by
        unfold cnt; rw [hsit]]
      omega
    intro n hn
    simp only [notifSt, newTr] at hn
    rw [htr2, htr] at hn
    simp only [List.append_assoc] at hn
    rw [List.drop_left] at hn
    simp only [List.mem_append, List.mem_map, List.mem_singleton] at hn
    rcases hn with ⟨x, _, rfl⟩ | rfl
    · exact ⟨habs, hneg⟩
    · simp only [hm]
      exact ⟨habs, hneg⟩

theorem cntK_set_eq (l : List Nat) (a : Nat) :
    cntK .set l a = if a ∈ l then 1 else 0 := rfl

/-- Witness for C5 on a one-link set–set relation. -/
theorem c5_sidedel_amended_witness :
    Sym extSetM ∧ WF extSetM ∧
    (∀ n ∈ newTr extSetSt delSetSt,
      alook (getSide n.snap true) 1 = none ∧
      (sideKind true .set .set ≠ .counter → ∀ a, cnt n.snap false a 1 ≤ 0)) := by
  have hsym : Sym extSetM := by
    intro k a
    by_cases hk : k = 1 <;> by_cases ha : a = 5 <;>
      simp [extSetM, cnt, sitems, getSide, alook, cntK_set_eq, sideKind_true, sideKind_false,
        kindEmpty, hk, ha, eq_comm, List.mem_singleton, List.not_mem_nil]
  have hwf : WF extSetM := by
    refine ⟨by decide, by decide, ?_⟩
    intro b' k'
    cases b'
    · by_cases hk : k' = 5 <;>
        simp [WFits, extSetM, sitems, getSide, alook, kindEmpty, hk, eq_comm]
    · by_cases hk : k' = 1 <;>
        simp [WFits, extSetM, sitems, getSide, alook, kindEmpty, hk, eq_comm]
  have happ : opSideDel true 1 extSetSt = .ok delSetSt := rfl
  exact ⟨hsym, hwf, c5_sidedel_amended true 1 extSetSt hsym hwf delSetSt happ⟩

/-! ### Generic machinery for the symmetry invariant (C1)

Every mutating operation acts on one relation slot `(b, k)` and mirrors
its structural effect on the opposite side: the own container's count of
each related key `a` changes by some `f a`, and the opposite container
of each `a` changes its count of `k` by the same `f a`.  `Sym_shift`
captures that this shape preserves the counted symmetry invariant. -/

theorem Sym_shift (m m2 : M2M kl kr) (b : Bool) (k : Nat) (f : Nat → Int)
    (hself : ∀ x, cnt m2 b k x = cnt m b k x + f x)
    (hself2 : ∀ k2 x, k2 ≠ k → cnt m2 b k2 x = cnt m b k2 x)
    (hopp : ∀ a, cnt m2 (!b) a k = cnt m (!b) a k + f a)
    (hopp2 : ∀ a x, x ≠ k → cnt m2 (!b) a x = cnt m (!b) a x)
    (hs : Sym m) : Sym m2 := by
  intro p q
  have hpq := hs p q
  cases b
  case true =>
    simp only [Bool.not_true] at hopp hopp2
    by_cases hp : p = k
    · subst hp
      rw [hself q, hopp q]
      omega
    · rw [hself2 p q hp, hopp2 q p hp]
      exact hpq
  case false =>
    simp only [Bool.not_false] at hopp hopp2
    by_cases hq : q = k
    · subst hq
      rw [hself p, hopp p]
      omega
    · rw [hself2 q p hq, hopp2 p q hq]
      exact hpq

theorem sitems_eq_of_getSide_eq (m m2 : M2M kl kr) (b : Bool)
    (h : getSide m2 b = getSide m b) (k : Nat) : sitems m2 b k = sitems m b k := by
  unfold sitems
  rw [h]

theorem cnt_eq_of_getSide_eq (m m2 : M2M kl kr) (b : Bool)
    (h : getSide m2 b = getSide m b) (k x : Nat) : cnt m2 b k x = cnt m b k x := by
  unfold cnt
  rw [sitems_eq_of_getSide_eq m m2 b h k]

theorem cntK_kindEmpty (κ : MMKind) (a : Nat) : cntK κ (kindEmpty κ) a = 0 := by
  cases κ <;> rfl

theorem cntK_nonneg (κ : MMKind) (hκ : κ ≠ .counter) (l : ItemsOf κ) (a : Nat) :
    0 ≤ cntK κ l a := by
  cases κ
  case counter => exact absurd rfl hκ
  case list | checkedList => exact Int.natCast_nonneg _
  case set =>
    simp only [cntK]
    by_cases hm : a ∈ l
    · rw [if_pos hm]
      decide
    · rw [if_neg hm]

theorem cnt_nonneg_of_not_counter (m : M2M kl kr) (b : Bool) (k a : Nat)
    (h : sideKind b kl kr ≠ .counter) : 0 ≤ cnt m b k a :=
  cntK_nonneg _ h _ _

/-- If the opposite side tracks a non-negative count (any non-counter
variant), symmetry forces the own count to be non-negative too. -/
theorem cnt_own_nonneg (m : M2M kl kr) (hs : Sym m) (b : Bool) (k a : Nat)
    (hopp : sideKind (!b) kl kr ≠ .counter) : 0 ≤ cnt m b k a := by
  rw [sym_flip m hs b k a]
  exact cnt_nonneg_of_not_counter m (!b) a k hopp

theorem cntK_set_zero_iff (l : List Nat) (a : Nat) : cntK .set l a = 0 ↔ a ∉ l := by
  simp only [cntK]
  by_cases hm : a ∈ l
  · rw [if_pos hm]
    simp [hm]
  · rw [if_neg hm]
    simp [hm]

theorem cntK_zero_of_set_not_mem (κ : MMKind) (hκ : κ = .set) (l : ItemsOf κ) (a : Nat)
    (h : a ∉ membersK κ l) : cntK κ l a = 0 := by
  subst hκ
  exact (cntK_set_zero_iff l a).mpr h

theorem set_not_mem_of_cntK_zero (κ : MMKind) (hκ : κ = .set) (l : ItemsOf κ) (a : Nat)
    (h : cntK κ l a = 0) : a ∉ membersK κ l := by
  subst hκ
  exact (cntK_set_zero_iff l a).mp h

/-- The batch multiplicity a container contributes when iterated equals
its count, for well-formed containers with non-negative counts. -/
theorem members_count_eq_cnt (κ : MMKind) (l : ItemsOf κ) (a : Nat)
    (hwf : WFits κ l) (hnn : 0 ≤ cntK κ l a) :
    ((membersK κ l).count a : Int) = cntK κ l a := by
  cases κ
  case list | checkedList => rfl
  case set =>
    simp only [membersK, cntK]
    by_cases hm : a ∈ l
    · rw [if_pos hm]
      have hle := List.nodup_iff_count_le_one.mp hwf a
      have hpos := List.count_pos_iff.mpr hm
      have h1 : l.count a = 1 := by omega
      rw [h1]
      rfl
    · rw [if_neg hm, List.count_eq_zero.mpr hm]
      rfl
  case counter =>
    simp only [membersK, cntK] at hnn ⊢
    rw [count_cElements l a hwf]
    omega

theorem mem_membersK_iff_cnt_pos (κ : MMKind) (l : ItemsOf κ) (hwf : WFits κ l) (a : Nat) :
    a ∈ membersK κ l ↔ 0 < cntK κ l a := by
  cases κ
  case list | checkedList =>
    simp only [membersK, cntK]
    rw [← List.count_pos_iff]
    omega
  case set =>
    simp only [membersK, cntK]
    by_cases hm : a ∈ l
    · rw [if_pos hm]
      simp [hm]
    · rw [if_neg hm]
      simp [hm]
  case counter =>
    simp only [membersK, cntK]
    rw [← List.count_pos_iff, count_cElements l a hwf]
    omega

/-! ### Kind bookkeeping for the safe combinations -/

theorem goodKinds_opp_of_set (hmix : ¬ mixedKinds kl kr) (b : Bool)
    (h : sideKind b kl kr = .set) :
    sideKind (!b) kl kr = .set ∨ sideKind (!b) kl kr = .checkedList := by
  cases b
  case true =>
    simp only [sideKind_true] at h
    subst h
    simp only [Bool.not_true, sideKind_false]
    cases kr
    case list => exact absurd (Or.inl ⟨rfl, Or.inl rfl⟩) hmix
    case counter => exact absurd (Or.inl ⟨rfl, Or.inr rfl⟩) hmix
    case set => exact Or.inl rfl
    case checkedList => exact Or.inr rfl
  case false =>
    simp only [sideKind_false] at h
    subst h
    simp only [Bool.not_false, sideKind_true]
    cases kl
    case list => exact absurd (Or.inr ⟨rfl, Or.inl rfl⟩) hmix
    case counter => exact absurd (Or.inr ⟨rfl, Or.inr rfl⟩) hmix
    case set => exact Or.inl rfl
    case checkedList => exact Or.inr rfl

theorem goodKinds_opp_of_counter (hmix : ¬ mixedKinds kl kr)
    (hcc : ¬ (kl = .counter ∧ kr = .counter)) (b : Bool)
    (h : sideKind b kl kr = .counter) :
    sideKind (!b) kl kr = .list ∨ sideKind (!b) kl kr = .checkedList := by
  cases b
  case true =>
    simp only [sideKind_true] at h
    subst h
    simp only [Bool.not_true, sideKind_false]
    cases kr
    case set => exact absurd (Or.inr ⟨rfl, Or.inr rfl⟩) hmix
    case counter => exact absurd ⟨rfl, rfl⟩ hcc
    case list => exact Or.inl rfl
    case checkedList => exact Or.inr rfl
  case false =>
    simp only [sideKind_false] at h
    subst h
    simp only [Bool.not_false, sideKind_true]
    cases kl
    case set => exact absurd (Or.inl ⟨rfl, Or.inr rfl⟩) hmix
    case counter => exact absurd ⟨rfl, rfl⟩ hcc
    case list => exact Or.inl rfl
    case checkedList => exact Or.inr rfl

theorem goodKinds_opp_ne_counter (hmix : ¬ mixedKinds kl kr)
    (hcc : ¬ (kl = .counter ∧ kr = .counter)) (b : Bool)
    (h : sideKind b kl kr = .counter) : sideKind (!b) kl kr ≠ .counter := by
  rcases goodKinds_opp_of_counter hmix hcc b h with h2 | h2 <;> simp [h2]

theorem goodKinds_opp_ne_set_of_counter (hmix : ¬ mixedKinds kl kr)
    (hcc : ¬ (kl = .counter ∧ kr = .counter)) (b : Bool)
    (h : sideKind b kl kr = .counter) : sideKind (!b) kl kr ≠ .set := by
  rcases goodKinds_opp_of_counter hmix hcc b h with h2 | h2 <;> simp [h2]

theorem goodKinds_own_of_opp_set (hmix : ¬ mixedKinds kl kr) (b : Bool)
    (h : sideKind (!b) kl kr = .set) :
    sideKind b kl kr = .set ∨ sideKind b kl kr = .checkedList := by
  have := goodKinds_opp_of_set hmix (!b) h
  rwa [Bool.not_not] at this

/-! ### Count effects and well-formedness of the structural primitives -/

theorem count_append_single (l : List Nat) (a x : Nat) :
    ((l ++ [a]).count x : Int) = (l.count x : Int) + (if x = a then 1 else 0) := by
  rw [List.count_append]
  by_cases hx : x = a
  · subst hx
    rw [if_pos rfl]
    simp
  · rw [if_neg hx]
    rw [List.count_singleton']
    rw [if_neg (by simpa using Ne.symm hx)]
    simp

theorem setAdd_nodup (l : List Nat) (a : Nat) (h : l.Nodup) : (setAdd l a).Nodup := by
  unfold setAdd
  by_cases hm : a ∈ l
  · rwa [if_pos hm]
  · rw [if_neg hm]
    rw [List.nodup_append]
    refine ⟨h, List.nodup_singleton a, ?_⟩
    intro x hx hx2
    rw [List.mem_singleton] at hx2
    subst hx2
    exact hm hx

theorem setUpdate_nodup (l xs : List Nat) (h : l.Nodup) : (setUpdate l xs).Nodup := by
  induction xs generalizing l with
  | nil => exact h
  | cons y ys ih =>
    simp only [setUpdate, List.foldl_cons]
    exact ih (setAdd l y) (setAdd_nodup l y h)

theorem setFromList_nodup (xs : List Nat) : (setFromList xs).Nodup :=
  setUpdate_nodup [] xs List.nodup_nil

theorem cUpdate_keys_nodup (l : List (Nat × Int)) (xs : List Nat)
    (h : (l.map Prod.fst).Nodup) : ((cUpdate l xs).map Prod.fst).Nodup := by
  induction xs generalizing l with
  | nil => exact h
  | cons y ys ih =>
    simp only [cUpdate, List.foldl_cons]
    exact ih (cAdd l y 1) (WFits_cAdd l y 1 h)

theorem cFromList_keys_nodup (xs : List Nat) : ((cFromList xs).map Prod.fst).Nodup :=
  cUpdate_keys_nodup [] xs List.nodup_nil

theorem cLook_cUpdate (l : List (Nat × Int)) (xs : List Nat) (x : Nat) :
    cLook (cUpdate l xs) x = cLook l x + (xs.count x : Int) := by
  induction xs generalizing l with
  | nil => simp [cUpdate]
  | cons y ys ih =>
    simp only [cUpdate, List.foldl_cons]
    have := ih (cAdd l y 1)
    simp only [cUpdate] at this
    rw [this]
    by_cases hx : x = y
    · subst hx
      rw [cLook_cAdd_self, List.count_cons_self]
      push_cast
      ring
    · rw [cLook_cAdd_ne _ _ _ _ hx, List.count_cons_of_ne hx]

theorem cLook_cFromList (xs : List Nat) (x : Nat) :
    cLook (cFromList xs) x = (xs.count x : Int) := by
  have := cLook_cUpdate [] xs x
  simpa [cLook, alook] using this

theorem nodup_of_dupKeys_len (l : List Nat) (h : (dupKeys l).length = 0) : l.Nodup := by
  rw [List.nodup_iff_count_le_one]
  intro a
  by_contra hc
  push_neg at hc
  exact absurd (dupKeys_pos l ⟨a, hc⟩) (by omega)

/-- Inversion of a successful checked `_append`: the push happened and
left no duplicate, so the appended key was fresh. -/
theorem appendPrim_checked_fresh (κ : MMKind) (hκ : κ = .checkedList)
    (l l2 : ItemsOf κ) (a : Nat) (h : appendPrim κ l a = .ok l2) :
    cntK κ l a = 0 := by
  subst hκ
  simp only [appendPrim] at h
  by_cases hd : (dupKeys (l ++ [a])).length > 0
  · rw [if_pos hd] at h
    exact absurd h (by simp)
  · have hnd : (l ++ [a]).Nodup := nodup_of_dupKeys_len _ (by omega)
    have hle := List.nodup_iff_count_le_one.mp hnd a
    rw [List.count_append] at hle
    have h1 : List.count a [a] = 1 := by
      rw [List.count_singleton a a]
      simp
    rw [h1] at hle
    simp only [cntK]
    omega

/-- Inversion of a successful checked `_extend`: the batch itself is
duplicate-free and disjoint from the prior contents. -/
theorem extendPrim_checked_fresh (κ : MMKind) (hκ : κ = .checkedList)
    (l l2 : ItemsOf κ) (xs : List Nat) (h : extendPrim κ l xs = .ok l2) :
    xs.Nodup ∧ ∀ x ∈ xs, cntK κ l x = 0 := by
  subst hκ
  simp only [extendPrim] at h
  by_cases hd : (dupKeys (l ++ xs)).length > 0
  · rw [if_pos hd] at h
    exact absurd h (by simp)
  · have hnd : (l ++ xs).Nodup := nodup_of_dupKeys_len _ (by omega)
    rw [List.nodup_append] at hnd
    refine ⟨hnd.2.1, ?_⟩
    intro x hx
    simp only [cntK, Int.natCast_eq_zero]
    rw [List.count_eq_zero]
    intro hxl
    exact hnd.2.2 hxl hx

/-- Count effect of a successful `_append` (for a set, assuming the
item is not yet present — the callers establish this). -/
theorem appendPrim_ok_cnt (κ : MMKind) (l l2 : ItemsOf κ) (a : Nat)
    (h : appendPrim κ l a = .ok l2) (hset : κ = .set → cntK κ l a = 0) :
    ∀ x, cntK κ l2 x = cntK κ l x + (if x = a then 1 else 0) := by
  intro x
  cases κ
  case list =>
    simp only [appendPrim, Except.ok.injEq] at h
    subst h
    exact count_append_single l a x
  case checkedList =>
    simp only [appendPrim] at h
    by_cases hd : (dupKeys (l ++ [a])).length > 0
    · rw [if_pos hd] at h
      exact absurd h (by simp)
    · rw [if_neg hd] at h
      simp only [Except.ok.injEq] at h
      subst h
      exact count_append_single l a x
  case set =>
    have hm : a ∉ l := (cntK_set_zero_iff l a).mp (hset rfl)
    simp only [appendPrim, Except.ok.injEq] at h
    subst h
    simp only [cntK, setAdd, if_neg hm]
    by_cases hx : x = a
    · subst hx
      rw [if_pos (List.mem_append.mpr (Or.inr (List.mem_singleton.mpr rfl))),
        if_neg hm, if_pos rfl]
      decide
    · rw [if_neg hx]
      by_cases hxl : x ∈ l
      · rw [if_pos (List.mem_append.mpr (Or.inl hxl)), if_pos hxl]
        decide
      · rw [if_neg (fun hc => by
            rcases List.mem_append.mp hc with hc2 | hc2
            · exact hxl hc2
            · exact hx (List.mem_singleton.mp hc2)), if_neg hxl]
        decide
  case counter =>
    simp only [appendPrim, Except.ok.injEq] at h
    subst h
    by_cases hx : x = a
    · subst hx
      rw [if_pos rfl]
      exact cLook_cAdd_self l x 1
    · rw [if_neg hx]
      simp only [cntK]
      rw [cLook_cAdd_ne _ _ _ _ hx]
      simp

theorem appendPrim_ok_WFits (κ : MMKind) (l l2 : ItemsOf κ) (a : Nat)
    (h : appendPrim κ l a = .ok l2) (hwf : WFits κ l) : WFits κ l2 := by
  cases κ
  case list | checkedList => trivial
  case set =>
    simp only [appendPrim, Except.ok.injEq] at h
    subst h
    exact setAdd_nodup l a hwf
  case counter =>
    simp only [appendPrim, Except.ok.injEq] at h
    subst h
    exact WFits_cAdd l a 1 hwf

theorem mem_setUpdate (l xs : List Nat) (x : Nat) :
    x ∈ setUpdate l xs ↔ x ∈ l ∨ x ∈ xs := by
  unfold setUpdate
  exact mem_foldl_setAdd xs l x

theorem count_append_int (l1 l2 : List Nat) (x : Nat) :
    ((l1 ++ l2).count x : Int) = (l1.count x : Int) + (l2.count x : Int) := by
  rw [List.count_append]
  push_cast
  ring

/-- Count effect of a successful `_extend` (for a set, assuming the
batch is duplicate-free and disjoint from the contents). -/
theorem extendPrim_ok_cnt (κ : MMKind) (l l2 : ItemsOf κ) (xs : List Nat)
    (h : extendPrim κ l xs = .ok l2)
    (hset : κ = .set → xs.Nodup ∧ ∀ x ∈ xs, cntK κ l x = 0) :
    ∀ x, cntK κ l2 x = cntK κ l x + (xs.count x : Int) := by
  intro x
  cases κ
  case list =>
    simp only [extendPrim, Except.ok.injEq] at h
    subst h
    exact count_append_int l xs x
  case checkedList =>
    simp only [extendPrim] at h
    by_cases hd : (dupKeys (l ++ xs)).length > 0
    · rw [if_pos hd] at h
      exact absurd h (by simp)
    · rw [if_neg hd] at h
      simp only [Except.ok.injEq] at h
      subst h
      exact count_append_int l xs x
  case set =>
    obtain ⟨hnd, hdisj⟩ := hset rfl
    simp only [extendPrim, Except.ok.injEq] at h
    subst h
    simp only [cntK]
    by_cases hxl : x ∈ l
    · rw [if_pos ((mem_setUpdate l xs x).mpr (Or.inl hxl)), if_pos hxl]
      have hxz : x ∉ xs := by
        intro hx
        have := (cntK_set_zero_iff l x).mp (hdisj x hx)
        exact this hxl
      rw [List.count_eq_zero.mpr hxz]
      simp
    · by_cases hxxs : x ∈ xs
      · rw [if_pos ((mem_setUpdate l xs x).mpr (Or.inr hxxs)), if_neg hxl]
        have hle := List.nodup_iff_count_le_one.mp hnd x
        have hpos := List.count_pos_iff.mpr hxxs
        have h1 : xs.count x = 1 := by omega
        rw [h1]
        simp
      · rw [if_neg (fun hc => by
            rcases (mem_setUpdate l xs x).mp hc with hc2 | hc2
            · exact hxl hc2
            · exact hxxs hc2), if_neg hxl,
          List.count_eq_zero.mpr hxxs]
        simp
  case counter =>
    simp only [extendPrim, Except.ok.injEq] at h
    subst h
    exact cLook_cUpdate l xs x

theorem extendPrim_ok_WFits (κ : MMKind) (l l2 : ItemsOf κ) (xs : List Nat)
    (h : extendPrim κ l xs = .ok l2) (hwf : WFits κ l) : WFits κ l2 := by
  cases κ
  case list | checkedList => trivial
  case set =>
    simp only [extendPrim, Except.ok.injEq] at h
    subst h
    exact setUpdate_nodup l xs hwf
  case counter =>
    simp only [extendPrim, Except.ok.injEq] at h
    subst h
    exact cUpdate_keys_nodup l xs hwf

/-! ### Well-formedness is preserved by the state primitives -/

theorem keys_touch (m : M2M kl kr) (b : Bool) (k : Nat)
    (h : ((getSide m b).map Prod.fst).Nodup) :
    ((getSide (touch m b k) b).map Prod.fst).Nodup := by
  unfold touch
  by_cases hp : (alook (getSide m b) k).isSome
  · rwa [if_pos hp]
  · rw [if_neg hp, getSide_setSide_self]
    rw [Option.not_isSome_iff_eq_none] at hp
    rw [List.map_append, List.nodup_append]
    refine ⟨h, by simp, ?_⟩
    intro x hx hx2
    simp only [List.map_cons, List.map_nil, List.mem_singleton] at hx2
    subst hx2
    exact alook_none_not_mem_fst _ _ hp hx

theorem keys_aset (xs : List (Nat × α)) (k : Nat) (v : α)
    (h : (xs.map Prod.fst).Nodup) : ((aset xs k v).map Prod.fst).Nodup := by
  cases hs : alook xs k with
  | some w =>
    rw [aset_map_fst_of_isSome _ _ _ (by rw [hs]; rfl)]
    exact h
  | none =>
    rw [aset_map_fst_of_none _ _ _ hs]
    rw [List.nodup_append]
    refine ⟨h, by simp, ?_⟩
    intro x hx hx2
    rw [List.mem_singleton] at hx2
    subst hx2
    exact alook_none_not_mem_fst _ _ hs hx

theorem WF_touch (m : M2M kl kr) (b : Bool) (k : Nat) (h : WF m) : WF (touch m b k) := by
  obtain ⟨hT, hF, hC⟩ := h
  refine ⟨?_, ?_, fun b2 k2 => by rw [sitems_touch]; exact hC b2 k2⟩
  · show ((getSide (touch m b k) true).map Prod.fst).Nodup
    cases b
    case true => exact keys_touch m true k hT
    case false =>
      have hg : getSide (touch m false k) true = getSide m true := getSide_touch_neg m false k
      rw [hg]
      exact hT
  · show ((getSide (touch m b k) false).map Prod.fst).Nodup
    cases b
    case false => exact keys_touch m false k hF
    case true =>
      have hg : getSide (touch m true k) false = getSide m false := getSide_touch_neg m true k
      rw [hg]
      exact hF

theorem WF_setItems (m : M2M kl kr) (b : Bool) (k : Nat)
    (its : ItemsOf (sideKind b kl kr)) (h : WF m)
    (hits : WFits (sideKind b kl kr) its) : WF (setItems m b k its) := by
  obtain ⟨hT, hF, hC⟩ := h
  refine ⟨?_, ?_, ?_⟩
  · show ((getSide (setItems m b k its) true).map Prod.fst).Nodup
    cases b
    case true =>
      unfold setItems
      rw [getSide_setSide_self]
      exact keys_aset _ _ _ hT
    case false =>
      have hg : getSide (setItems m false k its) true = getSide m true :=
        getSide_setItems_neg m false k its
      rw [hg]
      exact hT
  · show ((getSide (setItems m b k its) false).map Prod.fst).Nodup
    cases b
    case false =>
      unfold setItems
      rw [getSide_setSide_self]
      exact keys_aset _ _ _ hF
    case true =>
      have hg : getSide (setItems m true k its) false = getSide m false :=
        getSide_setItems_neg m true k its
      rw [hg]
      exact hF
  · intro b2 k2
    by_cases hb : b2 = b
    · subst hb
      by_cases hk : k2 = k
      · subst hk
        rw [sitems_setItems_self]
        exact hits
      · rw [sitems_setItems_ne _ _ _ _ _ hk]
        exact hC b2 k2
    · have hb2 : b2 = !b := by
        cases b <;> cases b2 <;> simp_all
      subst hb2
      rw [sitems_setItems_neg]
      exact hC (!b) k2

theorem WFits_kindEmpty (κ : MMKind) : WFits κ (kindEmpty κ) := by
  cases κ <;> simp [WFits, kindEmpty]

/-! ### Count effects of the link pass -/

/-- Count effect of a successful pass 1 of `_link_all`: on the opposite
side, each batch item gains the batch multiplicity of the own key; all
other counts are unchanged; container well-formedness is kept.  When the
opposite side is a set the batch must be duplicate-free with no link yet
present (the callers establish this). -/
theorem mmLinkPass1_spec (b : Bool) (k : Nat) (xs : List Nat) (s s1 : St kl kr)
    (h : mmLinkPass1 b k xs s = .ok s1)
    (hwf : ∀ k2, WFits (sideKind (!b) kl kr) (sitems s.m (!b) k2))
    (hset : sideKind (!b) kl kr = .set →
      xs.Nodup ∧ ∀ a ∈ xs, cnt s.m (!b) a k = 0) :
    (∀ a, cnt s1.m (!b) a k = cnt s.m (!b) a k + (xs.count a : Int)) ∧
    (∀ a x, x ≠ k → cnt s1.m (!b) a x = cnt s.m (!b) a x) ∧
    (∀ k2, WFits (sideKind (!b) kl kr) (sitems s1.m (!b) k2)) := by
  induction xs generalizing s with
  | nil =>
    simp only [mmLinkPass1, List.foldlM_nil] at h
    simp only [pure, Except.pure, Except.ok.injEq] at h
    subst h
    exact ⟨fun a => by simp, fun a x _ => rfl, hwf⟩
  | cons x xs ih =>
    simp only [mmLinkPass1, List.foldlM_cons] at h
    obtain ⟨sa, hstep, hrest⟩ := exceptBind_ok h
    obtain ⟨l2, hprim, hm, htr⟩ := mmLink_ok _ _ _ _ _ _ hstep
    have hpre : sideKind (!b) kl kr = .set → cntK (sideKind (!b) kl kr) (sitems s.m (!b) x) k = 0 := by
      intro hs2
      exact (hset hs2).2 x (List.mem_cons_self _ _)
    have hdelta := appendPrim_ok_cnt _ _ _ _ hprim hpre
    have hwfl2 := appendPrim_ok_WFits _ _ _ _ hprim (hwf x)
    have hwfa : ∀ k2, WFits (sideKind (!b) kl kr) (sitems sa.m (!b) k2) := by
      intro k2
      rw [hm]
      by_cases hk : k2 = x
      · subst hk
        rw [sitems_setItems_self]
        exact hwfl2
      · rw [sitems_setItems_ne _ _ _ _ _ hk, sitems_touch]
        exact hwf k2
    have hcnt_a : ∀ a, cnt sa.m (!b) a k =
        cnt s.m (!b) a k + (if a = x then 1 else 0) := by
      intro a
      rw [hm]
      by_cases ha : a = x
      · subst ha
        rw [cnt_setItems_self, if_pos rfl, hdelta k, if_pos rfl]
        unfold cnt
        omega
      · rw [cnt_setItems_ne _ _ _ _ _ ha, cnt_touch, if_neg ha]
        simp
    have hcnt_o : ∀ a x2, x2 ≠ k → cnt sa.m (!b) a x2 = cnt s.m (!b) a x2 := by
      intro a x2 hx2
      rw [hm]
      by_cases ha : a = x
      · subst ha
        rw [cnt_setItems_self, hdelta x2, if_neg hx2]
        unfold cnt
        omega
      · rw [cnt_setItems_ne _ _ _ _ _ ha, cnt_touch]
    obtain ⟨ih1, ih2, ih3⟩ := ih sa hrest hwfa (by
      intro hs2
      obtain ⟨hnd, hz⟩ := hset hs2
      refine ⟨(List.nodup_cons.mp hnd).2, ?_⟩
      intro a ha
      rw [hcnt_a a, if_neg (by
        intro hc
        subst hc
        exact (List.nodup_cons.mp hnd).1 ha)]
      have := hz a (List.mem_cons_of_mem _ ha)
      omega)
    refine ⟨?_, ?_, ih3⟩
    · intro a
      rw [ih1 a, hcnt_a a]
      by_cases ha : a = x
      · subst ha
        rw [List.count_cons_self, if_pos rfl]
        push_cast
        ring
      · rw [List.count_cons_of_ne ha, if_neg ha]
        ring
    · intro a x2 hx2
      rw [ih2 a x2 hx2, hcnt_o a x2 hx2]

theorem keys_touch_setItems (m : M2M kl kr) (b : Bool) (a : Nat)
    (l2 : ItemsOf (sideKind b kl kr)) (h : ((getSide m b).map Prod.fst).Nodup) :
    ((getSide (setItems (touch m b a) b a l2) b).map Prod.fst).Nodup := by
  unfold setItems
  rw [getSide_setSide_self]
  exact keys_aset _ _ _ (keys_touch m b a h)

theorem mmLinkPass1_keys (b : Bool) (k : Nat) (xs : List Nat) (s s1 : St kl kr)
    (h : mmLinkPass1 b k xs s = .ok s1)
    (hnd : ((getSide s.m (!b)).map Prod.fst).Nodup) :
    ((getSide s1.m (!b)).map Prod.fst).Nodup := by
  induction xs generalizing s with
  | nil =>
    simp only [mmLinkPass1, List.foldlM_nil] at h
    simp only [pure, Except.pure, Except.ok.injEq] at h
    subst h
    exact hnd
  | cons x xs ih =>
    simp only [mmLinkPass1, List.foldlM_cons] at h
    obtain ⟨sa, hstep, hrest⟩ := exceptBind_ok h
    obtain ⟨l2, hprim, hm, htr⟩ := mmLink_ok _ _ _ _ _ _ hstep
    refine ih sa hrest ?_
    rw [hm]
    exact keys_touch_setItems _ _ _ _ hnd

theorem mmUnlinkPass1_keys (b : Bool) (k : Nat) (xs : List Nat) (s s1 : St kl kr)
    (h : mmUnlinkPass1 b k xs s = .ok s1)
    (hnd : ((getSide s.m (!b)).map Prod.fst).Nodup) :
    ((getSide s1.m (!b)).map Prod.fst).Nodup := by
  induction xs generalizing s with
  | nil =>
    simp only [mmUnlinkPass1, List.foldlM_nil] at h
    simp only [pure, Except.pure, Except.ok.injEq] at h
    subst h
    exact hnd
  | cons x xs ih =>
    simp only [mmUnlinkPass1, List.foldlM_cons] at h
    obtain ⟨sa, hstep, hrest⟩ := exceptBind_ok h
    obtain ⟨l2, hprim, hm, htr⟩ := mmUnlink_ok _ _ _ _ _ _ hstep
    refine ih sa hrest ?_
    rw [hm]
    exact keys_touch_setItems _ _ _ _ hnd

/-- The full `_link_all` (structural pass, then notifications): count
deltas on the opposite side, own side untouched, well-formedness kept. -/
theorem mmLinkAll_spec (b : Bool) (k : Nat) (xs : List Nat) (s s2 : St kl kr)
    (h : mmLinkAll b k xs s = .ok s2)
    (hwf : ∀ k2, WFits (sideKind (!b) kl kr) (sitems s.m (!b) k2))
    (hset : sideKind (!b) kl kr = .set → xs.Nodup ∧ ∀ a ∈ xs, cnt s.m (!b) a k = 0)
    (hnd : ((getSide s.m (!b)).map Prod.fst).Nodup) :
    (∀ a, cnt s2.m (!b) a k = cnt s.m (!b) a k + (xs.count a : Int)) ∧
    (∀ a x, x ≠ k → cnt s2.m (!b) a x = cnt s.m (!b) a x) ∧
    (∀ k2, WFits (sideKind (!b) kl kr) (sitems s2.m (!b) k2)) ∧
    getSide s2.m b = getSide s.m b ∧
    ((getSide s2.m (!b)).map Prod.fst).Nodup := by
  unfold mmLinkAll at h
  obtain ⟨s1, h1, h2⟩ := exceptBind_ok h
  simp only [pure, Except.pure, Except.ok.injEq] at h2
  obtain ⟨htr, hown, hpres, _⟩ := mmLinkPass1_tr _ _ _ _ _ h1
  obtain ⟨hm, htr2⟩ := mmNotifyPass_facts b xs s1 hpres
  obtain ⟨hc1, hc2, hc3⟩ := mmLinkPass1_spec _ _ _ _ _ h1 hwf hset
  have hk := mmLinkPass1_keys _ _ _ _ _ h1 hnd
  subst h2
  rw [hm]
  exact ⟨hc1, hc2, hc3, hown, hk⟩

/-- The full `_unlink_all`: mirror image of `mmLinkAll_spec`. -/
theorem mmUnlinkAll_spec (b : Bool) (k : Nat) (xs : List Nat) (s s2 : St kl kr)
    (h : mmUnlinkAll b k xs s = .ok s2)
    (hwf : ∀ k2, WFits (sideKind (!b) kl kr) (sitems s.m (!b) k2))
    (hnd : ((getSide s.m (!b)).map Prod.fst).Nodup) :
    (∀ a, cnt s2.m (!b) a k = cnt s.m (!b) a k - (xs.count a : Int)) ∧
    (∀ a x, x ≠ k → cnt s2.m (!b) a x = cnt s.m (!b) a x) ∧
    (∀ k2, WFits (sideKind (!b) kl kr) (sitems s2.m (!b) k2)) ∧
    getSide s2.m b = getSide s.m b ∧
    ((getSide s2.m (!b)).map Prod.fst).Nodup := by
  unfold mmUnlinkAll at h
  obtain ⟨s1, h1, h2⟩ := exceptBind_ok h
  simp only [pure, Except.pure, Except.ok.injEq] at h2
  obtain ⟨htr, hown, hpres, _⟩ := mmUnlinkPass1_tr _ _ _ _ _ h1
  obtain ⟨hm, htr2⟩ := mmNotifyPass_facts b xs s1 hpres
  obtain ⟨hc1, hc2, hc3⟩ := mmUnlinkPass1_spec _ _ _ _ _ h1 hwf
  have hk := mmUnlinkPass1_keys _ _ _ _ _ h1 hnd
  subst h2
  rw [hm]
  exact ⟨hc1, hc2, hc3, hown, hk⟩

theorem WF_of_sides (m : M2M kl kr) (b : Bool)
    (h1 : ((getSide m b).map Prod.fst).Nodup)
    (h2 : ((getSide m (!b)).map Prod.fst).Nodup)
    (h3 : ∀ k, WFits (sideKind b kl kr) (sitems m b k))
    (h4 : ∀ k, WFits (sideKind (!b) kl kr) (sitems m (!b) k)) : WF m := by
  cases b
  case true =>
    refine ⟨h1, h2, ?_⟩
    intro b2 k
    cases b2
    case true => exact h3 k
    case false => exact h4 k
  case false =>
    refine ⟨h2, h1, ?_⟩
    intro b2 k
    cases b2
    case true => exact h4 k
    case false => exact h3 k

/-! ### The operations preserve symmetry and well-formedness (C1) -/

theorem Sym_touch (m : M2M kl kr) (b : Bool) (k : Nat) (h : Sym m) : Sym (touch m b k) := by
  intro p q
  rw [cnt_touch, cnt_touch]
  exact h p q

/-- `clear` on a non-counter side keeps the invariants and empties the
cleared slot (on a counter side the once-per-key unlink batch drops
multiplicities and the invariant can break). -/
theorem mmClearCore_preserves (b : Bool) (k : Nat) (nfy : Bool) (s s2 : St kl kr)
    (hκc : sideKind b kl kr ≠ .counter)
    (hsym : Sym s.m) (hwf : WF s.m)
    (h : mmClearCore b k nfy s = .ok s2) :
    Sym s2.m ∧ WF s2.m ∧ (∀ x, cnt s2.m b k x = 0) := by
  unfold mmClearCore at h
  obtain ⟨s1, h1, h2⟩ := exceptBind_ok h
  simp only [pure, Except.pure, Except.ok.injEq] at h2
  have hm2 : s2.m = setItems s1.m b k (kindEmpty (sideKind b kl kr)) := by
    cases nfy
    · rw [if_neg (by decide)] at h2
      rw [← h2]
    · rw [if_pos rfl] at h2
      rw [← h2]
      rfl
  obtain ⟨hc1, hc2, hc3, hown, hknd⟩ := mmUnlinkAll_spec _ _ _ _ _ h1
    (fun k2 => hwf.2.2 (!b) k2) (WF_keys s.m hwf (!b))
  have hnn : ∀ a, 0 ≤ cnt s.m b k a := fun a =>
    cnt_nonneg_of_not_counter s.m b k a hκc
  have hbatch : ∀ a, ((iview s.m b k).count a : Int) = cnt s.m b k a := fun a => by
    rw [iview_eq_mview s.m b k hκc]
    exact members_count_eq_cnt _ _ a (hwf.2.2 b k) (hnn a)
  have hzero : ∀ x, cnt s2.m b k x = 0 := by
    intro x
    rw [hm2, cnt_setItems_self, cntK_kindEmpty]
  have hwf1 : WF s1.m := by
    refine WF_of_sides s1.m b ?_ ?_ ?_ ?_
    · rw [hown]
      exact WF_keys s.m hwf b
    · exact hknd
    · intro k2
      rw [sitems_eq_of_getSide_eq _ _ _ hown k2]
      exact hwf.2.2 b k2
    · exact hc3
  refine ⟨?_, ?_, hzero⟩
  · refine Sym_shift s.m s2.m b k (fun x => -(cnt s.m b k x)) ?_ ?_ ?_ ?_ hsym
    · intro x
      rw [hzero x]
      ring
    · intro k2 x hk2
      rw [hm2, cnt_setItems_ne _ _ _ _ _ hk2]
      exact cnt_eq_of_getSide_eq _ _ _ hown k2 x
    · intro a
      rw [hm2, cnt_setItems_neg, hc1 a, hbatch a]
      ring
    · intro a x hx
      rw [hm2, cnt_setItems_neg]
      exact hc2 a x hx
  · rw [hm2]
    exact WF_setItems _ _ _ _ hwf1 (WFits_kindEmpty _)

/-- Public `clear()` on a non-counter side preserves the invariants. -/
theorem opClear_preserves (b : Bool) (k : Nat) (s s2 : St kl kr)
    (hκc : sideKind b kl kr ≠ .counter)
    (hsym : Sym s.m) (hwf : WF s.m)
    (h : opClear b k s = .ok s2) : Sym s2.m ∧ WF s2.m := by
  unfold opClear at h
  have hsymt : Sym (touchSt s b k).m := Sym_touch s.m b k hsym
  have hwft : WF (touchSt s b k).m := WF_touch s.m b k hwf
  obtain ⟨h1, h2, _⟩ := mmClearCore_preserves b k true (touchSt s b k) s2 hκc hsymt hwft h
  exact ⟨h1, h2⟩

/-- `append(item)` preserves the invariants. -/
theorem opAppend_preserves (b : Bool) (k a : Nat) (s s2 : St kl kr)
    (hmix : ¬ mixedKinds kl kr) (hsym : Sym s.m) (hwf : WF s.m)
    (h : opAppend b k a s = .ok s2) : Sym s2.m ∧ WF s2.m := by
  simp only [opAppend] at h
  have hsymt : Sym (touchSt s b k).m := Sym_touch s.m b k hsym
  have hwft : WF (touchSt s b k).m := WF_touch s.m b k hwf
  by_cases hg : sideKind b kl kr = .set ∧ a ∈ mview (touchSt s b k).m b k
  · rw [if_pos hg] at h
    simp only [Except.ok.injEq] at h
    subst h
    exact ⟨hsymt, hwft⟩
  · rw [if_neg hg] at h
    obtain ⟨s1, h1, h'⟩ := exceptBind_ok h
    obtain ⟨s2p, h2, h3⟩ := exceptBind_ok h'
    simp only [pure, Except.pure, Except.ok.injEq] at h3
    obtain ⟨l2, hprim, hs1⟩ := mmAppendPrim_ok _ _ _ _ _ h1
    subst hs1
    obtain ⟨l3, hprim2, hm2, htr2⟩ := mmLink_ok _ _ _ _ _ _ h2
    simp only [touchSt] at hprim hprim2 hm2 hg
    rw [sitems_touch] at hprim
    rw [sitems_setItems_neg, sitems_touch] at hprim2
    rw [mview_touch] at hg
    have hM : s2.m = setItems (touch (setItems (touch s.m b k) b k l2) (!b) a) (!b) a l3 := by
      rw [← h3]
      exact hm2
    have hsetown : sideKind b kl kr = .set → cntK (sideKind b kl kr) (sitems s.m b k) a = 0 := by
      intro hs2
      exact cntK_zero_of_set_not_mem _ hs2 _ _ (fun hmem => hg ⟨hs2, hmem⟩)
    have hdelta1 := appendPrim_ok_cnt _ _ _ _ hprim hsetown
    have hset2 : sideKind (!b) kl kr = .set →
        cntK (sideKind (!b) kl kr) (sitems s.m (!b) a) k = 0 := by
      intro hs2
      show cnt s.m (!b) a k = 0
      rw [← sym_flip s.m hsym b k a]
      rcases goodKinds_own_of_opp_set hmix b hs2 with hκ | hκ
      · exact cntK_zero_of_set_not_mem _ hκ _ _ (fun hmem => hg ⟨hκ, hmem⟩)
      · exact appendPrim_checked_fresh _ hκ _ _ _ hprim
    have hdelta2 := appendPrim_ok_cnt _ _ _ _ hprim2 hset2
    have hwfl2 := appendPrim_ok_WFits _ _ _ _ hprim (hwf.2.2 b k)
    have hwfl3 := appendPrim_ok_WFits _ _ _ _ hprim2 (hwf.2.2 (!b) a)
    constructor
    · refine Sym_shift s.m s2.m b k (fun x => if x = a then 1 else 0) ?_ ?_ ?_ ?_ hsym
      · intro x
        show cnt s2.m b k x = cnt s.m b k x + (if x = a then 1 else 0)
        rw [hM, cnt_setItems_negb, cnt_touch, cnt_setItems_self, hdelta1 x]
        unfold cnt
        omega
      · intro k2 x hk2
        rw [hM, cnt_setItems_negb, cnt_touch, cnt_setItems_ne _ _ _ _ _ hk2, cnt_touch]
      · intro a2
        show cnt s2.m (!b) a2 k = cnt s.m (!b) a2 k + (if a2 = a then 1 else 0)
        rw [hM]
        by_cases ha : a2 = a
        · subst ha
          rw [cnt_setItems_self, hdelta2 k, if_pos rfl, if_pos rfl]
          unfold cnt
          omega
        · rw [cnt_setItems_ne _ _ _ _ _ ha, cnt_touch, if_neg ha]
          rw [show cnt (setItems (touch s.m b k) b k l2) (!b) a2 k =
              cnt (touch s.m b k) (!b) a2 k from cnt_setItems_neg _ _ _ _ _ _]
          rw [cnt_touch]
          ring
      · intro a2 x hx
        rw [hM]
        by_cases ha : a2 = a
        · subst ha
          rw [cnt_setItems_self, hdelta2 x, if_neg hx]
          rw [show cntK (sideKind (!b) kl kr) (sitems s.m (!b) a2) x =
              cnt s.m (!b) a2 x from rfl]
          ring
        · rw [cnt_setItems_ne _ _ _ _ _ ha, cnt_touch]
          rw [show cnt (setItems (touch s.m b k) b k l2) (!b) a2 x =
              cnt (touch s.m b k) (!b) a2 x from cnt_setItems_neg _ _ _ _ _ _]
          rw [cnt_touch]
    · rw [hM]
      exact WF_setItems _ _ _ _
        (WF_touch _ _ _ (WF_setItems _ _ _ _ (WF_touch _ _ _ hwf) hwfl2)) hwfl3

/-- `remove(item)` preserves the invariants. -/
theorem opRemove_preserves (b : Bool) (k a : Nat) (s s2 : St kl kr)
    (hsym : Sym s.m) (hwf : WF s.m)
    (h : opRemove b k a s = .ok s2) : Sym s2.m ∧ WF s2.m := by
  simp only [opRemove] at h
  obtain ⟨s1, h1, h'⟩ := exceptBind_ok h
  obtain ⟨s2p, h2, h3⟩ := exceptBind_ok h'
  simp only [pure, Except.pure, Except.ok.injEq] at h3
  obtain ⟨l2, hprim, hs1⟩ := mmRemovePrim_ok _ _ _ _ _ h1
  subst hs1
  obtain ⟨l3, hprim2, hm2, htr2⟩ := mmUnlink_ok _ _ _ _ _ _ h2
  simp only [touchSt] at hprim hprim2 hm2
  rw [sitems_touch] at hprim
  rw [sitems_setItems_neg, sitems_touch] at hprim2
  have hM : s2.m = setItems (touch (setItems (touch s.m b k) b k l2) (!b) a) (!b) a l3 := by
    rw [← h3]
    exact hm2
  obtain ⟨heq1, hoth1⟩ := removePrim_ok_cnt _ _ _ _ hprim (hwf.2.2 b k)
  obtain ⟨heq2, hoth2⟩ := removePrim_ok_cnt _ _ _ _ hprim2 (hwf.2.2 (!b) a)
  have hwfl2 := removePrim_ok_WFits _ _ _ _ hprim (hwf.2.2 b k)
  have hwfl3 := removePrim_ok_WFits _ _ _ _ hprim2 (hwf.2.2 (!b) a)
  constructor
  · refine Sym_shift s.m s2.m b k (fun x => -(if x = a then 1 else 0)) ?_ ?_ ?_ ?_ hsym
    · intro x
      show cnt s2.m b k x = cnt s.m b k x + -(if x = a then 1 else 0)
      rw [hM, cnt_setItems_negb, cnt_touch, cnt_setItems_self]
      by_cases hx : x = a
      · subst hx
        rw [heq1, if_pos rfl]
        unfold cnt
        omega
      · rw [hoth1 x hx, if_neg hx]
        unfold cnt
        omega
    · intro k2 x hk2
      rw [hM, cnt_setItems_negb, cnt_touch, cnt_setItems_ne _ _ _ _ _ hk2, cnt_touch]
    · intro a2
      show cnt s2.m (!b) a2 k = cnt s.m (!b) a2 k + -(if a2 = a then 1 else 0)
      rw [hM]
      by_cases ha : a2 = a
      · subst ha
        rw [cnt_setItems_self, heq2, if_pos rfl]
        unfold cnt
        omega
      · rw [cnt_setItems_ne _ _ _ _ _ ha, cnt_touch, if_neg ha]
        rw [show cnt (setItems (touch s.m b k) b k l2) (!b) a2 k =
            cnt (touch s.m b k) (!b) a2 k from cnt_setItems_neg _ _ _ _ _ _]
        rw [cnt_touch]
        ring
    · intro a2 x hx
      rw [hM]
      by_cases ha : a2 = a
      · subst ha
        rw [cnt_setItems_self, hoth2 x hx]
        rw [show cntK (sideKind (!b) kl kr) (sitems s.m (!b) a2) x =
            cnt s.m (!b) a2 x from rfl]
      · rw [cnt_setItems_ne _ _ _ _ _ ha, cnt_touch]
        rw [show cnt (setItems (touch s.m b k) b k l2) (!b) a2 x =
            cnt (touch s.m b k) (!b) a2 x from cnt_setItems_neg _ _ _ _ _ _]
        rw [cnt_touch]
  · rw [hM]
    exact WF_setItems _ _ _ _
      (WF_touch _ _ _ (WF_setItems _ _ _ _ (WF_touch _ _ _ hwf) hwfl2)) hwfl3

/-- `extend(items)` preserves the invariants. -/
theorem opExtend_preserves (b : Bool) (k : Nat) (xs : List Nat) (s s2 : St kl kr)
    (hmix : ¬ mixedKinds kl kr) (hsym : Sym s.m) (hwf : WF s.m)
    (h : opExtend b k xs s = .ok s2) : Sym s2.m ∧ WF s2.m := by
  simp only [opExtend, touchSt] at h
  rw [mview_touch] at h
  generalize hys : (if sideKind b kl kr = .set
    then (setFromList xs).filter (fun a => !((mview s.m b k).contains a))
    else xs) = ys at h
  obtain ⟨s1, h1, h'⟩ := exceptBind_ok h
  obtain ⟨s2p, h2, h3⟩ := exceptBind_ok h'
  simp only [pure, Except.pure, Except.ok.injEq] at h3
  obtain ⟨l2, hprim, hs1⟩ := mmExtendPrim_ok _ _ _ _ _ h1
  subst hs1
  simp only [] at h2
  rw [sitems_touch] at hprim
  have hsetfacts : sideKind b kl kr = .set → ys.Nodup ∧ ∀ a ∈ ys, cnt s.m b k a = 0 := by
    intro hκ
    rw [if_pos hκ] at hys
    subst hys
    constructor
    · exact (setFromList_nodup xs).filter _
    · intro a ha
      rw [List.mem_filter] at ha
      have hnm : a ∉ mview s.m b k := by
        intro hmem
        have hcf := ha.2
        rw [Bool.not_eq_true'] at hcf
        have h2m : (mview s.m b k).contains a = true := List.elem_iff.mpr hmem
        rw [h2m] at hcf
        exact Bool.noConfusion hcf
      exact cntK_zero_of_set_not_mem _ hκ _ _ hnm
  have hchkfacts : sideKind b kl kr = .checkedList →
      ys.Nodup ∧ ∀ a ∈ ys, cnt s.m b k a = 0 := by
    intro hκ
    exact extendPrim_checked_fresh _ hκ _ _ _ hprim
  have hsetown : sideKind b kl kr = .set →
      ys.Nodup ∧ ∀ x ∈ ys, cntK (sideKind b kl kr) (sitems s.m b k) x = 0 := by
    intro hκ
    exact hsetfacts hκ
  have hdelta1 := extendPrim_ok_cnt _ _ _ _ hprim hsetown
  have hwfl2 := extendPrim_ok_WFits _ _ _ _ hprim (hwf.2.2 b k)
  have hwfopp1 : ∀ k2, WFits (sideKind (!b) kl kr)
      (sitems (setItems (touch s.m b k) b k l2) (!b) k2) := by
    intro k2
    rw [sitems_setItems_neg, sitems_touch]
    exact hwf.2.2 (!b) k2
  have hnd1 : ((getSide (setItems (touch s.m b k) b k l2) (!b)).map Prod.fst).Nodup := by
    rw [getSide_setItems_neg, getSide_touch_neg]
    exact WF_keys s.m hwf (!b)
  have hset1 : sideKind (!b) kl kr = .set → ys.Nodup ∧
      ∀ a ∈ ys, cnt (setItems (touch s.m b k) b k l2) (!b) a k = 0 := by
    intro hs2
    have hfacts : ys.Nodup ∧ ∀ a ∈ ys, cnt s.m b k a = 0 := by
      rcases goodKinds_own_of_opp_set hmix b hs2 with hκ | hκ
      · exact hsetfacts hκ
      · exact hchkfacts hκ
    refine ⟨hfacts.1, ?_⟩
    intro a ha
    rw [show cnt (setItems (touch s.m b k) b k l2) (!b) a k =
        cnt (touch s.m b k) (!b) a k from cnt_setItems_neg _ _ _ _ _ _, cnt_touch,
      ← sym_flip s.m hsym b k a]
    exact hfacts.2 a ha
  obtain ⟨hc1, hc2, hc3, hown, hknd⟩ := mmLinkAll_spec _ _ _ _ _ h2 hwfopp1 hset1 hnd1
  have hs2m : s2.m = s2p.m := by
    rw [← h3]
    rfl
  constructor
  · refine Sym_shift s.m s2.m b k (fun x => (ys.count x : Int)) ?_ ?_ ?_ ?_ hsym
    · intro x
      show cnt s2.m b k x = cnt s.m b k x + (ys.count x : Int)
      rw [hs2m,
        show cnt s2p.m b k x = cnt (setItems (touch s.m b k) b k l2) b k x from
          cnt_eq_of_getSide_eq _ _ _ hown k x,
        cnt_setItems_self, hdelta1 x]
      unfold cnt
      omega
    · intro k2 x hk2
      rw [hs2m,
        show cnt s2p.m b k2 x = cnt (setItems (touch s.m b k) b k l2) b k2 x from
          cnt_eq_of_getSide_eq _ _ _ hown k2 x,
        cnt_setItems_ne _ _ _ _ _ hk2, cnt_touch]
    · intro a2
      show cnt s2.m (!b) a2 k = cnt s.m (!b) a2 k + (ys.count a2 : Int)
      rw [hs2m, hc1 a2,
        show cnt (setItems (touch s.m b k) b k l2) (!b) a2 k =
          cnt (touch s.m b k) (!b) a2 k from cnt_setItems_neg _ _ _ _ _ _,
        cnt_touch]
    · intro a2 x hx
      rw [hs2m, hc2 a2 x hx,
        show cnt (setItems (touch s.m b k) b k l2) (!b) a2 x =
          cnt (touch s.m b k) (!b) a2 x from cnt_setItems_neg _ _ _ _ _ _,
        cnt_touch]
  · rw [hs2m]
    refine WF_of_sides s2p.m b ?_ ?_ ?_ ?_
    · rw [hown]
      exact keys_touch_setItems s.m b k l2 (WF_keys s.m hwf b)
    · exact hknd
    · intro k2
      rw [sitems_eq_of_getSide_eq _ _ _ hown k2]
      by_cases hk : k2 = k
      · subst hk
        rw [sitems_setItems_self]
        exact hwfl2
      · rw [sitems_setItems_ne _ _ _ _ _ hk, sitems_touch]
        exact hwf.2.2 b k2
    · exact hc3

/-- The base `_replace` (clear, then extend) preserves the invariants
for the list variants. -/
theorem mmReplaceBase_preserves (b : Bool) (k : Nat) (xs : List Nat) (s s3 : St kl kr)
    (hmix : ¬ mixedKinds kl kr)
    (hκ : sideKind b kl kr = .list ∨ sideKind b kl kr = .checkedList)
    (hsym : Sym s.m) (hwf : WF s.m)
    (h : mmReplaceBase b k xs s = .ok s3) : Sym s3.m ∧ WF s3.m := by
  have hκc : sideKind b kl kr ≠ .counter := by
    rcases hκ with hx | hx <;> rw [hx] <;> decide
  unfold mmReplaceBase at h
  obtain ⟨s1, h1, h'⟩ := exceptBind_ok h
  obtain ⟨s2, h2, h''⟩ := exceptBind_ok h'
  obtain ⟨s3p, h3, h4⟩ := exceptBind_ok h''
  simp only [pure, Except.pure, Except.ok.injEq] at h4
  obtain ⟨hsym1, hwf1, hzero⟩ := mmClearCore_preserves b k false s s1 hκc hsym hwf h1
  obtain ⟨l2, hprim, hs2⟩ := mmExtendPrim_ok _ _ _ _ _ h2
  subst hs2
  have hκns : sideKind b kl kr ≠ .set := by
    rcases hκ with hκ | hκ <;> simp [hκ]
  have hdelta1 := extendPrim_ok_cnt _ _ _ _ hprim (fun hs2 => absurd hs2 hκns)
  have hwfl2 := extendPrim_ok_WFits _ _ _ _ hprim (hwf1.2.2 b k)
  have hwfopp1 : ∀ k2, WFits (sideKind (!b) kl kr)
      (sitems (setItems s1.m b k l2) (!b) k2) := by
    intro k2
    rw [sitems_setItems_neg]
    exact hwf1.2.2 (!b) k2
  have hnd1 : ((getSide (setItems s1.m b k l2) (!b)).map Prod.fst).Nodup := by
    rw [getSide_setItems_neg]
    exact WF_keys s1.m hwf1 (!b)
  have hset1 : sideKind (!b) kl kr = .set → xs.Nodup ∧
      ∀ a ∈ xs, cnt (setItems s1.m b k l2) (!b) a k = 0 := by
    intro hs2
    have hchk : sideKind b kl kr = .checkedList := by
      rcases goodKinds_own_of_opp_set hmix b hs2 with hx | hx
      · exact absurd hx hκns
      · exact hx
    refine ⟨(extendPrim_checked_fresh _ hchk _ _ _ hprim).1, ?_⟩
    intro a ha
    rw [show cnt (setItems s1.m b k l2) (!b) a k = cnt s1.m (!b) a k from
      cnt_setItems_neg _ _ _ _ _ _, ← sym_flip s1.m hsym1 b k a]
    exact hzero a
  obtain ⟨hc1, hc2, hc3, hown, hknd⟩ := mmLinkAll_spec _ _ _ _ _ h3 hwfopp1 hset1 hnd1
  have hs3m : s3.m = s3p.m := by
    rw [← h4]
    rfl
  have hkb : ((getSide (setItems s1.m b k l2) b).map Prod.fst).Nodup := by
    unfold setItems
    rw [getSide_setSide_self]
    exact keys_aset _ _ _ (WF_keys s1.m hwf1 b)
  constructor
  · refine Sym_shift s1.m s3.m b k (fun x => (xs.count x : Int)) ?_ ?_ ?_ ?_ hsym1
    · intro x
      show cnt s3.m b k x = cnt s1.m b k x + (xs.count x : Int)
      rw [hs3m,
        show cnt s3p.m b k x = cnt (setItems s1.m b k l2) b k x from
          cnt_eq_of_getSide_eq _ _ _ hown k x,
        cnt_setItems_self, hdelta1 x]
      unfold cnt
      omega
    · intro k2 x hk2
      rw [hs3m,
        show cnt s3p.m b k2 x = cnt (setItems s1.m b k l2) b k2 x from
          cnt_eq_of_getSide_eq _ _ _ hown k2 x,
        cnt_setItems_ne _ _ _ _ _ hk2]
    · intro a2
      show cnt s3.m (!b) a2 k = cnt s1.m (!b) a2 k + (xs.count a2 : Int)
      rw [hs3m, hc1 a2,
        show cnt (setItems s1.m b k l2) (!b) a2 k = cnt s1.m (!b) a2 k from
          cnt_setItems_neg _ _ _ _ _ _]
    · intro a2 x hx
      rw [hs3m, hc2 a2 x hx,
        show cnt (setItems s1.m b k l2) (!b) a2 x = cnt s1.m (!b) a2 x from
          cnt_setItems_neg _ _ _ _ _ _]
  · rw [hs3m]
    refine WF_of_sides s3p.m b ?_ ?_ ?_ ?_
    · rw [hown]
      exact hkb
    · exact hknd
    · intro k2
      rw [sitems_eq_of_getSide_eq _ _ _ hown k2]
      by_cases hk : k2 = k
      · subst hk
        rw [sitems_setItems_self]
        exact hwfl2
      · rw [sitems_setItems_ne _ _ _ _ _ hk]
        exact hwf1.2.2 b k2
    · exact hc3

theorem cntK_set_indicator (κ : MMKind) (hκ : κ = .set) (l : ItemsOf κ) (x : Nat) :
    cntK κ l x = if x ∈ membersK κ l then 1 else 0 := by
  subst hκ
  rfl

theorem cntK_listPayload_set (κ : MMKind) (hκ : κ = .set) (new : List Nat) (x : Nat) :
    cntK κ (listPayload κ new) x = if x ∈ new then 1 else 0 := by
  subst hκ
  simp only [cntK, listPayload]
  by_cases hm : x ∈ new
  · rw [if_pos ((mem_setFromList new x).mpr hm), if_pos hm]
  · rw [if_neg (fun hc => hm ((mem_setFromList new x).mp hc)), if_neg hm]

theorem WFits_listPayload (κ : MMKind) (new : List Nat) : WFits κ (listPayload κ new) := by
  cases κ
  case set => exact setFromList_nodup new
  case counter => exact cFromList_keys_nodup new
  case list | checkedList => trivial

theorem membersK_nodup_of_set (κ : MMKind) (hκ : κ = .set) (l : ItemsOf κ)
    (hwf : WFits κ l) : (membersK κ l).Nodup := by
  subst hκ
  exact hwf

theorem count_filter_nodup (l : List Nat) (p : Nat → Bool) (hnd : l.Nodup) (a : Nat) :
    (l.filter p).count a = if a ∈ l ∧ p a = true then 1 else 0 := by
  by_cases hp : p a = true
  · rw [List.count_filter hp]
    by_cases hm : a ∈ l
    · rw [if_pos ⟨hm, hp⟩]
      have h1 := List.nodup_iff_count_le_one.mp hnd a
      have h2 := List.count_pos_iff.mpr hm
      omega
    · rw [if_neg (fun hc => hm hc.1), List.count_eq_zero.mpr hm]
  · rw [if_neg (fun hc => hp hc.2), List.count_eq_zero]
    intro hc
    exact hp (List.mem_filter.mp hc).2

/-- Multiplicity of a value in `old.filter (fun x => x not in other)`,
as the difference sets of `_MMSet._replace` compute it. -/
theorem count_filter_not_contains (l m2 : List Nat) (hnd : l.Nodup) (a : Nat) :
    ((l.filter (fun x => !(m2.contains x))).count a : Int) =
      if a ∈ l ∧ a ∉ m2 then 1 else 0 := by
  rw [count_filter_nodup l _ hnd a]
  by_cases h2 : a ∈ m2
  · have hc : m2.contains a = true := List.elem_iff.mpr h2
    rw [if_neg (fun hcon => by rw [hc] at hcon; exact Bool.noConfusion hcon.2),
      if_neg (fun hcon => hcon.2 h2)]
    simp
  · have hc : m2.contains a = false := by
      by_contra hcc
      rw [Bool.not_eq_false] at hcc
      exact h2 (List.elem_iff.mp hcc)
    by_cases hm : a ∈ l
    · rw [if_pos ⟨hm, by rw [hc]; rfl⟩, if_pos ⟨hm, h2⟩]
      simp
    · rw [if_neg (fun hcon => hm hcon.1), if_neg (fun hcon => hm hcon.1)]
      simp

/-- `_MMSet._replace` preserves the invariants. -/
theorem mmReplaceSet_preserves (b : Bool) (k : Nat) (new : List Nat) (s s3 : St kl kr)
    (hmix : ¬ mixedKinds kl kr) (hκ : sideKind b kl kr = .set) (hnew : new.Nodup)
    (hsym : Sym s.m) (hwf : WF s.m)
    (h : mmReplaceSet b k new s = .ok s3) : Sym s3.m ∧ WF s3.m := by
  unfold mmReplaceSet at h
  obtain ⟨s1, h1, h'⟩ := exceptBind_ok h
  obtain ⟨s2, h2, h''⟩ := exceptBind_ok h'
  simp only [pure, Except.pure, Except.ok.injEq] at h''
  have hndold : (mview s.m b k).Nodup :=
    membersK_nodup_of_set _ hκ _ (hwf.2.2 b k)
  obtain ⟨hu1, hu2, hu3, huown, huknd⟩ := mmUnlinkAll_spec _ _ _ _ _ h1
    (fun k2 => hwf.2.2 (!b) k2) (WF_keys s.m hwf (!b))
  have hset1 : sideKind (!b) kl kr = .set →
      (new.filter (fun a => !((mview s.m b k).contains a))).Nodup ∧
      ∀ a ∈ new.filter (fun a => !((mview s.m b k).contains a)), cnt s1.m (!b) a k = 0 := by
    intro hs2
    refine ⟨hnew.filter _, ?_⟩
    intro a ha
    rw [List.mem_filter] at ha
    have hno : a ∉ mview s.m b k := by
      intro hmem
      have hcf := ha.2
      rw [Bool.not_eq_true'] at hcf
      have h2m : (mview s.m b k).contains a = true := List.elem_iff.mpr hmem
      rw [h2m] at hcf
      exact Bool.noConfusion hcf
    have hz : cnt s.m (!b) a k = 0 := by
      rw [← sym_flip s.m hsym b k a]
      exact cntK_zero_of_set_not_mem _ hκ _ _ hno
    have hzU : ((((mview s.m b k).filter (fun x => !(new.contains x))).count a : Nat) : Int) = 0 := by
      rw [count_filter_not_contains _ _ hndold a]
      rw [if_neg (fun hc => hno hc.1)]
    rw [hu1 a, hz, hzU]
    ring
  obtain ⟨hl1, hl2, hl3, hlown, hlknd⟩ := mmLinkAll_spec _ _ _ _ _ h2 hu3 hset1 huknd
  have hs3m : s3.m = setItems s2.m b k (listPayload (sideKind b kl kr) new) := by
    rw [← h'']
    rfl
  constructor
  · refine Sym_shift s.m s3.m b k
      (fun x => (if x ∈ new then 1 else 0) - (if x ∈ mview s.m b k then 1 else 0))
      ?_ ?_ ?_ ?_ hsym
    · intro x
      show cnt s3.m b k x = cnt s.m b k x +
        ((if x ∈ new then 1 else 0) - (if x ∈ mview s.m b k then 1 else 0))
      rw [hs3m, cnt_setItems_self, cntK_listPayload_set _ hκ new x,
        show cnt s.m b k x = if x ∈ mview s.m b k then 1 else 0
          from cntK_set_indicator _ hκ _ x]
      by_cases hmn : x ∈ new <;> by_cases hmo : x ∈ mview s.m b k <;>
        simp [hmn, hmo] <;> omega
    · intro k2 x hk2
      rw [hs3m, cnt_setItems_ne _ _ _ _ _ hk2,
        show cnt s2.m b k2 x = cnt s1.m b k2 x from cnt_eq_of_getSide_eq _ _ _ hlown k2 x,
        show cnt s1.m b k2 x = cnt s.m b k2 x from cnt_eq_of_getSide_eq _ _ _ huown k2 x]
    · intro a
      show cnt s3.m (!b) a k = cnt s.m (!b) a k +
        ((if a ∈ new then 1 else 0) - (if a ∈ mview s.m b k then 1 else 0))
      rw [hs3m, cnt_setItems_neg, hl1 a, hu1 a,
        count_filter_not_contains _ _ hndold a, count_filter_not_contains _ _ hnew a]
      by_cases hmo : a ∈ mview s.m b k <;> by_cases hmn : a ∈ new <;>
        simp [hmo, hmn] <;> omega
    · intro a x hx
      rw [hs3m, cnt_setItems_neg, hl2 a x hx, hu2 a x hx]
  · rw [hs3m]
    refine WF_of_sides _ b ?_ ?_ ?_ ?_
    · unfold setItems
      rw [getSide_setSide_self]
      refine keys_aset _ _ _ ?_
      rw [hlown, huown]
      exact WF_keys s.m hwf b
    · unfold setItems
      rw [getSide_setSide_neg]
      exact hlknd
    · intro k2
      by_cases hk : k2 = k
      · subst hk
        rw [sitems_setItems_self]
        exact WFits_listPayload _ new
      · rw [sitems_setItems_ne _ _ _ _ _ hk,
          sitems_eq_of_getSide_eq _ _ _ hlown k2, sitems_eq_of_getSide_eq _ _ _ huown k2]
        exact hwf.2.2 b k2
    · intro k2
      rw [sitems_setItems_neg]
      exact hl3 k2

/-! ### Counter set-algebra: keys and lookups of the derived counters -/

theorem mem_fst_of_alook_some (xs : List (Nat × α)) (k : Nat) (v : α)
    (h : alook xs k = some v) : k ∈ xs.map Prod.fst := by
  induction xs with
  | nil => exact absurd h (by simp [alook])
  | cons p xs ih =>
    simp only [alook] at h
    by_cases hp : p.1 = k
    · simp [hp]
    · rw [if_neg hp] at h
      exact List.mem_cons_of_mem _ (ih h)

theorem keys_filterMap_keyed_sublist (f : Nat × Int → Option (Nat × Int))
    (hf : ∀ p q, f p = some q → q.1 = p.1) (l : List (Nat × Int)) :
    ((l.filterMap f).map Prod.fst).Sublist (l.map Prod.fst) := by
  induction l with
  | nil => simp
  | cons p l ih =>
    rw [List.filterMap_cons]
    cases hfp : f p with
    | none =>
      rw [List.map_cons]
      exact ih.cons _
    | some q =>
      rw [List.map_cons, List.map_cons, hf p q hfp]
      exact ih.cons₂ _

theorem alook_filterMap_none (xs : List (Nat × Int)) (f : Nat × Int → Option (Nat × Int))
    (hf : ∀ p q, f p = some q → q.1 = p.1) (a : Nat) (ha : a ∉ xs.map Prod.fst) :
    alook (xs.filterMap f) a = none :=
  alook_eq_none_of_not_mem_fst _ _
    (fun hc => ha ((keys_filterMap_keyed_sublist f hf xs).subset hc))

theorem mem_fst_filterMap (r : List (Nat × Int)) (f : Nat × Int → Option (Nat × Int)) (x : Nat)
    (h : x ∈ (r.filterMap f).map Prod.fst) : ∃ p ∈ r, ∃ v, f p = some (x, v) := by
  induction r with
  | nil => simp at h
  | cons p r ih =>
    rw [List.filterMap_cons] at h
    cases hfp : f p with
    | none =>
      rw [hfp] at h
      obtain ⟨q, hq, v, hv⟩ := ih h
      exact ⟨q, List.mem_cons_of_mem _ hq, v, hv⟩
    | some q =>
      rw [hfp, List.map_cons] at h
      rcases List.mem_cons.mp h with h1 | h1
      · refine ⟨p, List.mem_cons_self _ _, q.2, ?_⟩
        rw [hfp, h1]
      · obtain ⟨q2, hq, v, hv⟩ := ih h1
        exact ⟨q2, List.mem_cons_of_mem _ hq, v, hv⟩

theorem cHas_of_mem_fst (l : List (Nat × Int)) (x : Nat) (h : x ∈ l.map Prod.fst) :
    cHas l x = true := by
  unfold cHas
  cases ha : alook l x with
  | some v => rfl
  | none => exact absurd h (alook_none_not_mem_fst l x ha)

/-- Keys of a two-part counter operation (`l`-keys first, then `r`-only
keys) are unique when the operand keys are. -/
theorem keys_two_filterMap_nodup (l r : List (Nat × Int))
    (f g : Nat × Int → Option (Nat × Int))
    (hf : ∀ p q, f p = some q → q.1 = p.1)
    (hg : ∀ p q, g p = some q → q.1 = p.1 ∧ cHas l q.1 = false)
    (hndl : (l.map Prod.fst).Nodup) (hndr : (r.map Prod.fst).Nodup) :
    ((l.filterMap f ++ r.filterMap g).map Prod.fst).Nodup := by
  rw [List.map_append, List.nodup_append]
  refine ⟨(keys_filterMap_keyed_sublist f hf l).nodup hndl,
    (keys_filterMap_keyed_sublist g (fun p q hq => (hg p q hq).1) r).nodup hndr, ?_⟩
  intro x hx hx2
  obtain ⟨p, hp, v, hv⟩ := mem_fst_filterMap r g x hx2
  have hgf := hg p (x, v) hv
  have hmem : x ∈ l.map Prod.fst := (keys_filterMap_keyed_sublist f hf l).subset hx
  rw [cHas_of_mem_fst l x hmem] at hgf
  exact Bool.noConfusion hgf.2

theorem alook_append_left (A B : List (Nat × α)) (k : Nat) (v : α)
    (h : alook A k = some v) : alook (A ++ B) k = some v := by
  induction A with
  | nil => exact absurd h (by simp [alook])
  | cons p A ih =>
    simp only [alook, List.cons_append] at h ⊢
    by_cases hp : p.1 = k
    · rwa [if_pos hp] at h ⊢
    · rw [if_neg hp] at h ⊢
      exact ih h

theorem alook_append_right (A B : List (Nat × α)) (k : Nat)
    (h : alook A k = none) : alook (A ++ B) k = alook B k := by
  induction A with
  | nil => rfl
  | cons p A ih =>
    simp only [alook, List.cons_append] at h ⊢
    by_cases hp : p.1 = k
    · rw [if_pos hp] at h
      exact absurd h (by simp)
    · rw [if_neg hp] at h ⊢
      exact ih h

theorem alook_cSub_part1 (l r : List (Nat × Int)) (a : Nat) (v : Int)
    (hnd : (l.map Prod.fst).Nodup) (hv : alook l a = some v) :
    alook (l.filterMap
        (fun p => let d := p.2 - cLook r p.1; if 0 < d then some (p.1, d) else none)) a
      = if 0 < v - cLook r a then some (v - cLook r a) else none := by
  induction l with
  | nil => exact absurd hv (by simp [alook])
  | cons p l ih =>
    simp only [List.map_cons, List.nodup_cons] at hnd
    simp only [alook] at hv
    have hfskip : ∀ q q2, (fun p : Nat × Int =>
        let d := p.2 - cLook r p.1; if 0 < d then some (p.1, d) else none) q = some q2 →
        q2.1 = q.1 := by
      intro q q2 hq
      have hqb : (if 0 < q.2 - cLook r q.1
          then some (q.1, q.2 - cLook r q.1) else none) = some q2 := hq
      by_cases hq2 : 0 < q.2 - cLook r q.1
      · rw [if_pos hq2] at hqb
        simp only [Option.some.injEq] at hqb
        rw [← hqb]
      · rw [if_neg hq2] at hqb
        exact absurd hqb (by simp)
    by_cases hp : p.1 = a
    · rw [if_pos hp] at hv
      simp only [Option.some.injEq] at hv
      subst hv
      by_cases hd : 0 < p.2 - cLook r p.1
      · rw [List.filterMap_cons_some (show _ = some (p.1, p.2 - cLook r p.1) from by
          show (if 0 < p.2 - cLook r p.1
            then some (p.1, p.2 - cLook r p.1) else none) = some (p.1, p.2 - cLook r p.1)
          rw [if_pos hd])]
        simp only [alook]
        rw [if_pos hp, if_pos (by rwa [hp] at hd), hp]
      · rw [List.filterMap_cons_none (show _ = none from by
          show (if 0 < p.2 - cLook r p.1
            then some (p.1, p.2 - cLook r p.1) else none) = none
          rw [if_neg hd])]
        rw [if_neg (by rwa [hp] at hd)]
        refine alook_filterMap_none l _ hfskip a ?_
        rw [← hp]
        exact hnd.1
    · rw [if_neg hp] at hv
      by_cases hd : 0 < p.2 - cLook r p.1
      · rw [List.filterMap_cons_some (show _ = some (p.1, p.2 - cLook r p.1) from by
          show (if 0 < p.2 - cLook r p.1
            then some (p.1, p.2 - cLook r p.1) else none) = some (p.1, p.2 - cLook r p.1)
          rw [if_pos hd])]
        simp only [alook]
        rw [if_neg hp]
        exact ih hnd.2 hv
      · rw [List.filterMap_cons_none (show _ = none from by
          show (if 0 < p.2 - cLook r p.1
            then some (p.1, p.2 - cLook r p.1) else none) = none
          rw [if_neg hd])]
        exact ih hnd.2 hv

theorem alook_cSub_part2 (l r : List (Nat × Int)) (a : Nat) (w : Int)
    (hnd : (r.map Prod.fst).Nodup) (hw : alook r a = some w) :
    alook (r.filterMap
        (fun p => if cHas l p.1 then none else (if p.2 < 0 then some (p.1, -p.2) else none))) a
      = if cHas l a = false ∧ w < 0 then some (-w) else none := by
  induction r with
  | nil => exact absurd hw (by simp [alook])
  | cons p r ih =>
    simp only [List.map_cons, List.nodup_cons] at hnd
    simp only [alook] at hw
    have hfskip : ∀ q q2, (fun p : Nat × Int =>
        if cHas l p.1 then none else (if p.2 < 0 then some (p.1, -p.2) else none)) q = some q2 →
        q2.1 = q.1 := by
      intro q q2 hq
      have hqb : (if cHas l q.1 then none
          else (if q.2 < 0 then some (q.1, -q.2) else none)) = some q2 := hq
      by_cases hq1 : cHas l q.1
      · rw [if_pos hq1] at hqb
        exact absurd hqb (by simp)
      · rw [if_neg hq1] at hqb
        by_cases hq2 : q.2 < 0
        · rw [if_pos hq2] at hqb
          simp only [Option.some.injEq] at hqb
          rw [← hqb]
        · rw [if_neg hq2] at hqb
          exact absurd hqb (by simp)
    by_cases hp : p.1 = a
    · rw [if_pos hp] at hw
      simp only [Option.some.injEq] at hw
      subst hw
      have hskip : alook (r.filterMap
          (fun p => if cHas l p.1 then none
            else (if p.2 < 0 then some (p.1, -p.2) else none))) a = none := by
        refine alook_filterMap_none r _ hfskip a ?_
        rw [← hp]
        exact hnd.1
      by_cases hc : cHas l p.1
      · rw [List.filterMap_cons_none (show _ = none from by rw [if_pos hc])]
        rw [hskip, if_neg (by
          intro hcon
          rw [hp] at hc
          rw [hcon.1] at hc
          exact Bool.noConfusion hc)]
      · rw [Bool.not_eq_true] at hc
        by_cases hneg : p.2 < 0
        · rw [List.filterMap_cons_some (show _ = some (p.1, -p.2) from by
            show (if cHas l p.1 then none
              else (if p.2 < 0 then some (p.1, -p.2) else none)) = some (p.1, -p.2)
            rw [if_neg (by rw [hc]; exact Bool.noConfusion), if_pos hneg])]
          simp only [alook]
          rw [if_pos hp, if_pos ⟨by rw [← hp]; exact hc, hneg⟩]
        · rw [List.filterMap_cons_none (show _ = none from by
            show (if cHas l p.1 then none
              else (if p.2 < 0 then some (p.1, -p.2) else none)) = none
            rw [if_neg (by rw [hc]; exact Bool.noConfusion), if_neg hneg])]
          rw [hskip, if_neg (fun hcon => hneg hcon.2)]
    · rw [if_neg hp] at hw
      by_cases hc : cHas l p.1
      · rw [List.filterMap_cons_none (show _ = none from by rw [if_pos hc])]
        exact ih hnd.2 hw
      · rw [Bool.not_eq_true] at hc
        by_cases hneg : p.2 < 0
        · rw [List.filterMap_cons_some (show _ = some (p.1, -p.2) from by
            show (if cHas l p.1 then none
              else (if p.2 < 0 then some (p.1, -p.2) else none)) = some (p.1, -p.2)
            rw [if_neg (by rw [hc]; exact Bool.noConfusion), if_pos hneg])]
          simp only [alook]
          rw [if_neg hp]
          exact ih hnd.2 hw
        · rw [List.filterMap_cons_none (show _ = none from by
            show (if cHas l p.1 then none
              else (if p.2 < 0 then some (p.1, -p.2) else none)) = none
            rw [if_neg (by rw [hc]; exact Bool.noConfusion), if_neg hneg])]
          exact ih hnd.2 hw

theorem cSub_f1_keyed (r : List (Nat × Int)) : ∀ p q : Nat × Int,
    (fun p : Nat × Int => let d := p.2 - cLook r p.1;
      if 0 < d then some (p.1, d) else none) p = some q → q.1 = p.1 := by
  intro p q hq
  have hqb : (if 0 < p.2 - cLook r p.1
      then some (p.1, p.2 - cLook r p.1) else none) = some q := hq
  by_cases hd : 0 < p.2 - cLook r p.1
  · rw [if_pos hd] at hqb
    simp only [Option.some.injEq] at hqb
    rw [← hqb]
  · rw [if_neg hd] at hqb
    exact absurd hqb (by simp)

theorem cSub_f2_keyed (l : List (Nat × Int)) : ∀ p q : Nat × Int,
    (fun p : Nat × Int => if cHas l p.1 then none
      else (if p.2 < 0 then some (p.1, -p.2) else none)) p = some q →
    q.1 = p.1 ∧ cHas l q.1 = false := by
  intro p q hq
  have hqb : (if cHas l p.1 then none
      else (if p.2 < 0 then some (p.1, -p.2) else none)) = some q := hq
  by_cases hc : cHas l p.1
  · rw [if_pos hc] at hqb
    exact absurd hqb (by simp)
  · rw [if_neg hc] at hqb
    rw [Bool.not_eq_true] at hc
    by_cases hn : p.2 < 0
    · rw [if_pos hn] at hqb
      simp only [Option.some.injEq] at hqb
      subst hqb
      exact ⟨rfl, hc⟩
    · rw [if_neg hn] at hqb
      exact absurd hqb (by simp)

theorem keys_cSub_nodup (l r : List (Nat × Int))
    (hndl : (l.map Prod.fst).Nodup) (hndr : (r.map Prod.fst).Nodup) :
    ((cSub l r).map Prod.fst).Nodup := by
  unfold cSub
  exact keys_two_filterMap_nodup l r _ _ (cSub_f1_keyed r) (cSub_f2_keyed l) hndl hndr

theorem pos_part2_keyed (l : List (Nat × Int)) : ∀ p q : Nat × Int,
    (fun p : Nat × Int => if cHas l p.1 then none
      else (if 0 < p.2 then some p else none)) p = some q →
    q.1 = p.1 ∧ cHas l q.1 = false := by
  intro p q hq
  have hqb : (if cHas l p.1 then none
      else (if 0 < p.2 then some p else none)) = some q := hq
  by_cases hc : cHas l p.1
  · rw [if_pos hc] at hqb
    exact absurd hqb (by simp)
  · rw [if_neg hc] at hqb
    rw [Bool.not_eq_true] at hc
    by_cases hn : 0 < p.2
    · rw [if_pos hn] at hqb
      simp only [Option.some.injEq] at hqb
      subst hqb
      exact ⟨rfl, hc⟩
    · rw [if_neg hn] at hqb
      exact absurd hqb (by simp)

theorem keys_cAddOp_nodup (l r : List (Nat × Int))
    (hndl : (l.map Prod.fst).Nodup) (hndr : (r.map Prod.fst).Nodup) :
    ((cAddOp l r).map Prod.fst).Nodup := by
  unfold cAddOp
  refine keys_two_filterMap_nodup l r _ _ ?_ (pos_part2_keyed l) hndl hndr
  intro p q hq
  have hqb : (if 0 < p.2 + cLook r p.1
      then some (p.1, p.2 + cLook r p.1) else none) = some q := hq
  by_cases hd : 0 < p.2 + cLook r p.1
  · rw [if_pos hd] at hqb
    simp only [Option.some.injEq] at hqb
    rw [← hqb]
  · rw [if_neg hd] at hqb
    exact absurd hqb (by simp)

theorem keys_cOrOp_nodup (l r : List (Nat × Int))
    (hndl : (l.map Prod.fst).Nodup) (hndr : (r.map Prod.fst).Nodup) :
    ((cOrOp l r).map Prod.fst).Nodup := by
  unfold cOrOp
  refine keys_two_filterMap_nodup l r _ _ ?_ (pos_part2_keyed l) hndl hndr
  intro p q hq
  have hqb : (if 0 < max p.2 (cLook r p.1)
      then some (p.1, max p.2 (cLook r p.1)) else none) = some q := hq
  by_cases hd : 0 < max p.2 (cLook r p.1)
  · rw [if_pos hd] at hqb
    simp only [Option.some.injEq] at hqb
    rw [← hqb]
  · rw [if_neg hd] at hqb
    exact absurd hqb (by simp)

theorem keys_cAndOp_nodup (l r : List (Nat × Int))
    (hndl : (l.map Prod.fst).Nodup) :
    ((cAndOp l r).map Prod.fst).Nodup := by
  unfold cAndOp
  refine (keys_filterMap_keyed_sublist _ ?_ l).nodup hndl
  intro p q hq
  have hqb : (if 0 < min p.2 (cLook r p.1)
      then some (p.1, min p.2 (cLook r p.1)) else none) = some q := hq
  by_cases hd : 0 < min p.2 (cLook r p.1)
  · rw [if_pos hd] at hqb
    simp only [Option.some.injEq] at hqb
    rw [← hqb]
  · rw [if_neg hd] at hqb
    exact absurd hqb (by simp)

/-- `Counter.__sub__` computes the clamped pointwise difference. -/
theorem cLook_cSub (l r : List (Nat × Int))
    (hndl : (l.map Prod.fst).Nodup) (hndr : (r.map Prod.fst).Nodup) (a : Nat) :
    cLook (cSub l r) a = max (cLook l a - cLook r a) 0 := by
  cases hl : alook l a with
  | some v =>
    have hmem := mem_fst_of_alook_some l a v hl
    have h1 := alook_cSub_part1 l r a v hndl hl
    have hlv : cLook l a = v := by
      unfold cLook
      rw [hl]
      rfl
    have h2n : alook (r.filterMap (fun p => if cHas l p.1 then none
        else (if p.2 < 0 then some (p.1, -p.2) else none))) a = none := by
      cases hx : alook (r.filterMap (fun p => if cHas l p.1 then none
          else (if p.2 < 0 then some (p.1, -p.2) else none))) a with
      | none => rfl
      | some w =>
        have hma := mem_fst_of_alook_some _ a w hx
        obtain ⟨p, hp, v2, hv2⟩ := mem_fst_filterMap r _ a hma
        have hcf := (cSub_f2_keyed l p (a, v2) hv2).2
        rw [cHas_of_mem_fst l a hmem] at hcf
        exact Bool.noConfusion hcf
    by_cases hd : 0 < v - cLook r a
    · have hres : alook (cSub l r) a = some (v - cLook r a) := by
        unfold cSub
        exact alook_append_left _ _ _ _ (by rw [h1, if_pos hd])
      have hfin : cLook (cSub l r) a = v - cLook r a := by
        show (alook (cSub l r) a).getD 0 = v - cLook r a
        rw [hres]
        rfl
      rw [hfin, hlv]
      omega
    · have hres : alook (cSub l r) a = none := by
        unfold cSub
        rw [alook_append_right _ _ _ (by rw [h1, if_neg hd]), h2n]
      have hfin : cLook (cSub l r) a = 0 := by
        show (alook (cSub l r) a).getD 0 = 0
        rw [hres]
        rfl
      rw [hfin, hlv]
      omega
  | none =>
    have hnmem := alook_none_not_mem_fst l a hl
    have hlv : cLook l a = 0 := by
      unfold cLook
      rw [hl]
      rfl
    have h1n : alook (l.filterMap (fun p => let d := p.2 - cLook r p.1;
        if 0 < d then some (p.1, d) else none)) a = none :=
      alook_filterMap_none l _ (cSub_f1_keyed r) a hnmem
    have hcf : cHas l a = false := by
      unfold cHas
      rw [hl]
      rfl
    cases hr : alook r a with
    | some w =>
      have h2 := alook_cSub_part2 l r a w hndr hr
      have hrv : cLook r a = w := by
        unfold cLook
        rw [hr]
        rfl
      by_cases hn : w < 0
      · have hres : alook (cSub l r) a = some (-w) := by
          unfold cSub
          rw [alook_append_right _ _ _ h1n, h2, if_pos ⟨hcf, hn⟩]
        have hfin : cLook (cSub l r) a = -w := by
          show (alook (cSub l r) a).getD 0 = -w
          rw [hres]
          rfl
        rw [hfin, hlv, hrv]
        omega
      · have hres : alook (cSub l r) a = none := by
          unfold cSub
          rw [alook_append_right _ _ _ h1n, h2, if_neg (fun hcon => hn hcon.2)]
        have hfin : cLook (cSub l r) a = 0 := by
          show (alook (cSub l r) a).getD 0 = 0
          rw [hres]
          rfl
        rw [hfin, hlv, hrv]
        omega
    | none =>
      have h2n : alook (r.filterMap (fun p => if cHas l p.1 then none
          else (if p.2 < 0 then some (p.1, -p.2) else none))) a = none :=
        alook_filterMap_none r _ (fun p q hq => (cSub_f2_keyed l p q hq).1) a
          (alook_none_not_mem_fst r a hr)
      have hres : alook (cSub l r) a = none := by
        unfold cSub
        rw [alook_append_right _ _ _ h1n, h2n]
      have hrv : cLook r a = 0 := by
        unfold cLook
        rw [hr]
        rfl
      have hfin : cLook (cSub l r) a = 0 := by
        show (alook (cSub l r) a).getD 0 = 0
        rw [hres]
        rfl
      rw [hfin, hlv, hrv]
      omega

theorem cntK_counter_cLook (κ : MMKind) (hκ : κ = .counter) (l : ItemsOf κ) (x : Nat) :
    cntK κ l x = cLook (ctrView κ l) x := by
  subst hκ
  rfl

theorem WFits_counter_keys (κ : MMKind) (hκ : κ = .counter) (l : ItemsOf κ)
    (h : WFits κ l) : ((ctrView κ l).map Prod.fst).Nodup := by
  subst hκ
  exact h

theorem cntK_ctrPayload_counter (κ : MMKind) (hκ : κ = .counter) (c : List (Nat × Int))
    (x : Nat) : cntK κ (ctrPayload κ c) x = cLook c x := by
  subst hκ
  rfl

theorem WFits_ctrPayload_counter (κ : MMKind) (hκ : κ = .counter) (c : List (Nat × Int))
    (h : (c.map Prod.fst).Nodup) : WFits κ (ctrPayload κ c) := by
  subst hκ
  exact h

/-- `_MMCounter._replace` preserves the invariants. -/
theorem mmReplaceCtr_preserves (b : Bool) (k : Nat) (new : List (Nat × Int)) (s s3 : St kl kr)
    (hmix : ¬ mixedKinds kl kr) (hcc : ¬ (kl = .counter ∧ kr = .counter))
    (hκ : sideKind b kl kr = .counter) (hnewnd : (new.map Prod.fst).Nodup)
    (hsym : Sym s.m) (hwf : WF s.m)
    (h : mmReplaceCtr b k new s = .ok s3) : Sym s3.m ∧ WF s3.m := by
  unfold mmReplaceCtr at h
  obtain ⟨s1, h1, h'⟩ := exceptBind_ok h
  obtain ⟨s2, h2, h''⟩ := exceptBind_ok h'
  simp only [pure, Except.pure, Except.ok.injEq] at h''
  have hndold : ((ctrView (sideKind b kl kr) (sitems s.m b k)).map Prod.fst).Nodup :=
    WFits_counter_keys _ hκ _ (hwf.2.2 b k)
  have hU : ∀ a, (((cElements (cSub (ctrView (sideKind b kl kr) (sitems s.m b k)) new)).count a : Nat) : Int) =
      max (cLook (ctrView (sideKind b kl kr) (sitems s.m b k)) a - cLook new a) 0 := by
    intro a
    rw [count_cElements _ a (keys_cSub_nodup _ _ hndold hnewnd),
      cLook_cSub _ _ hndold hnewnd a]
    exact Int.toNat_of_nonneg (le_max_right _ 0)
  have hL : ∀ a, (((cElements (cSub new (ctrView (sideKind b kl kr) (sitems s.m b k)))).count a : Nat) : Int) =
      max (cLook new a - cLook (ctrView (sideKind b kl kr) (sitems s.m b k)) a) 0 := by
    intro a
    rw [count_cElements _ a (keys_cSub_nodup _ _ hnewnd hndold),
      cLook_cSub _ _ hnewnd hndold a]
    exact Int.toNat_of_nonneg (le_max_right _ 0)
  obtain ⟨hu1, hu2, hu3, huown, huknd⟩ := mmUnlinkAll_spec _ _ _ _ _ h1
    (fun k2 => hwf.2.2 (!b) k2) (WF_keys s.m hwf (!b))
  have hnoset := goodKinds_opp_ne_set_of_counter hmix hcc b hκ
  obtain ⟨hl1, hl2, hl3, hlown, hlknd⟩ := mmLinkAll_spec _ _ _ _ _ h2 hu3
    (fun hs2 => absurd hs2 hnoset) huknd
  have hs3m : s3.m = setItems s2.m b k (ctrPayload (sideKind b kl kr) new) := by
    rw [← h'']
    rfl
  constructor
  · refine Sym_shift s.m s3.m b k
      (fun x => cLook new x - cLook (ctrView (sideKind b kl kr) (sitems s.m b k)) x)
      ?_ ?_ ?_ ?_ hsym
    · intro x
      show cnt s3.m b k x = cnt s.m b k x +
        (cLook new x - cLook (ctrView (sideKind b kl kr) (sitems s.m b k)) x)
      rw [hs3m, cnt_setItems_self, cntK_ctrPayload_counter _ hκ new x,
        show cnt s.m b k x = cLook (ctrView (sideKind b kl kr) (sitems s.m b k)) x from
          cntK_counter_cLook _ hκ _ x]
      ring
    · intro k2 x hk2
      rw [hs3m, cnt_setItems_ne _ _ _ _ _ hk2,
        show cnt s2.m b k2 x = cnt s1.m b k2 x from cnt_eq_of_getSide_eq _ _ _ hlown k2 x,
        show cnt s1.m b k2 x = cnt s.m b k2 x from cnt_eq_of_getSide_eq _ _ _ huown k2 x]
    · intro a
      show cnt s3.m (!b) a k = cnt s.m (!b) a k +
        (cLook new a - cLook (ctrView (sideKind b kl kr) (sitems s.m b k)) a)
      rw [hs3m, cnt_setItems_neg, hl1 a, hu1 a, hU a, hL a]
      omega
    · intro a x hx
      rw [hs3m, cnt_setItems_neg, hl2 a x hx, hu2 a x hx]
  · rw [hs3m]
    refine WF_of_sides _ b ?_ ?_ ?_ ?_
    · unfold setItems
      rw [getSide_setSide_self]
      refine keys_aset _ _ _ ?_
      rw [hlown, huown]
      exact WF_keys s.m hwf b
    · unfold setItems
      rw [getSide_setSide_neg]
      exact hlknd
    · intro k2
      by_cases hk : k2 = k
      · subst hk
        rw [sitems_setItems_self]
        exact WFits_ctrPayload_counter _ hκ new hnewnd
      · rw [sitems_setItems_ne _ _ _ _ _ hk,
          sitems_eq_of_getSide_eq _ _ _ hlown k2, sitems_eq_of_getSide_eq _ _ _ huown k2]
        exact hwf.2.2 b k2
    · intro k2
      rw [sitems_setItems_neg]
      exact hl3 k2

theorem disjoint_filter_not_contains (l r : List Nat) :
    ∀ x ∈ l, x ∉ r.filter (fun a => !(l.contains a)) := by
  intro x hx hmem
  rw [List.mem_filter] at hmem
  have hcf := hmem.2
  rw [Bool.not_eq_true'] at hcf
  have hct : l.contains x = true := List.elem_iff.mpr hx
  rw [hct] at hcf
  exact Bool.noConfusion hcf

/-- `SideIndex.__setitem__` (key assignment) preserves the invariants. -/
theorem opSideSet_preserves (b : Bool) (k : Nat) (xs : List Nat) (s s2 : St kl kr)
    (hmix : ¬ mixedKinds kl kr) (hcc : ¬ (kl = .counter ∧ kr = .counter))
    (hsym : Sym s.m) (hwf : WF s.m)
    (h : opSideSet b k xs s = .ok s2) : Sym s2.m ∧ WF s2.m := by
  simp only [opSideSet] at h
  have hsymt : Sym (touchSt s b k).m := Sym_touch s.m b k hsym
  have hwft : WF (touchSt s b k).m := WF_touch s.m b k hwf
  by_cases hset : sideKind b kl kr = .set
  · rw [if_pos hset] at h
    exact mmReplaceSet_preserves _ _ _ _ _ hmix hset (setFromList_nodup xs) hsymt hwft h
  · rw [if_neg hset] at h
    by_cases hctr : sideKind b kl kr = .counter
    · rw [if_pos hctr] at h
      exact mmReplaceCtr_preserves _ _ _ _ _ hmix hcc hctr (cFromList_keys_nodup xs)
        hsymt hwft h
    · rw [if_neg hctr] at h
      have hκ : sideKind b kl kr = .list ∨ sideKind b kl kr = .checkedList := by
        cases hs : sideKind b kl kr
        case list => exact Or.inl rfl
        case checkedList => exact Or.inr rfl
        case set => exact absurd hs hset
        case counter => exact absurd hs hctr
      exact mmReplaceBase_preserves _ _ _ _ _ hmix hκ hsymt hwft h

/-- `__iadd__` preserves the invariants. -/
theorem opIAdd_preserves (b : Bool) (k : Nat) (xs : List Nat) (s s2 : St kl kr)
    (hmix : ¬ mixedKinds kl kr) (hcc : ¬ (kl = .counter ∧ kr = .counter))
    (hsym : Sym s.m) (hwf : WF s.m)
    (h : opIAdd b k xs s = .ok s2) : Sym s2.m ∧ WF s2.m := by
  simp only [opIAdd, touchSt] at h
  rw [sitems_touch, mview_touch] at h
  have hsymt : Sym (touchSt s b k).m := Sym_touch s.m b k hsym
  have hwft : WF (touchSt s b k).m := WF_touch s.m b k hwf
  by_cases hset : sideKind b kl kr = .set
  · rw [if_pos hset] at h
    exact absurd h (by simp)
  · rw [if_neg hset] at h
    by_cases hctr : sideKind b kl kr = .counter
    · rw [if_pos hctr] at h
      refine mmReplaceCtr_preserves _ _ _ _ _ hmix hcc hctr ?_ hsymt hwft h
      exact keys_cAddOp_nodup _ _ (WFits_counter_keys _ hctr _ (hwf.2.2 b k))
        (cFromList_keys_nodup xs)
    · rw [if_neg hctr] at h
      have hκ : sideKind b kl kr = .list ∨ sideKind b kl kr = .checkedList := by
        cases hs : sideKind b kl kr
        case list => exact Or.inl rfl
        case checkedList => exact Or.inr rfl
        case set => exact absurd hs hset
        case counter => exact absurd hs hctr
      exact mmReplaceBase_preserves _ _ _ _ _ hmix hκ hsymt hwft h

/-- `__ior__` preserves the invariants. -/
theorem opIOr_preserves (b : Bool) (k : Nat) (xs : List Nat) (s s2 : St kl kr)
    (hmix : ¬ mixedKinds kl kr) (hcc : ¬ (kl = .counter ∧ kr = .counter))
    (hsym : Sym s.m) (hwf : WF s.m)
    (h : opIOr b k xs s = .ok s2) : Sym s2.m ∧ WF s2.m := by
  simp only [opIOr, touchSt] at h
  rw [sitems_touch, mview_touch] at h
  have hsymt : Sym (touchSt s b k).m := Sym_touch s.m b k hsym
  have hwft : WF (touchSt s b k).m := WF_touch s.m b k hwf
  by_cases hset : sideKind b kl kr = .set
  · rw [if_pos hset] at h
    refine mmReplaceSet_preserves _ _ _ _ _ hmix hset ?_ hsymt hwft h
    have hndold : (mview s.m b k).Nodup := membersK_nodup_of_set _ hset _ (hwf.2.2 b k)
    rw [List.nodup_append]
    exact ⟨hndold, (setFromList_nodup xs).filter _,
      disjoint_filter_not_contains (mview s.m b k) (setFromList xs)⟩
  · rw [if_neg hset] at h
    by_cases hctr : sideKind b kl kr = .counter
    · rw [if_pos hctr] at h
      refine mmReplaceCtr_preserves _ _ _ _ _ hmix hcc hctr ?_ hsymt hwft h
      exact keys_cOrOp_nodup _ _ (WFits_counter_keys _ hctr _ (hwf.2.2 b k))
        (cFromList_keys_nodup xs)
    · rw [if_neg hctr] at h
      exact absurd h (by simp)

/-- `__iand__` preserves the invariants. -/
theorem opIAnd_preserves (b : Bool) (k : Nat) (xs : List Nat) (s s2 : St kl kr)
    (hmix : ¬ mixedKinds kl kr) (hcc : ¬ (kl = .counter ∧ kr = .counter))
    (hsym : Sym s.m) (hwf : WF s.m)
    (h : opIAnd b k xs s = .ok s2) : Sym s2.m ∧ WF s2.m := by
  simp only [opIAnd, touchSt] at h
  rw [sitems_touch, mview_touch] at h
  have hsymt : Sym (touchSt s b k).m := Sym_touch s.m b k hsym
  have hwft : WF (touchSt s b k).m := WF_touch s.m b k hwf
  by_cases hset : sideKind b kl kr = .set
  · rw [if_pos hset] at h
    refine mmReplaceSet_preserves _ _ _ _ _ hmix hset ?_ hsymt hwft h
    exact (membersK_nodup_of_set _ hset _ (hwf.2.2 b k)).filter _
  · rw [if_neg hset] at h
    by_cases hctr : sideKind b kl kr = .counter
    · rw [if_pos hctr] at h
      refine mmReplaceCtr_preserves _ _ _ _ _ hmix hcc hctr ?_ hsymt hwft h
      exact keys_cAndOp_nodup _ _ (WFits_counter_keys _ hctr _ (hwf.2.2 b k))
    · rw [if_neg hctr] at h
      exact absurd h (by simp)

/-- `__ixor__` preserves the invariants. -/
theorem opIXor_preserves (b : Bool) (k : Nat) (xs : List Nat) (s s2 : St kl kr)
    (hmix : ¬ mixedKinds kl kr)
    (hsym : Sym s.m) (hwf : WF s.m)
    (h : opIXor b k xs s = .ok s2) : Sym s2.m ∧ WF s2.m := by
  simp only [opIXor, touchSt] at h
  rw [mview_touch] at h
  have hsymt : Sym (touchSt s b k).m := Sym_touch s.m b k hsym
  have hwft : WF (touchSt s b k).m := WF_touch s.m b k hwf
  by_cases hset : sideKind b kl kr = .set
  · rw [if_pos hset] at h
    refine mmReplaceSet_preserves _ _ _ _ _ hmix hset ?_ hsymt hwft h
    have hndold : (mview s.m b k).Nodup := membersK_nodup_of_set _ hset _ (hwf.2.2 b k)
    rw [List.nodup_append]
    refine ⟨hndold.filter _, (setFromList_nodup xs).filter _, ?_⟩
    intro x hx hx2
    rw [List.mem_filter] at hx
    exact disjoint_filter_not_contains (mview s.m b k) (setFromList xs) x hx.1 hx2
  · rw [if_neg hset] at h
    exact absurd h (by simp)

/-! ### Count effects of positional list surgery (index and slice ops) -/

theorem count_cons_nat (c : Nat) (rest : List Nat) (x : Nat) :
    (c :: rest).count x = rest.count x + (if x = c then 1 else 0) := by
  rw [List.count_cons]
  by_cases h : x = c
  · simp [h]
  · simp [h, Ne.symm]

theorem count_set_getD (l : List Nat) (j a : Nat) (hj : j < l.length) (x : Nat) :
    ((l.set j a).count x : Int) =
      (l.count x : Int) - (if x = l.getD j 0 then 1 else 0) + (if x = a then 1 else 0) := by
  induction l generalizing j with
  | nil => simp at hj
  | cons y l ih =>
    cases j with
    | zero =>
      rw [List.set_cons_zero, List.getD_cons_zero,
        count_cons_nat a l x, count_cons_nat y l x]
      push_cast
      ring
    | succ j =>
      rw [List.set_cons_succ, List.getD_cons_succ,
        count_cons_nat y (l.set j a) x, count_cons_nat y l x]
      have := ih j (by simpa using hj)
      push_cast at this ⊢
      omega

theorem count_eraseIdx_getD (l : List Nat) (j : Nat) (hj : j < l.length) (x : Nat) :
    ((l.eraseIdx j).count x : Int) =
      (l.count x : Int) - (if x = l.getD j 0 then 1 else 0) := by
  induction l generalizing j with
  | nil => simp at hj
  | cons y l ih =>
    cases j with
    | zero =>
      rw [List.eraseIdx_cons_zero, List.getD_cons_zero, count_cons_nat y l x]
      push_cast
      ring
    | succ j =>
      rw [List.eraseIdx_cons_succ, List.getD_cons_succ,
        count_cons_nat y (l.eraseIdx j) x, count_cons_nat y l x]
      have := ih j (by simpa using hj)
      push_cast at this ⊢
      omega

theorem pyNorm_lt (L : Nat) (i : Int) (j : Nat) (h : pyNorm L i = some j) : j < L := by
  unfold pyNorm at h
  by_cases hc : 0 ≤ (if i < 0 then i + L else i) ∧ (if i < 0 then i + L else i) < (L : Int)
  · rw [if_pos hc] at h
    simp only [Option.some.injEq] at h
    subst h
    omega
  · rw [if_neg hc] at h
    exact absurd h (by simp)

theorem mem_idxShift (idxs : List Nat) (j : Nat) :
    j ∈ idxs.filterMap (fun i => match i with | 0 => none | Nat.succ j2 => some j2) ↔
      j + 1 ∈ idxs := by
  rw [List.mem_filterMap]
  constructor
  · rintro ⟨i, hi, hf⟩
    cases i with
    | zero => exact absurd hf (by simp)
    | succ j2 =>
      simp only [Option.some.injEq] at hf
      subst hf
      exact hi
  · intro hmem
    exact ⟨j + 1, hmem, rfl⟩

theorem idxShift_nodup (idxs : List Nat) (hnd : idxs.Nodup) :
    (idxs.filterMap (fun i => match i with | 0 => none | Nat.succ j2 => some j2)).Nodup := by
  refine List.Nodup.filterMap ?_ hnd
  intro a a2 bv hb hb2
  cases a with
  | zero => exact absurd hb (by simp)
  | succ j =>
    cases a2 with
    | zero => exact absurd hb2 (by simp)
    | succ j2 =>
      simp only [Option.mem_def, Option.some.injEq] at hb hb2
      rw [hb, hb2]

theorem idxShift_contains (idxs : List Nat) (j : Nat) :
    (idxs.filterMap (fun i => match i with | 0 => none | Nat.succ j2 => some j2)).contains j =
      idxs.contains (j + 1) := by
  cases hc : idxs.contains (j + 1) with
  | true =>
    exact List.elem_iff.mpr ((mem_idxShift idxs j).mpr (List.elem_iff.mp hc))
  | false =>
    by_contra hcc
    rw [Bool.not_eq_false] at hcc
    have hmem := (mem_idxShift idxs j).mp (List.elem_iff.mp hcc)
    have hct : idxs.contains (j + 1) = true := List.elem_iff.mpr hmem
    rw [hct] at hc
    exact Bool.noConfusion hc

theorem pyDel_enumFrom_shift (l : List Nat) (idxs : List Nat) (n : Nat) :
    (List.enumFrom (n + 1) l).filterMap
        (fun p => if idxs.contains p.1 then none else some p.2) =
      (List.enumFrom n l).filterMap
        (fun p => if (idxs.filterMap
            (fun i => match i with | 0 => none | Nat.succ j2 => some j2)).contains p.1
          then none else some p.2) := by
  induction l generalizing n with
  | nil => rfl
  | cons y l ih =>
    rw [show List.enumFrom (n + 1) (y :: l) = (n + 1, y) :: List.enumFrom (n + 2) l from rfl,
      show List.enumFrom n (y :: l) = (n, y) :: List.enumFrom (n + 1) l from rfl]
    by_cases hc : idxs.contains (n + 1)
    · rw [@List.filterMap_cons_none _ _
        (fun p : Nat × Nat => if idxs.contains p.1 then none else some p.2)
        (n + 1, y) (List.enumFrom (n + 2) l)
        (by show (if idxs.contains (n + 1) then none else some y) = none
            rw [if_pos hc]),
        @List.filterMap_cons_none _ _
        (fun p : Nat × Nat => if (idxs.filterMap
            (fun i => match i with | 0 => none | Nat.succ j2 => some j2)).contains p.1
          then none else some p.2)
        (n, y) (List.enumFrom (n + 1) l)
        (by show (if (idxs.filterMap
            (fun i => match i with | 0 => none | Nat.succ j2 => some j2)).contains n
          then none else some y) = none
            rw [idxShift_contains, if_pos hc])]
      exact ih (n + 1)
    · rw [@List.filterMap_cons_some _ _
        (fun p : Nat × Nat => if idxs.contains p.1 then none else some p.2)
        (n + 1, y) (List.enumFrom (n + 2) l) y
        (by show (if idxs.contains (n + 1) then none else some y) = some y
            rw [if_neg hc]),
        @List.filterMap_cons_some _ _
        (fun p : Nat × Nat => if (idxs.filterMap
            (fun i => match i with | 0 => none | Nat.succ j2 => some j2)).contains p.1
          then none else some p.2)
        (n, y) (List.enumFrom (n + 1) l) y
        (by show (if (idxs.filterMap
            (fun i => match i with | 0 => none | Nat.succ j2 => some j2)).contains n
          then none else some y) = some y
            rw [idxShift_contains, if_neg hc])]
      rw [ih (n + 1)]

theorem pyDelIdxs_cons (y : Nat) (l : List Nat) (idxs : List Nat) :
    pyDelIdxs (y :: l) idxs =
      (if idxs.contains 0 then [] else [y]) ++
        pyDelIdxs l (idxs.filterMap
          (fun i => match i with | 0 => none | Nat.succ j2 => some j2)) := by
  unfold pyDelIdxs
  rw [show (y :: l).enum = (0, y) :: List.enumFrom 1 l from rfl]
  by_cases hc : idxs.contains 0
  · rw [@List.filterMap_cons_none _ _
      (fun p : Nat × Nat => if idxs.contains p.1 then none else some p.2)
      (0, y) (List.enumFrom 1 l)
      (by show (if idxs.contains 0 then none else some y) = none
          rw [if_pos hc]), if_pos hc]
    rw [show List.enumFrom 1 l = List.enumFrom (0 + 1) l from rfl,
      pyDel_enumFrom_shift l idxs 0]
    rw [List.nil_append]
    rfl
  · rw [@List.filterMap_cons_some _ _
      (fun p : Nat × Nat => if idxs.contains p.1 then none else some p.2)
      (0, y) (List.enumFrom 1 l) y
      (by show (if idxs.contains 0 then none else some y) = some y
          rw [if_neg hc]), if_neg hc]
    rw [show List.enumFrom 1 l = List.enumFrom (0 + 1) l from rfl,
      pyDel_enumFrom_shift l idxs 0]
    rw [List.singleton_append]
    rfl

theorem count_getIdxs_cons_shift (y : Nat) (l : List Nat) (idxs : List Nat)
    (hnd : idxs.Nodup) (x : Nat) :
    (pyGetIdxs (y :: l) idxs).count x =
      (if 0 ∈ idxs then (if x = y then 1 else 0) else 0) +
        (pyGetIdxs l (idxs.filterMap
          (fun i => match i with | 0 => none | Nat.succ j2 => some j2))).count x := by
  induction idxs with
  | nil => simp [pyGetIdxs]
  | cons i idxs ih =>
    rw [List.nodup_cons] at hnd
    have ihc := ih hnd.2
    cases i with
    | zero =>
      rw [show pyGetIdxs (y :: l) (0 :: idxs) = y :: pyGetIdxs (y :: l) idxs from rfl]
      rw [List.filterMap_cons_none (by simp)]
      rw [count_cons_nat y _ x, ihc,
        if_pos (List.mem_cons_self 0 idxs), if_neg (show ¬(0 ∈ idxs) from hnd.1)]
      omega
    | succ j =>
      rw [show pyGetIdxs (y :: l) ((j + 1) :: idxs) =
        l.getD j 0 :: pyGetIdxs (y :: l) idxs from rfl]
      rw [List.filterMap_cons_some (by rfl)]
      rw [show pyGetIdxs l (j :: idxs.filterMap
          (fun i => match i with | 0 => none | Nat.succ j2 => some j2)) =
        l.getD j 0 :: pyGetIdxs l (idxs.filterMap
          (fun i => match i with | 0 => none | Nat.succ j2 => some j2)) from rfl]
      rw [count_cons_nat (l.getD j 0) _ x, count_cons_nat (l.getD j 0) _ x, ihc]
      by_cases h0 : 0 ∈ idxs
      · rw [if_pos h0, if_pos (show (0 : Nat) ∈ (j + 1) :: idxs from
          List.mem_cons_of_mem _ h0)]
        omega
      · rw [if_neg h0, if_neg (show ¬((0 : Nat) ∈ (j + 1) :: idxs) from by
          intro hc
          rcases List.mem_cons.mp hc with hc2 | hc2
          · exact Nat.noConfusion hc2
          · exact h0 hc2)]
        omega

/-- Deleting a duplicate-free in-bounds selection splits the multiset:
what remains plus what was selected is the original. -/
theorem count_del_get (l : List Nat) (idxs : List Nat) (hnd : idxs.Nodup)
    (hb : ∀ i ∈ idxs, i < l.length) (x : Nat) :
    (pyDelIdxs l idxs).count x + (pyGetIdxs l idxs).count x = l.count x := by
  induction l generalizing idxs with
  | nil =>
    have hnil : idxs = [] := by
      rw [List.eq_nil_iff_forall_not_mem]
      intro i hi
      exact absurd (hb i hi) (by simp)
    subst hnil
    rfl
  | cons y l ih =>
    rw [pyDelIdxs_cons, count_getIdxs_cons_shift y l idxs hnd x, List.count_append]
    have hshift_nd := idxShift_nodup idxs hnd
    have hshift_b : ∀ i ∈ idxs.filterMap
        (fun i => match i with | 0 => none | Nat.succ j2 => some j2), i < l.length := by
      intro i hi
      have := hb (i + 1) ((mem_idxShift idxs i).mp hi)
      simpa using this
    have ihc := ih _ hshift_nd hshift_b
    rw [count_cons_nat y l x]
    by_cases h0 : 0 ∈ idxs
    · rw [if_pos (List.elem_iff.mpr h0), if_pos h0]
      simp only [List.count_nil]
      omega
    · rw [if_neg (by
        intro hc
        exact h0 (List.elem_iff.mp hc)), if_neg h0]
      rw [count_cons_nat y [] x]
      simp only [List.count_nil]
      omega

theorem length_pySetExt (l idxs v : List Nat) : (pySetExt l idxs v).length = l.length := by
  unfold pySetExt
  rw [List.length_map, List.enum_length]

theorem getElem_pySetExt_none (l idxs v : List Nat) (n : Nat)
    (h1 : n < (pySetExt l idxs v).length) (h2 : n < l.length)
    (hf : idxs.findIdx? (fun i => i = n) = none) :
    (pySetExt l idxs v)[n] = l[n] := by
  unfold pySetExt at h1 ⊢
  rw [List.getElem_map, List.getElem_enum]
  show (match idxs.findIdx? (fun i => i = n) with
    | some j => v.getD j (l[n]) | none => l[n]) = l[n]
  rw [hf]

theorem getElem_pySetExt_some (l idxs v : List Nat) (n j : Nat)
    (h1 : n < (pySetExt l idxs v).length) (h2 : n < l.length)
    (hf : idxs.findIdx? (fun i => i = n) = some j) :
    (pySetExt l idxs v)[n] = v.getD j (l[n]) := by
  unfold pySetExt at h1 ⊢
  rw [List.getElem_map, List.getElem_enum]
  show (match idxs.findIdx? (fun i => i = n) with
    | some j => v.getD j (l[n]) | none => l[n]) = v.getD j (l[n])
  rw [hf]

theorem pySetExt_nil (l v : List Nat) : pySetExt l [] v = l := by
  unfold pySetExt
  rw [show (fun p : Nat × Nat => match ([] : List Nat).findIdx? (fun i => i = p.1) with
    | some j => v.getD j p.2 | none => p.2) = (fun p : Nat × Nat => p.2) from rfl]
  exact List.enum_map_snd l

theorem pySetExt_cons (l : List Nat) (i : Nat) (idxs : List Nat) (w : Nat) (vs : List Nat) :
    pySetExt l (i :: idxs) (w :: vs) = (pySetExt l idxs vs).set i w := by
  refine List.ext_getElem ?_ ?_
  · rw [length_pySetExt, List.length_set, length_pySetExt]
  · intro n h1 h2
    have hn : n < l.length := by
      rw [length_pySetExt] at h1
      exact h1
    have h2p : n < (pySetExt l idxs vs).length := by
      rw [length_pySetExt]
      exact hn
    rw [List.getElem_set]
    by_cases hin : i = n
    · rw [getElem_pySetExt_some l (i :: idxs) (w :: vs) n 0 h1 hn (by
        rw [List.findIdx?_cons, if_pos (by simpa using hin)]), if_pos hin]
      rfl
    · rw [if_neg hin]
      cases hfnd : idxs.findIdx? (fun x => x = n) with
      | none =>
        rw [getElem_pySetExt_none l (i :: idxs) (w :: vs) n h1 hn (by
          rw [List.findIdx?_cons, if_neg (by simpa using hin), List.findIdx?_succ, hfnd]
          rfl)]
        rw [getElem_pySetExt_none l idxs vs n h2p hn hfnd]
      | some j =>
        rw [getElem_pySetExt_some l (i :: idxs) (w :: vs) n (j + 1) h1 hn (by
          rw [List.findIdx?_cons, if_neg (by simpa using hin), List.findIdx?_succ, hfnd]
          rfl)]
        rw [getElem_pySetExt_some l idxs vs n j h2p hn hfnd, List.getD_cons_succ]

theorem pySetExt_getD_not_mem (l idxs v : List Nat) (i : Nat) (hi : i < l.length)
    (hnot : i ∉ idxs) : (pySetExt l idxs v).getD i 0 = l.getD i 0 := by
  have h1 : i < (pySetExt l idxs v).length := by
    rw [length_pySetExt]
    exact hi
  rw [List.getD_eq_getElem _ _ h1, List.getD_eq_getElem _ _ hi]
  refine getElem_pySetExt_none l idxs v i h1 hi ?_
  rw [List.findIdx?_eq_none_iff]
  intro x hx
  simp only [decide_eq_false_iff_not]
  intro hxn
  subst hxn
  exact hnot hx

/-- Positional slice write with matching lengths: the new values replace
exactly the selected occurrences. -/
theorem count_pySetExt (l idxs v : List Nat) (hnd : idxs.Nodup)
    (hb : ∀ i ∈ idxs, i < l.length) (hlen : idxs.length = v.length) (x : Nat) :
    ((pySetExt l idxs v).count x : Int) + ((pyGetIdxs l idxs).count x : Int) =
      (l.count x : Int) + (v.count x : Int) := by
  induction idxs generalizing v with
  | nil =>
    cases v with
    | nil => rw [pySetExt_nil]; rfl
    | cons w vs => exact absurd hlen (by simp)
  | cons i idxs ih =>
    cases v with
    | nil => exact absurd hlen (by simp)
    | cons w vs =>
      rw [List.nodup_cons] at hnd
      have hi : i < l.length := hb i (List.mem_cons_self _ _)
      have hip : i < (pySetExt l idxs vs).length := by
        rw [length_pySetExt]
        exact hi
      rw [pySetExt_cons, count_set_getD _ i w hip x,
        pySetExt_getD_not_mem l idxs vs i hi hnd.1]
      rw [show pyGetIdxs l (i :: idxs) = l.getD i 0 :: pyGetIdxs l idxs from rfl]
      rw [count_cons_nat (l.getD i 0) _ x, count_cons_nat w vs x]
      have ihc := ih vs hnd.2 (fun i2 hi2 => hb i2 (List.mem_cons_of_mem _ hi2))
        (by simpa using hlen)
      push_cast at ihc ⊢
      omega

theorem sliceWalk_bounds (stop step : Int) (fuel : Nat) :
    ∀ (cur : Int), ∀ i ∈ sliceWalk stop step fuel cur,
      (0 < step → cur ≤ i ∧ i < stop) ∧ (step < 0 → stop < i ∧ i ≤ cur) := by
  induction fuel with
  | zero =>
    intro cur i hi
    unfold sliceWalk at hi
    exact absurd hi (List.not_mem_nil i)
  | succ n ih =>
    intro cur i hi
    unfold sliceWalk at hi
    by_cases hc : (0 < step ∧ cur < stop) ∨ (step < 0 ∧ stop < cur)
    · rw [if_pos hc] at hi
      rcases List.mem_cons.mp hi with hi | hi
      · subst hi
        refine ⟨fun hs => ?_, fun hs => ?_⟩ <;>
          rcases hc with ⟨h1, h2⟩ | ⟨h1, h2⟩ <;> omega
      · have hrec := ih (cur + step) i hi
        refine ⟨fun hs => ?_, fun hs => ?_⟩
        · obtain ⟨ha, hb⟩ := hrec.1 hs
          omega
        · obtain ⟨ha, hb⟩ := hrec.2 hs
          omega
    · rw [if_neg hc] at hi
      exact absurd hi (List.not_mem_nil i)

theorem sliceWalk_toNat_nodup (stop step : Int) (fuel : Nat) :
    ∀ (cur : Int), ((0 < step ∧ 0 ≤ cur) ∨ (step < 0 ∧ -1 ≤ stop)) →
      ((sliceWalk stop step fuel cur).map Int.toNat).Nodup := by
  induction fuel with
  | zero =>
    intro cur hcase
    unfold sliceWalk
    exact List.nodup_nil
  | succ n ih =>
    intro cur hcase
    unfold sliceWalk
    by_cases hc : (0 < step ∧ cur < stop) ∨ (step < 0 ∧ stop < cur)
    · rw [if_pos hc]
      rw [List.map_cons, List.nodup_cons]
      constructor
      · intro hmem
        obtain ⟨i, hi, hieq⟩ := List.mem_map.mp hmem
        have hb := sliceWalk_bounds stop step n (cur + step) i hi
        rcases hcase with ⟨h1, h2⟩ | ⟨h1, h2⟩
        · obtain ⟨ha, hb2⟩ := hb.1 h1
          omega
        · obtain ⟨ha, hb2⟩ := hb.2 h1
          rcases hc with ⟨hc1, hc2⟩ | ⟨hc1, hc2⟩ <;> omega
      · apply ih
        rcases hcase with ⟨h1, h2⟩ | ⟨h1, h2⟩
        · exact Or.inl ⟨h1, by omega⟩
        · exact Or.inr ⟨h1, h2⟩
    · rw [if_neg hc]
      exact List.nodup_nil

theorem sliceWalk_toNat_lt (stop step : Int) (L fuel : Nat) (cur : Int)
    (hcase : (0 < step ∧ 0 ≤ cur ∧ stop ≤ (L : Int)) ∨
      (step < 0 ∧ -1 ≤ stop ∧ cur ≤ (L : Int) - 1)) :
    ∀ j ∈ (sliceWalk stop step fuel cur).map Int.toNat, j < L := by
  intro j hj
  obtain ⟨i, hi, hieq⟩ := List.mem_map.mp hj
  have hb := sliceWalk_bounds stop step fuel cur i hi
  rcases hcase with ⟨h1, h2, h3⟩ | ⟨h1, h2, h3⟩
  · obtain ⟨ha, hb2⟩ := hb.1 h1
    omega
  · obtain ⟨ha, hb2⟩ := hb.2 h1
    omega

theorem sliceWalk_one_toNat (stop : Int) (fuel : Nat) :
    ∀ (cur : Int), 0 ≤ cur → (stop - cur).toNat ≤ fuel →
      (sliceWalk stop 1 fuel cur).map Int.toNat =
        List.range' cur.toNat (stop - cur).toNat := by
  induction fuel with
  | zero =>
    intro cur h0 hf
    unfold sliceWalk
    rw [show (stop - cur).toNat = 0 from by omega]
    rfl
  | succ n ih =>
    intro cur h0 hf
    unfold sliceWalk
    by_cases hlt : cur < stop
    · rw [if_pos (Or.inl ⟨by decide, hlt⟩)]
      rw [List.map_cons, ih (cur + 1) (by omega) (by omega)]
      rw [show (stop - cur).toNat = (stop - (cur + 1)).toNat + 1 from by omega]
      rw [List.range'_succ]
      rw [show (cur + 1).toNat = cur.toNat + 1 from by omega]
    · rw [if_neg (by omega)]
      rw [show (stop - cur).toNat = 0 from by omega]
      rfl

theorem pyGetIdxs_range (l : List Nat) (n : Nat) :
    ∀ (s : Nat), s + n ≤ l.length →
      pyGetIdxs l (List.range' s n) = (l.drop s).take n := by
  induction n with
  | zero =>
    intro s _
    rfl
  | succ n ih =>
    intro s h
    rw [List.range'_succ]
    rw [show pyGetIdxs l (s :: List.range' (s + 1) n) =
      l.getD s 0 :: pyGetIdxs l (List.range' (s + 1) n) from rfl]
    rw [ih (s + 1) (by omega)]
    have hs : s < l.length := by omega
    rw [List.getD_eq_getElem l 0 hs, List.drop_eq_getElem_cons hs, List.take_succ_cons]

theorem count_take_drop_decomp (l : List Nat) (s n : Nat) (x : Nat) :
    l.count x = (l.take s).count x + ((l.drop s).take n).count x
      + (l.drop (s + n)).count x := by
  conv_lhs => rw [← List.take_append_drop (s + n) l]
  rw [List.count_append, List.take_add, List.count_append]

theorem count_pySetContig (l : List Nat) (start stop : Int) (v : List Nat)
    (h0 : 0 ≤ start) (x : Nat) :
    ((pySetContig l start stop v).count x : Int) =
      (l.count x : Int)
        - (((l.drop start.toNat).take (stop - start).toNat).count x : Int)
        + (v.count x : Int) := by
  have hd := count_take_drop_decomp l start.toNat (stop - start).toNat x
  unfold pySetContig
  rw [show (max start stop).toNat = start.toNat + (stop - start).toNat from by omega]
  rw [List.count_append, List.count_append]
  push_cast
  omega

theorem clampIdx_bounds (s L lower upper : Int) (hl : lower ≤ 0) (hu : L - 1 ≤ upper)
    (hlu : lower ≤ upper) (h0 : 0 ≤ L) :
    lower ≤ clampIdx s L lower upper ∧ clampIdx s L lower upper ≤ upper := by
  unfold clampIdx
  by_cases hs : s < 0
  · rw [if_pos hs]
    omega
  · rw [if_neg hs]
    omega

theorem sliceIndices_bounds (sl : PySlice) (L : Nat) (start stop step : Int)
    (h : sliceIndices sl L = some (start, stop, step)) :
    step ≠ 0 ∧
    (0 < step → (0 ≤ start ∧ start ≤ (L : Int)) ∧ (0 ≤ stop ∧ stop ≤ (L : Int))) ∧
    (step < 0 → (-1 ≤ start ∧ start ≤ (L : Int) - 1) ∧
      (-1 ≤ stop ∧ stop ≤ (L : Int) - 1)) := by
  unfold sliceIndices at h
  by_cases hz : sl.step?.getD 1 = 0
  · rw [if_pos hz] at h
    exact absurd h (by simp)
  · rw [if_neg hz] at h
    simp only [Option.some.injEq, Prod.mk.injEq] at h
    obtain ⟨h1, h2, h3⟩ := h
    subst h3
    refine ⟨hz, fun hs => ?_, fun hs => ?_⟩
    · have hns : ¬ sl.step?.getD 1 < 0 := by omega
      rw [if_neg hns, if_neg hns, if_neg hns] at h1 h2
      constructor
      · cases hss : sl.start? with
        | none =>
          rw [hss] at h1
          simp only [] at h1
          omega
        | some v =>
          rw [hss] at h1
          simp only [] at h1
          have := clampIdx_bounds v (L : Int) 0 (L : Int) (by omega) (by omega)
            (by omega) (by omega)
          omega
      · cases hst : sl.stop? with
        | none =>
          rw [hst] at h2
          simp only [] at h2
          omega
        | some v =>
          rw [hst] at h2
          simp only [] at h2
          have := clampIdx_bounds v (L : Int) 0 (L : Int) (by omega) (by omega)
            (by omega) (by omega)
          omega
    · have hps : sl.step?.getD 1 < 0 := hs
      rw [if_pos hps, if_pos hps, if_pos hps] at h1 h2
      constructor
      · cases hss : sl.start? with
        | none =>
          rw [hss] at h1
          simp only [] at h1
          omega
        | some v =>
          rw [hss] at h1
          simp only [] at h1
          have := clampIdx_bounds v (L : Int) (-1) ((L : Int) - 1) (by omega) (by omega)
            (by omega) (by omega)
          omega
      · cases hst : sl.stop? with
        | none =>
          rw [hst] at h2
          simp only [] at h2
          omega
        | some v =>
          rw [hst] at h2
          simp only [] at h2
          have := clampIdx_bounds v (L : Int) (-1) ((L : Int) - 1) (by omega) (by omega)
            (by omega) (by omega)
          omega

theorem sliceSel_ok (sl : PySlice) (L : Nat) (idxs : List Nat)
    (h : sliceSel sl L = some idxs) : idxs.Nodup ∧ ∀ j ∈ idxs, j < L := by
  unfold sliceSel at h
  cases hsi : sliceIndices sl L with
  | none =>
    rw [hsi] at h
    exact absurd h (by simp)
  | some t =>
    rw [hsi] at h
    obtain ⟨start, stop, step⟩ := t
    simp only [Option.map_some', Option.some.injEq] at h
    subst h
    obtain ⟨hz, hposB, hnegB⟩ := sliceIndices_bounds sl L start stop step hsi
    rcases (by omega : 0 < step ∨ step < 0) with hs | hs
    · obtain ⟨⟨ha1, ha2⟩, hb1, hb2⟩ := hposB hs
      exact ⟨sliceWalk_toNat_nodup stop step L start (Or.inl ⟨hs, ha1⟩),
        sliceWalk_toNat_lt stop step L L start (Or.inl ⟨hs, ha1, hb2⟩)⟩
    · obtain ⟨⟨ha1, ha2⟩, hb1, hb2⟩ := hnegB hs
      exact ⟨sliceWalk_toNat_nodup stop step L start (Or.inr ⟨hs, hb1⟩),
        sliceWalk_toNat_lt stop step L L start (Or.inr ⟨hs, hb1, ha2⟩)⟩

theorem idxLocK_cnt_facts (κ : MMKind) (l : ItemsOf κ) (i : Int) (j old : Nat)
    (h : idxLocK κ l i = some (j, old)) :
    1 ≤ cntK κ l old ∧
    (∀ a x, cntK κ (writeIdxK κ l j a) x =
      cntK κ l x - (if x = old then 1 else 0) + (if x = a then 1 else 0)) ∧
    (∀ x, cntK κ (delIdxK κ l j) x = cntK κ l x - (if x = old then 1 else 0)) := by
  cases κ
  case set => exact absurd h (by simp [idxLocK])
  case counter => exact absurd h (by simp [idxLocK])
  case list | checkedList =>
    simp only [idxLocK] at h
    cases hn : pyNorm l.length i with
    | none =>
      rw [hn] at h
      exact absurd h (by simp)
    | some j2 =>
      rw [hn] at h
      simp only [Option.map_some', Option.some.injEq, Prod.mk.injEq] at h
      obtain ⟨hj, hold⟩ := h
      subst hj
      subst hold
      have hlt : j2 < l.length := pyNorm_lt l.length i j2 hn
      refine ⟨?_, ?_, ?_⟩
      · show (1 : Int) ≤ (l.count (l.getD j2 0) : Int)
        have hmem : l.getD j2 0 ∈ l := by
          rw [List.getD_eq_getElem l 0 hlt]
          exact List.getElem_mem hlt
        have := List.count_pos_iff.mpr hmem
        omega
      · intro a x
        exact count_set_getD l j2 a hlt x
      · intro x
        exact count_eraseIdx_getD l j2 hlt x

theorem WFits_writeIdxK (κ : MMKind) (l : ItemsOf κ) (j a : Nat) (h : WFits κ l) :
    WFits κ (writeIdxK κ l j a) := by
  cases κ
  case list | checkedList => trivial
  case set => exact h
  case counter => exact h

theorem WFits_delIdxK (κ : MMKind) (l : ItemsOf κ) (j : Nat) (h : WFits κ l) :
    WFits κ (delIdxK κ l j) := by
  cases κ
  case list | checkedList => trivial
  case set => exact h
  case counter => exact h

theorem WFits_delSliceK (κ : MMKind) (l : ItemsOf κ) (sl : PySlice) (h : WFits κ l) :
    WFits κ (delSliceK κ l sl) := by
  cases κ
  case list | checkedList => trivial
  case set => exact h
  case counter => exact h

theorem writeSliceK_ok_WFits (κ : MMKind) (l its2 : ItemsOf κ) (sl : PySlice)
    (xs : List Nat) (h : writeSliceK κ l sl xs = .ok its2) : WFits κ its2 := by
  cases κ
  case list | checkedList => trivial
  case set => exact absurd h (by simp [writeSliceK])
  case counter => exact absurd h (by simp [writeSliceK])

theorem getSliceK_cnt_facts (κ : MMKind) (l : ItemsOf κ) (sl : PySlice) (seg : List Nat)
    (h : getSliceK κ l sl = some seg) :
    (∀ x, (seg.count x : Int) ≤ cntK κ l x) ∧
    (∀ x, cntK κ (delSliceK κ l sl) x = cntK κ l x - (seg.count x : Int)) ∧
    (∀ xs its2, writeSliceK κ l sl xs = .ok its2 →
      ∀ x, cntK κ its2 x = cntK κ l x - (seg.count x : Int) + (xs.count x : Int)) := by
  cases κ
  case set => exact absurd h (by simp [getSliceK])
  case counter => exact absurd h (by simp [getSliceK])
  case list | checkedList =>
    simp only [getSliceK] at h
    cases hsel : sliceSel sl l.length with
    | none =>
      rw [hsel] at h
      exact absurd h (by simp)
    | some idxs =>
      rw [hsel] at h
      simp only [Option.map_some', Option.some.injEq] at h
      subst h
      obtain ⟨hnd, hb⟩ := sliceSel_ok sl l.length idxs hsel
      refine ⟨?_, ?_, ?_⟩
      · intro x
        have := count_del_get l idxs hnd hb x
        show ((pyGetIdxs l idxs).count x : Int) ≤ (l.count x : Int)
        omega
      · intro x
        show ((delSliceK _ l sl).count x : Int) = (l.count x : Int) - _
        simp only [delSliceK]
        rw [hsel]
        have := count_del_get l idxs hnd hb x
        push_cast
        omega
      · intro xs its2 hw x
        simp only [writeSliceK] at hw
        unfold sliceSel at hsel
        cases hsi : sliceIndices sl l.length with
        | none =>
          rw [hsi] at hsel
          exact absurd hsel (by simp)
        | some t =>
          obtain ⟨start, stop, step⟩ := t
          rw [hsi] at hsel hw
          simp only [] at hw
          simp only [Option.map_some', Option.some.injEq] at hsel
          obtain ⟨hz, hposB, hnegB⟩ := sliceIndices_bounds sl l.length start stop step hsi
          by_cases h1 : step = 1
          · rw [if_pos h1] at hw
            simp only [Except.ok.injEq] at hw
            subst hw
            obtain ⟨⟨ha1, ha2⟩, hb1, hb2⟩ := hposB (by omega)
            have hrange : idxs = List.range' start.toNat (stop - start).toNat := by
              rw [← hsel, h1]
              exact sliceWalk_one_toNat stop l.length start ha1 (by omega)
            have hseg : pyGetIdxs l idxs = (l.drop start.toNat).take (stop - start).toNat := by
              rw [hrange]
              exact pyGetIdxs_range l (stop - start).toNat start.toNat (by omega)
            show ((pySetContig l start stop xs).count x : Int) =
              (l.count x : Int) - ((pyGetIdxs l idxs).count x : Int) + (xs.count x : Int)
            rw [count_pySetContig l start stop xs ha1 x, hseg]
          · rw [if_neg h1] at hw
            by_cases hlen : ((sliceWalk stop step l.length start).map Int.toNat).length
                = xs.length
            · rw [if_pos hlen] at hw
              simp only [Except.ok.injEq] at hw
              subst hw
              rw [hsel] at hlen
              have := count_pySetExt l idxs xs hnd hb hlen x
              show ((pySetExt l ((sliceWalk stop step l.length start).map Int.toNat) xs).count x : Int)
                = (l.count x : Int) - ((pyGetIdxs l idxs).count x : Int) + (xs.count x : Int)
              rw [hsel]
              omega
            · rw [if_neg hlen] at hw
              exact absurd hw (by simp)

theorem cntK_le_one_of_nodup (κ : MMKind) (hκ : κ ≠ .counter) (l : ItemsOf κ)
    (h : (membersK κ l).Nodup) : ∀ x, cntK κ l x ≤ 1 := by
  cases κ
  case counter => exact absurd rfl hκ
  case list | checkedList =>
    intro x
    show ((l : List Nat).count x : Int) ≤ 1
    have h2 : (l : List Nat).Nodup := h
    have := List.nodup_iff_count_le_one.mp h2 x
    omega
  case set =>
    intro x
    show (if x ∈ l then (1 : Int) else 0) ≤ 1
    by_cases hx : x ∈ l
    · rw [if_pos hx]
    · rw [if_neg hx]
      omega

theorem checkWrap_ok (b : Bool) (k : Nat) (w : String) (r : Res kl kr) (s2 : St kl kr)
    (h : checkWrap b k w r = .ok s2) :
    r = .ok s2 ∧ (sideKind b kl kr = .checkedList → (mview s2.m b k).Nodup) := by
  unfold checkWrap at h
  by_cases hκ : sideKind b kl kr = .checkedList
  · rw [if_pos hκ] at h
    cases r with
    | error e => exact absurd h (by simp)
    | ok s =>
      simp only [] at h
      by_cases hd : (dupKeys (mview s.m b k)).length > 0
      · rw [if_pos hd] at h
        exact absurd h (by simp)
      · rw [if_neg hd] at h
        simp only [Except.ok.injEq] at h
        subst h
        exact ⟨rfl, fun _ => nodup_of_dupKeys_len _ (by omega)⟩
  · rw [if_neg hκ] at h
    exact ⟨h, fun hc => absurd hc hκ⟩

/-- `__delitem__` with an integer index preserves the invariants. -/
theorem opDelIdx_preserves (b : Bool) (k : Nat) (i : Int) (s s2 : St kl kr)
    (hsym : Sym s.m) (hwf : WF s.m)
    (h : opDelIdx b k i s = .ok s2) : Sym s2.m ∧ WF s2.m := by
  simp only [opDelIdx, touchSt] at h
  by_cases hguard : sideKind b kl kr = .set ∨ sideKind b kl kr = .counter
  · rw [if_pos hguard] at h
    exact absurd h (by simp)
  · rw [if_neg hguard] at h
    obtain ⟨hbody, hchkfin⟩ := checkWrap_ok _ _ _ _ _ h
    rw [sitems_touch] at hbody
    cases hloc : idxLocK (sideKind b kl kr) (sitems s.m b k) i with
    | none =>
      rw [hloc] at hbody
      exact absurd hbody (by simp)
    | some jo =>
      obtain ⟨j, old⟩ := jo
      rw [hloc] at hbody
      simp only [] at hbody
      obtain ⟨s1, h1, h2⟩ := exceptBind_ok hbody
      simp only [pure, Except.pure, Except.ok.injEq] at h2
      obtain ⟨l2, hprim, hm1, _⟩ := mmUnlink_ok _ _ _ _ _ _ h1
      simp only [] at hprim hm1
      rw [sitems_touch] at hprim
      have hm2 : s2.m = setItems s1.m b k
          (delIdxK (sideKind b kl kr) (sitems s1.m b k) j) := by
        rw [← h2]
        rfl
      have hsit1 : sitems s1.m b k = sitems s.m b k := by
        rw [hm1, sitems_setItems_negb, sitems_touch, sitems_touch]
      obtain ⟨hold_ge, hw_cnt, hd_cnt⟩ := idxLocK_cnt_facts _ _ _ _ _ hloc
      obtain ⟨heq2, hoth2⟩ := removePrim_ok_cnt _ _ _ _ hprim (hwf.2.2 (!b) old)
      have hwfl2 := removePrim_ok_WFits _ _ _ _ hprim (hwf.2.2 (!b) old)
      constructor
      · refine Sym_shift s.m s2.m b k (fun x => -(if x = old then 1 else 0)) ?_ ?_ ?_ ?_ hsym
        · intro x
          show cnt s2.m b k x = cnt s.m b k x + -(if x = old then 1 else 0)
          rw [hm2, cnt_setItems_self, hsit1, hd_cnt x]
          unfold cnt
          omega
        · intro k2 x hk2
          rw [hm2, cnt_setItems_ne _ _ _ _ _ hk2, hm1, cnt_setItems_negb,
            cnt_touch, cnt_touch]
        · intro a2
          show cnt s2.m (!b) a2 k = cnt s.m (!b) a2 k + -(if a2 = old then 1 else 0)
          rw [hm2, cnt_setItems_neg, hm1]
          by_cases ha : a2 = old
          · subst ha
            rw [cnt_setItems_self, heq2, if_pos rfl]
            unfold cnt
            omega
          · rw [cnt_setItems_ne _ _ _ _ _ ha, cnt_touch, cnt_touch, if_neg ha]
            ring
        · intro a2 x hx
          rw [hm2, cnt_setItems_neg, hm1]
          by_cases ha : a2 = old
          · subst ha
            rw [cnt_setItems_self, hoth2 x hx]
            rfl
          · rw [cnt_setItems_ne _ _ _ _ _ ha, cnt_touch, cnt_touch]
      · rw [hm2]
        refine WF_setItems _ _ _ _ ?_ ?_
        · rw [hm1]
          exact WF_setItems _ _ _ _ (WF_touch _ _ _ (WF_touch _ _ _ hwf)) hwfl2
        · rw [hsit1]
          exact WFits_delIdxK _ _ _ (hwf.2.2 b k)

/-- `__setitem__` with an integer index preserves the invariants. -/
theorem opSetIdx_preserves (b : Bool) (k : Nat) (i : Int) (a : Nat) (s s2 : St kl kr)
    (hmix : ¬ mixedKinds kl kr) (hsym : Sym s.m) (hwf : WF s.m)
    (h : opSetIdx b k i a s = .ok s2) : Sym s2.m ∧ WF s2.m := by
  simp only [opSetIdx, touchSt] at h
  by_cases hguard : sideKind b kl kr = .set ∨ sideKind b kl kr = .counter
  · rw [if_pos hguard] at h
    exact absurd h (by simp)
  · rw [if_neg hguard] at h
    obtain ⟨hbody, hchkfin⟩ := checkWrap_ok _ _ _ _ _ h
    rw [sitems_touch] at hbody
    cases hloc : idxLocK (sideKind b kl kr) (sitems s.m b k) i with
    | none =>
      rw [hloc] at hbody
      exact absurd hbody (by simp)
    | some jo =>
      obtain ⟨j, old⟩ := jo
      rw [hloc] at hbody
      simp only [] at hbody
      obtain ⟨s1, h1, h'⟩ := exceptBind_ok hbody
      obtain ⟨s3, h2, h3⟩ := exceptBind_ok h'
      simp only [pure, Except.pure, Except.ok.injEq] at h3
      obtain ⟨l2, hprim, hm1, _⟩ := mmUnlink_ok _ _ _ _ _ _ h1
      simp only [] at hprim hm1
      rw [sitems_touch] at hprim
      obtain ⟨l3, hprim2, hm3, _⟩ := mmLink_ok _ _ _ _ _ _ h2
      simp only [] at hprim2 hm3
      rw [sitems_setItems_neg] at hprim2
      have hm2 : s2.m = setItems (touch (setItems s1.m b k
          (writeIdxK (sideKind b kl kr) (sitems s1.m b k) j a)) (!b) a) (!b) a l3 := by
        rw [← h3]
        exact hm3
      have hsit1 : sitems s1.m b k = sitems s.m b k := by
        rw [hm1, sitems_setItems_negb, sitems_touch, sitems_touch]
      obtain ⟨hold_ge, hw_cnt, _⟩ := idxLocK_cnt_facts _ _ _ _ _ hloc
      obtain ⟨heqU, hothU⟩ := removePrim_ok_cnt _ _ _ _ hprim (hwf.2.2 (!b) old)
      have hwflU := removePrim_ok_WFits _ _ _ _ hprim (hwf.2.2 (!b) old)
      have hs1opp_old : sitems s1.m (!b) old = l2 := by
        rw [hm1, sitems_setItems_self]
      have hs1opp_ne : ∀ a2, a2 ≠ old → sitems s1.m (!b) a2 = sitems s.m (!b) a2 := by
        intro a2 ha
        rw [hm1, sitems_setItems_ne _ _ _ _ _ ha, sitems_touch, sitems_touch]
      have hwfs1opp : ∀ a2, WFits (sideKind (!b) kl kr) (sitems s1.m (!b) a2) := by
        intro a2
        by_cases ha : a2 = old
        · rw [ha, hs1opp_old]
          exact hwflU
        · rw [hs1opp_ne a2 ha]
          exact hwf.2.2 (!b) a2
      have hUopp : ∀ a2, cntK (sideKind (!b) kl kr) (sitems s1.m (!b) a2) k =
          cnt s.m (!b) a2 k - (if a2 = old then 1 else 0) := by
        intro a2
        by_cases ha : a2 = old
        · subst ha
          rw [hs1opp_old, heqU, if_pos rfl]
          rfl
        · rw [hs1opp_ne a2 ha, if_neg ha]
          show cnt s.m (!b) a2 k = cnt s.m (!b) a2 k - 0
          omega
      have hUopp2 : ∀ a2 x, x ≠ k → cntK (sideKind (!b) kl kr) (sitems s1.m (!b) a2) x =
          cnt s.m (!b) a2 x := by
        intro a2 x hx
        by_cases ha : a2 = old
        · subst ha
          rw [hs1opp_old, hothU x hx]
          rfl
        · rw [hs1opp_ne a2 ha]
          rfl
      have hset2 : sideKind (!b) kl kr = .set →
          cntK (sideKind (!b) kl kr) (sitems s1.m (!b) a) k = 0 := by
        intro hs2
        have hchk : sideKind b kl kr = .checkedList := by
          rcases goodKinds_own_of_opp_set hmix b hs2 with hx | hx
          · exact absurd (Or.inl hx) hguard
          · exact hx
        have hnodup : (mview s2.m b k).Nodup := hchkfin hchk
        have hmv : mview s2.m b k = membersK (sideKind b kl kr)
            (writeIdxK (sideKind b kl kr) (sitems s.m b k) j a) := by
          show membersK _ (sitems s2.m b k) = _
          rw [hm2, sitems_setItems_negb, sitems_touch, sitems_setItems_self, hsit1]
        rw [hmv] at hnodup
        have hle := cntK_le_one_of_nodup (sideKind b kl kr)
          (fun hc => hguard (Or.inr hc)) _ hnodup
        have h1a := hle a
        rw [hw_cnt a a, show (if a = a then (1 : Int) else 0) = 1 from if_pos rfl] at h1a
        have hnn := cntK_nonneg (sideKind b kl kr)
          (fun hc => hguard (Or.inr hc)) (sitems s.m b k) a
        rw [hUopp a]
        have hsymv : cnt s.m (!b) a k = cntK (sideKind b kl kr) (sitems s.m b k) a := by
          rw [← sym_flip s.m hsym b k a]
          rfl
        rw [hsymv]
        by_cases hao : a = old
        · rw [if_pos hao] at h1a ⊢
          rw [← hao] at hold_ge
          omega
        · rw [if_neg hao] at h1a ⊢
          omega
      have hdeltaA := appendPrim_ok_cnt _ _ _ _ hprim2 hset2
      have hwflA := appendPrim_ok_WFits _ _ _ _ hprim2 (hwfs1opp a)
      constructor
      · refine Sym_shift s.m s2.m b k
          (fun x => (if x = a then 1 else 0) - (if x = old then 1 else 0)) ?_ ?_ ?_ ?_ hsym
        · intro x
          show cnt s2.m b k x = cnt s.m b k x +
            ((if x = a then 1 else 0) - (if x = old then 1 else 0))
          rw [hm2, cnt_setItems_negb, cnt_touch, cnt_setItems_self, hsit1, hw_cnt a x]
          unfold cnt
          omega
        · intro k2 x hk2
          rw [hm2, cnt_setItems_negb, cnt_touch, cnt_setItems_ne _ _ _ _ _ hk2,
            hm1, cnt_setItems_negb, cnt_touch, cnt_touch]
        · intro a2
          show cnt s2.m (!b) a2 k = cnt s.m (!b) a2 k +
            ((if a2 = a then 1 else 0) - (if a2 = old then 1 else 0))
          by_cases haa : a2 = a
          · subst haa
            rw [hm2, cnt_setItems_self, hdeltaA k,
              show (if k = k then (1 : Int) else 0) = 1 from if_pos rfl,
              show (if a2 = a2 then (1 : Int) else 0) = 1 from if_pos rfl, hUopp a2]
            omega
          · rw [hm2, cnt_setItems_ne _ _ _ _ _ haa, cnt_touch, cnt_setItems_neg,
              show (if a2 = a then (1 : Int) else 0) = 0 from if_neg haa]
            show cntK (sideKind (!b) kl kr) (sitems s1.m (!b) a2) k = _
            rw [hUopp a2]
            omega
        · intro a2 x hx
          by_cases haa : a2 = a
          · subst haa
            rw [hm2, cnt_setItems_self, hdeltaA x,
              show (if x = k then (1 : Int) else 0) = 0 from if_neg hx]
            show cntK (sideKind (!b) kl kr) (sitems s1.m (!b) a2) x + 0 = _
            rw [hUopp2 a2 x hx]
            omega
          · rw [hm2, cnt_setItems_ne _ _ _ _ _ haa, cnt_touch, cnt_setItems_neg]
            show cntK (sideKind (!b) kl kr) (sitems s1.m (!b) a2) x = _
            rw [hUopp2 a2 x hx]
      · rw [hm2]
        refine WF_setItems _ _ _ _ (WF_touch _ _ _ (WF_setItems _ _ _ _ ?_ ?_)) hwflA
        · rw [hm1]
          exact WF_setItems _ _ _ _ (WF_touch _ _ _ (WF_touch _ _ _ hwf)) hwflU
        · refine WFits_writeIdxK _ _ _ _ ?_
          rw [hsit1]
          exact hwf.2.2 b k

/-- `__delitem__` with a slice preserves the invariants. -/
theorem opDelSlice_preserves (b : Bool) (k : Nat) (sl : PySlice) (s s2 : St kl kr)
    (hsym : Sym s.m) (hwf : WF s.m)
    (h : opDelSlice b k sl s = .ok s2) : Sym s2.m ∧ WF s2.m := by
  simp only [opDelSlice, touchSt] at h
  by_cases hguard : sideKind b kl kr = .set ∨ sideKind b kl kr = .counter
  · rw [if_pos hguard] at h
    exact absurd h (by simp)
  · rw [if_neg hguard] at h
    obtain ⟨hbody, hchkfin⟩ := checkWrap_ok _ _ _ _ _ h
    rw [sitems_touch] at hbody
    cases hseg : getSliceK (sideKind b kl kr) (sitems s.m b k) sl with
    | none =>
      rw [hseg] at hbody
      exact absurd hbody (by simp)
    | some seg =>
      rw [hseg] at hbody
      simp only [] at hbody
      obtain ⟨s1, h1, h2⟩ := exceptBind_ok hbody
      simp only [pure, Except.pure, Except.ok.injEq] at h2
      have hwfT : ∀ k2, WFits (sideKind (!b) kl kr) (sitems (touch s.m b k) (!b) k2) := by
        intro k2
        rw [sitems_touch]
        exact hwf.2.2 (!b) k2
      have hndT : ((getSide (touch s.m b k) (!b)).map Prod.fst).Nodup := by
        have hg : getSide (touch s.m b k) (!b) = getSide s.m (!b) :=
          getSide_touch_neg s.m b k
        rw [hg]
        exact WF_keys s.m hwf (!b)
      obtain ⟨hc1, hc2, hc3, hownU, hkndU⟩ := mmUnlinkAll_spec _ _ _ _ _ h1 hwfT hndT
      simp only [] at hc1 hc2 hc3 hownU hkndU
      simp only [cnt_touch] at hc1 hc2
      have hm2 : s2.m = setItems s1.m b k
          (delSliceK (sideKind b kl kr) (sitems s1.m b k) sl) := by
        rw [← h2]
        rfl
      have hsit1 : sitems s1.m b k = sitems s.m b k := by
        rw [sitems_eq_of_getSide_eq _ _ _ hownU k, sitems_touch]
      obtain ⟨hle_seg, hdelc, _⟩ := getSliceK_cnt_facts _ _ _ _ hseg
      constructor
      · refine Sym_shift s.m s2.m b k (fun x => -(seg.count x : Int)) ?_ ?_ ?_ ?_ hsym
        · intro x
          show cnt s2.m b k x = cnt s.m b k x + -(seg.count x : Int)
          rw [hm2, cnt_setItems_self, hsit1, hdelc x]
          unfold cnt
          omega
        · intro k2 x hk2
          rw [hm2, cnt_setItems_ne _ _ _ _ _ hk2,
            show cnt s1.m b k2 x = cnt (touch s.m b k) b k2 x from
              cnt_eq_of_getSide_eq _ _ _ hownU k2 x, cnt_touch]
        · intro a2
          show cnt s2.m (!b) a2 k = cnt s.m (!b) a2 k + -(seg.count a2 : Int)
          rw [hm2, cnt_setItems_neg, hc1 a2]
          ring
        · intro a2 x hx
          rw [hm2, cnt_setItems_neg, hc2 a2 x hx]
      · refine WF_of_sides s2.m b ?_ ?_ ?_ ?_
        · rw [hm2]
          unfold setItems
          rw [getSide_setSide_self]
          refine keys_aset _ _ _ ?_
          rw [hownU]
          exact keys_touch s.m b k (WF_keys s.m hwf b)
        · rw [hm2, getSide_setItems_neg]
          exact hkndU
        · intro k2
          rw [hm2]
          by_cases hk : k2 = k
          · subst hk
            rw [sitems_setItems_self, hsit1]
            exact WFits_delSliceK _ _ _ (hwf.2.2 b k2)
          · rw [sitems_setItems_ne _ _ _ _ _ hk,
              sitems_eq_of_getSide_eq _ _ _ hownU k2, sitems_touch]
            exact hwf.2.2 b k2
        · intro k2
          rw [hm2, sitems_setItems_neg]
          exact hc3 k2

/-- `__setitem__` with a slice preserves the invariants. -/
theorem opSetSlice_preserves (b : Bool) (k : Nat) (sl : PySlice) (xs : List Nat)
    (s s2 : St kl kr)
    (hmix : ¬ mixedKinds kl kr) (hsym : Sym s.m) (hwf : WF s.m)
    (h : opSetSlice b k sl xs s = .ok s2) : Sym s2.m ∧ WF s2.m := by
  simp only [opSetSlice, touchSt] at h
  by_cases hguard : sideKind b kl kr = .set ∨ sideKind b kl kr = .counter
  · rw [if_pos hguard] at h
    exact absurd h (by simp)
  · rw [if_neg hguard] at h
    obtain ⟨hbody, hchkfin⟩ := checkWrap_ok _ _ _ _ _ h
    rw [sitems_touch] at hbody
    cases hseg : getSliceK (sideKind b kl kr) (sitems s.m b k) sl with
    | none =>
      rw [hseg] at hbody
      exact absurd hbody (by simp)
    | some seg =>
      rw [hseg] at hbody
      simp only [] at hbody
      obtain ⟨s1, h1, h'⟩ := exceptBind_ok hbody
      have hwfT : ∀ k2, WFits (sideKind (!b) kl kr) (sitems (touch s.m b k) (!b) k2) := by
        intro k2
        rw [sitems_touch]
        exact hwf.2.2 (!b) k2
      have hndT : ((getSide (touch s.m b k) (!b)).map Prod.fst).Nodup := by
        have hg : getSide (touch s.m b k) (!b) = getSide s.m (!b) :=
          getSide_touch_neg s.m b k
        rw [hg]
        exact WF_keys s.m hwf (!b)
      obtain ⟨hc1, hc2, hc3, hownU, hkndU⟩ := mmUnlinkAll_spec _ _ _ _ _ h1 hwfT hndT
      simp only [] at hc1 hc2 hc3 hownU hkndU
      simp only [cnt_touch] at hc1 hc2
      have hsit1 : sitems s1.m b k = sitems s.m b k := by
        rw [sitems_eq_of_getSide_eq _ _ _ hownU k, sitems_touch]
      cases hw : writeSliceK (sideKind b kl kr) (sitems s1.m b k) sl xs with
      | error e =>
        rw [hw] at h'
        exact absurd h' (by simp)
      | ok its2 =>
        rw [hw] at h'
        simp only [] at h'
        rw [hsit1] at hw
        obtain ⟨s3, h2, h3⟩ := exceptBind_ok h'
        simp only [pure, Except.pure, Except.ok.injEq] at h3
        obtain ⟨hle_seg, _, hwritec⟩ := getSliceK_cnt_facts _ _ _ _ hseg
        have hits2c := hwritec xs its2 hw
        have hms2 : s2.m = s3.m := by
          rw [← h3]
          rfl
        have hs3own : getSide s3.m b = getSide (setItems s1.m b k its2) b := by
          unfold mmLinkAll at h2
          obtain ⟨s3p, h2a, h2b⟩ := exceptBind_ok h2
          simp only [pure, Except.pure, Except.ok.injEq] at h2b
          obtain ⟨htrL, hownP, hpresL, _⟩ := mmLinkPass1_tr _ _ _ _ _ h2a
          obtain ⟨hmNp, _⟩ := mmNotifyPass_facts b xs s3p hpresL
          rw [← h2b, hmNp, hownP]
        have hsfin : sitems s2.m b k = its2 := by
          rw [hms2, sitems_eq_of_getSide_eq _ _ _ hs3own k, sitems_setItems_self]
        have hsetL : sideKind (!b) kl kr = .set → xs.Nodup ∧
            ∀ a ∈ xs, cnt (setItems s1.m b k its2) (!b) a k = 0 := by
          intro hs2
          have hchk : sideKind b kl kr = .checkedList := by
            rcases goodKinds_own_of_opp_set hmix b hs2 with hx | hx
            · exact absurd (Or.inl hx) hguard
            · exact hx
          have hnodup : (mview s2.m b k).Nodup := hchkfin hchk
          have hmv : mview s2.m b k = membersK (sideKind b kl kr) its2 := by
            show membersK _ (sitems s2.m b k) = _
            rw [hsfin]
          rw [hmv] at hnodup
          have hle := cntK_le_one_of_nodup (sideKind b kl kr)
            (fun hc => hguard (Or.inr hc)) _ hnodup
          constructor
          · rw [List.nodup_iff_count_le_one]
            intro a
            have ha1 := hle a
            have ha2 := hits2c a
            have ha3 := hle_seg a
            omega
          · intro a ha
            have hxc : 0 < xs.count a := List.count_pos_iff.mpr ha
            have ha1 := hle a
            have ha2 := hits2c a
            have ha3 := hle_seg a
            rw [cnt_setItems_neg, hc1 a]
            have hsymv : cnt s.m (!b) a k =
                cntK (sideKind b kl kr) (sitems s.m b k) a := by
              rw [← sym_flip s.m hsym b k a]
              rfl
            rw [hsymv]
            omega
        have hwfL : ∀ k2, WFits (sideKind (!b) kl kr)
            (sitems (setItems s1.m b k its2) (!b) k2) := by
          intro k2
          rw [sitems_setItems_neg]
          exact hc3 k2
        have hndL : ((getSide (setItems s1.m b k its2) (!b)).map Prod.fst).Nodup := by
          rw [getSide_setItems_neg]
          exact hkndU
        obtain ⟨hc1L, hc2L, hc3L, hownL, hkndL⟩ :=
          mmLinkAll_spec _ _ _ _ _ h2 hwfL hsetL hndL
        simp only [] at hc1L hc2L hc3L hownL hkndL
        simp only [cnt_setItems_neg] at hc1L hc2L
        constructor
        · refine Sym_shift s.m s2.m b k
            (fun x => (xs.count x : Int) - (seg.count x : Int)) ?_ ?_ ?_ ?_ hsym
          · intro x
            show cnt s2.m b k x = cnt s.m b k x + ((xs.count x : Int) - (seg.count x : Int))
            rw [show cnt s2.m b k x = cntK (sideKind b kl kr) its2 x from by
              unfold cnt
              rw [hsfin]]
            rw [hits2c x]
            unfold cnt
            omega
          · intro k2 x hk2
            rw [hms2,
              show cnt s3.m b k2 x = cnt (setItems s1.m b k its2) b k2 x from
                cnt_eq_of_getSide_eq _ _ _ hs3own k2 x,
              cnt_setItems_ne _ _ _ _ _ hk2,
              show cnt s1.m b k2 x = cnt (touch s.m b k) b k2 x from
                cnt_eq_of_getSide_eq _ _ _ hownU k2 x,
              cnt_touch]
          · intro a2
            show cnt s2.m (!b) a2 k = cnt s.m (!b) a2 k +
              ((xs.count a2 : Int) - (seg.count a2 : Int))
            rw [hms2, hc1L a2, hc1 a2]
            ring
          · intro a2 x hx
            rw [hms2, hc2L a2 x hx, hc2 a2 x hx]
        · refine WF_of_sides s2.m b ?_ ?_ ?_ ?_
          · rw [hms2, hs3own]
            unfold setItems
            rw [getSide_setSide_self]
            refine keys_aset _ _ _ ?_
            rw [hownU]
            exact keys_touch s.m b k (WF_keys s.m hwf b)
          · rw [hms2]
            exact hkndL
          · intro k2
            rw [hms2, sitems_eq_of_getSide_eq _ _ _ hs3own k2]
            by_cases hk : k2 = k
            · subst hk
              rw [sitems_setItems_self]
              exact writeSliceK_ok_WFits _ _ _ _ _ hw
            · rw [sitems_setItems_ne _ _ _ _ _ hk,
                sitems_eq_of_getSide_eq _ _ _ hownU k2, sitems_touch]
              exact hwf.2.2 b k2
          · intro k2
            rw [hms2]
            exact hc3L k2

theorem alook_aerase_ne (xs : List (Nat × α)) (k k2 : Nat) (h : k2 ≠ k) :
    alook (aerase xs k) k2 = alook xs k2 := by
  induction xs with
  | nil => rfl
  | cons p xs ih =>
    by_cases hp : p.1 = k
    · simp only [aerase, if_pos hp]
      show alook xs k2 = if p.1 = k2 then some p.2 else alook xs k2
      rw [if_neg (by rw [hp]; exact fun hc => h hc.symm)]
    · simp only [aerase, if_neg hp]
      show (if p.1 = k2 then some p.2 else alook (aerase xs k) k2) =
        if p.1 = k2 then some p.2 else alook xs k2
      rw [ih]

theorem keys_aerase_sublist (xs : List (Nat × α)) (k : Nat) :
    ((aerase xs k).map Prod.fst).Sublist (xs.map Prod.fst) := by
  induction xs with
  | nil => exact List.Sublist.refl _
  | cons p xs ih =>
    by_cases hp : p.1 = k
    · simp only [aerase, if_pos hp, List.map_cons]
      exact List.sublist_cons_self _ _
    · simp only [aerase, if_neg hp, List.map_cons]
      exact ih.cons₂ _

theorem keys_aerase_nodup (xs : List (Nat × α)) (k : Nat)
    (h : (xs.map Prod.fst).Nodup) : ((aerase xs k).map Prod.fst).Nodup :=
  (keys_aerase_sublist xs k).nodup h

theorem cnt_nonneg_good (hmix : ¬ mixedKinds kl kr)
    (hcc : ¬ (kl = .counter ∧ kr = .counter)) (m : M2M kl kr) (hsym : Sym m)
    (b : Bool) (k a : Nat) : 0 ≤ cnt m b k a := by
  by_cases hκ : sideKind b kl kr = .counter
  · have hopp : sideKind (!b) kl kr ≠ .counter := by
      cases b
      · exact fun hc => hcc ⟨hc, hκ⟩
      · exact fun hc => hcc ⟨hκ, hc⟩
    rw [sym_flip m hsym b k a]
    exact cntK_nonneg _ hopp _ _
  · exact cntK_nonneg _ hκ _ _

/-- `del side[key]` on a non-counter side preserves the invariants. -/
theorem opSideDel_preserves (b : Bool) (k : Nat) (s s2 : St kl kr)
    (hκc : sideKind b kl kr ≠ .counter)
    (hsym : Sym s.m) (hwf : WF s.m)
    (h : opSideDel b k s = .ok s2) : Sym s2.m ∧ WF s2.m := by
  unfold opSideDel at h
  cases hpop : apop (getSide s.m b) k with
  | none =>
    rw [hpop] at h
    exact absurd h (by simp)
  | some p =>
    obtain ⟨its, rest⟩ := p
    rw [hpop] at h
    simp only [] at h
    obtain ⟨s1, h1, h2⟩ := exceptBind_ok h
    simp only [pure, Except.pure, Except.ok.injEq] at h2
    obtain ⟨halook, hrest⟩ := apop_some _ _ _ _ hpop
    subst hrest
    have hms2 : s2.m = s1.m := by
      rw [← h2]
      rfl
    have hits : sitems s.m b k = its := sitems_eq_of_alook s.m b k its halook
    have hs0own_k : sitems (setSide s.m b (aerase (getSide s.m b) k)) b k
        = kindEmpty (sideKind b kl kr) := by
      unfold sitems
      rw [getSide_setSide_self, alook_aerase_self _ _ (WF_keys s.m hwf b)]
      rfl
    have hs0own_ne : ∀ k2, k2 ≠ k →
        sitems (setSide s.m b (aerase (getSide s.m b) k)) b k2 = sitems s.m b k2 := by
      intro k2 hk2
      unfold sitems
      rw [getSide_setSide_self, alook_aerase_ne _ _ _ hk2]
    have hwfT : ∀ k2, WFits (sideKind (!b) kl kr)
        (sitems (setSide s.m b (aerase (getSide s.m b) k)) (!b) k2) := by
      intro k2
      rw [sitems_setSide_neg]
      exact hwf.2.2 (!b) k2
    have hndT : ((getSide (setSide s.m b (aerase (getSide s.m b) k)) (!b)).map
        Prod.fst).Nodup := by
      rw [getSide_setSide_neg]
      exact WF_keys s.m hwf (!b)
    obtain ⟨hc1, hc2, hc3, hownU, hkndU⟩ := mmUnlinkAll_spec _ _ _ _ _ h1 hwfT hndT
    simp only [] at hc1 hc2 hc3 hownU hkndU
    have hcnt0 : ∀ k2 a, cnt (setSide s.m b (aerase (getSide s.m b) k)) (!b) k2 a
        = cnt s.m (!b) k2 a := by
      intro k2 a
      unfold cnt
      rw [sitems_setSide_neg]
    simp only [hcnt0] at hc1 hc2
    have hmce : ∀ a, ((iterK (sideKind b kl kr) its).count a : Int) =
        cnt s.m b k a := by
      intro a
      rw [iterK_eq_membersK _ hκc its]
      have hwfi : WFits (sideKind b kl kr) its := by
        rw [← hits]
        exact hwf.2.2 b k
      have hnn : 0 ≤ cntK (sideKind b kl kr) its a := by
        rw [← hits]
        exact cnt_nonneg_of_not_counter s.m b k a hκc
      rw [members_count_eq_cnt _ _ _ hwfi hnn, ← hits]
      rfl
    have hown1 : ∀ k2 x, cnt s1.m b k2 x =
        cnt (setSide s.m b (aerase (getSide s.m b) k)) b k2 x := by
      intro k2 x
      exact cnt_eq_of_getSide_eq _ _ _ hownU k2 x
    constructor
    · rw [hms2]
      refine Sym_shift s.m s1.m b k (fun x => -(cnt s.m b k x)) ?_ ?_ ?_ ?_ hsym
      · intro x
        show cnt s1.m b k x = cnt s.m b k x + -(cnt s.m b k x)
        rw [hown1 k x]
        rw [show cnt (setSide s.m b (aerase (getSide s.m b) k)) b k x = 0 from by
          unfold cnt
          rw [hs0own_k, cntK_kindEmpty]]
        ring
      · intro k2 x hk2
        rw [hown1 k2 x]
        unfold cnt
        rw [hs0own_ne k2 hk2]
      · intro a
        show cnt s1.m (!b) a k = cnt s.m (!b) a k + -(cnt s.m b k a)
        rw [hc1 a, hmce a]
        ring
      · intro a x hx
        rw [hc2 a x hx]
    · rw [hms2]
      refine WF_of_sides s1.m b ?_ ?_ ?_ ?_
      · rw [hownU, getSide_setSide_self]
        exact keys_aerase_nodup _ _ (WF_keys s.m hwf b)
      · exact hkndU
      · intro k2
        rw [sitems_eq_of_getSide_eq _ _ _ hownU k2]
        by_cases hk : k2 = k
        · subst hk
          rw [hs0own_k]
          exact WFits_kindEmpty _
        · rw [hs0own_ne k2 hk]
          exact hwf.2.2 b k2
      · exact hc3

/-- Every public mutating operation preserves the counted symmetry and
well-formedness, on the kind combinations with no counter side and no
set-vs-list mismatch. -/
theorem runOp_preserves (op : MOp) (s s2 : St kl kr)
    (hmix : ¬ mixedKinds kl kr) (hnc : kl ≠ .counter ∧ kr ≠ .counter)
    (hsym : Sym s.m) (hwf : WF s.m)
    (h : runOp op s = .ok s2) : Sym s2.m ∧ WF s2.m := by
  have hcc : ¬ (kl = .counter ∧ kr = .counter) := fun hc => hnc.1 hc.1
  have hκc : ∀ b2 : Bool, sideKind b2 kl kr ≠ .counter := by
    intro b2
    cases b2
    · exact hnc.2
    · exact hnc.1
  cases op with
  | append b k a => exact opAppend_preserves b k a s s2 hmix hsym hwf h
  | extend b k xs => exact opExtend_preserves b k xs s s2 hmix hsym hwf h
  | remove b k a => exact opRemove_preserves b k a s s2 hsym hwf h
  | clear b k => exact opClear_preserves b k s s2 (hκc b) hsym hwf h
  | setIdx b k i a => exact opSetIdx_preserves b k i a s s2 hmix hsym hwf h
  | setSl b k sl xs => exact opSetSlice_preserves b k sl xs s s2 hmix hsym hwf h
  | delIdx b k i => exact opDelIdx_preserves b k i s s2 hsym hwf h
  | delSl b k sl => exact opDelSlice_preserves b k sl s s2 hsym hwf h
  | iadd b k xs => exact opIAdd_preserves b k xs s s2 hmix hcc hsym hwf h
  | ior b k xs => exact opIOr_preserves b k xs s s2 hmix hcc hsym hwf h
  | iand b k xs => exact opIAnd_preserves b k xs s s2 hmix hcc hsym hwf h
  | ixor b k xs => exact opIXor_preserves b k xs s s2 hmix hsym hwf h
  | sideSet b k xs => exact opSideSet_preserves b k xs s s2 hmix hcc hsym hwf h
  | sideDel b k => exact opSideDel_preserves b k s s2 (hκc b) hsym hwf h

theorem runSeq_preserves (ops : List MOp) (s s2 : St kl kr)
    (hmix : ¬ mixedKinds kl kr) (hnc : kl ≠ .counter ∧ kr ≠ .counter)
    (hsym : Sym s.m) (hwf : WF s.m)
    (h : runSeq ops s = .ok s2) : Sym s2.m ∧ WF s2.m := by
  induction ops generalizing s with
  | nil =>
    simp only [runSeq, List.foldlM_nil] at h
    simp only [pure, Except.pure, Except.ok.injEq] at h
    subst h
    exact ⟨hsym, hwf⟩
  | cons op ops ih =>
    simp only [runSeq, List.foldlM_cons] at h
    obtain ⟨s1, h1, hrest⟩ := exceptBind_ok h
    obtain ⟨hsym1, hwf1⟩ := runOp_preserves op s s1 hmix hnc hsym hwf h1
    exact ih s1 hsym1 hwf1 hrest

theorem Sym_init : Sym (initSt kl kr).m := by
  intro k a
  cases (rfl : initSt kl kr = initSt kl kr)
  show cntK kl (kindEmpty kl) a = cntK kr (kindEmpty kr) k
  rw [cntK_kindEmpty, cntK_kindEmpty]

theorem WF_init : WF (initSt kl kr).m := by
  refine ⟨List.nodup_nil, List.nodup_nil, ?_⟩
  intro b k
  cases b
  · exact WFits_kindEmpty _
  · exact WFits_kindEmpty _

/-- C1, amended: on every kind combination in which neither side is a
`counter` and no `set` side is paired with a `list` side (that is:
list–list, list–checked, checked–checked, set–set and set–checked, in
either order), every finite sequence of public mutating operations that
completes from a fresh `ManyToMany` reaches a state in which the
relation is symmetric, in the counted sense and hence also as
membership: `K2 ∈ left[K].items` iff `K ∈ right[K2].items`.  (Since
every prefix of such a sequence is itself such a sequence, the invariant
holds after each operation completes.)  The excluded combinations
genuinely break it (`Wmpy.c1_counterexample`): a set side forgets
multiplicities on remove, and `clear` on a counter side unlinks
`list(self._items)` — each key once — while the opposite side may hold
the key with a higher count. -/
theorem c1_symmetry_amended (kl kr : MMKind) (ops : List MOp) (s2 : St kl kr)
    (hmix : ¬ mixedKinds kl kr) (hnc : kl ≠ .counter ∧ kr ≠ .counter)
    (h : runSeq ops (initSt kl kr) = .ok s2) :
    Sym s2.m ∧ ∀ k a, (a ∈ mview s2.m true k ↔ k ∈ mview s2.m false a) := by
  obtain ⟨hsym, hwf⟩ := runSeq_preserves ops (initSt kl kr) s2 hmix hnc Sym_init WF_init h
  refine ⟨hsym, ?_⟩
  intro k a
  rw [show mview s2.m true k = membersK (sideKind true kl kr) (sitems s2.m true k) from rfl,
    show mview s2.m false a = membersK (sideKind false kl kr) (sitems s2.m false a) from rfl,
    mem_membersK_iff_cnt_pos _ _ (hwf.2.2 true k) a,
    mem_membersK_iff_cnt_pos _ _ (hwf.2.2 false a) k]
  have := hsym k a
  show 0 < cnt s2.m true k a ↔ 0 < cnt s2.m false a k
  omega

/-- The relation reached by `left[1].append(5)` on a fresh list–list
`ManyToMany`. -/
def c1WitM : M2M .list .list := ⟨[(1, [5])], [(5, [1])]⟩

/-- The full final state of that run, notifications included. -/
def c1WitSt : St .list .list := ⟨c1WitM, [⟨false, 5, c1WitM⟩, ⟨true, 1, c1WitM⟩]⟩

theorem c1_symmetry_amended_witness :
    Sym c1WitSt.m ∧ ∀ k a, (a ∈ mview c1WitSt.m true k ↔ k ∈ mview c1WitSt.m false a) :=
  c1_symmetry_amended .list .list [.append true 1 5] c1WitSt
    (fun hc => by rcases hc with ⟨hc, -⟩ | ⟨hc, -⟩ <;> exact MMKind.noConfusion hc)
    ⟨fun hc => MMKind.noConfusion hc, fun hc => MMKind.noConfusion hc⟩
    rfl

end Wmpy
